import Mathlib

/-!
A shallow embedding of the Go package `config` (stanza-go/config)

The package keeps one process-wide `map[string]any` (`configData`), reads it
through dotted keys, lets environment variables override it, and coerces the
dynamically typed values to the type a getter asks for.

Modelling choices.

* A Go `any` is the inductive type `Value`.  A Go map is an association list
  wrapped in `Option`: `none` is the typed nil map, `some entries` an allocated
  map.  A Go slice is a list wrapped in `Option` in the same way.
* Signed integers are `Int`, unsigned integers are `Nat`; every conversion the
  source writes (`int32(val)`, `uint16(val)`, ...) wraps explicitly modulo the
  width.  `int` and `uint` are 64 bits wide.
* A Go panic (assignment into a nil map) is the result `none` of the
  operation that raises it.
* The store is written twice.  `getLoop`, `setLoop` and the getters hold it
  as a tree by value, without the sharing between map objects.  `getLoopRef`,
  `setLoopRef`, `SetRef` and `AllSettingsRef` hold it as Go does, on a heap of
  tables and backing arrays: a map is a reference, an assignment changes the
  table in place, and a map stored under two keys is one object.  What
  depends on sharing is stated on the heap.
* Go standard-library behaviour that is not re-implemented here (floating
  point parsing and formatting, float to integer conversion, upper-casing of
  non-ASCII runes, the float product in the fraction of a duration literal) is
  the record `Lib`, a parameter of every function that needs it.
  `strconv.Atoi`, `strconv.ParseInt`, `strconv.ParseUint`, `strconv.ParseBool`
  and `time.ParseDuration` are written out from the standard library's source.
* Operations run one at a time.  The read/write lock `mu` is followed in a
  separate section, on the order in which the statements of a call take and
  release the lock and touch the tree.
* The env file is read through the lines the scanner yields; `os.Setenv` is
  written out from `syscall.Setenv` on Unix.
-/

namespace Config

/-! ## Go values -/

/-- IEEE-754 binary64 value, kept as its bit pattern. -/
structure Float64 where
  bits : Nat
  deriving DecidableEq, Repr

/-- IEEE-754 binary32 value, kept as its bit pattern. -/
structure Float32 where
  bits : Nat
  deriving DecidableEq, Repr

/-- The float64 constant `0` (positive zero). -/
def Float64.zero : Float64 := ⟨0⟩

/-- Go's `val != 0` on a float64: false exactly on the two zeros
(sign bit aside, all bits clear). -/
def Float64.isNonzero (f : Float64) : Bool := f.bits % 2 ^ 63 != 0

/-- The dynamic value held by a Go `any`.  `other t` stands for a value of any
dynamic type the package never names (int8, time.Time, a struct, ...). -/
inductive Value where
  | null
  | bool (b : Bool)
  | int (i : Int)
  | int32 (i : Int)
  | int64 (i : Int)
  | uint (n : Nat)
  | uint16 (n : Nat)
  | uint32 (n : Nat)
  | uint64 (n : Nat)
  | float32 (f : Float32)
  | float64 (f : Float64)
  | str (s : String)
  | duration (d : Int)
  | strSlice (xs : Option (List String))
  | intSlice (xs : Option (List Int))
  | anySlice (xs : Option (List Value))
  | map (m : Option (List (String × Value)))
  | other (typeName : String)

/-- The entries of an allocated `map[string]any`. -/
abbrev Fields := List (String × Value)

/-- A `map[string]any`: `none` is the nil map. -/
abbrev GoMap := Option Fields

/-- A Go slice: `none` is the nil slice. -/
abbrev GoSlice (α : Type) := Option (List α)

/-- The dynamic type of a value, as a type switch sees it. -/
inductive GoType where
  | null | bool | int | int32 | int64 | uint | uint16 | uint32 | uint64
  | float32 | float64 | str | duration | strSlice | intSlice | anySlice | map | other
  deriving DecidableEq, Repr

/-- Dynamic type of a value. -/
def Value.typeOf : Value → GoType
  | .null => .null
  | .bool _ => .bool
  | .int _ => .int
  | .int32 _ => .int32
  | .int64 _ => .int64
  | .uint _ => .uint
  | .uint16 _ => .uint16
  | .uint32 _ => .uint32
  | .uint64 _ => .uint64
  | .float32 _ => .float32
  | .float64 _ => .float64
  | .str _ => .str
  | .duration _ => .duration
  | .strSlice _ => .strSlice
  | .intSlice _ => .intSlice
  | .anySlice _ => .anySlice
  | .map _ => .map
  | .other _ => .other

/-! ## Machine integers -/

/-- Width of `int` and `uint`. -/
def intSize : Nat := 64

/-- Conversion to an unsigned integer of width `w`: the value modulo `2^w`. -/
def wrapU (w : Nat) (i : Int) : Nat := (i % (2 : Int) ^ w).toNat

/-- Conversion to a signed integer of width `w`: the two's-complement value
congruent to `i` modulo `2^w`. -/
def wrapS (w : Nat) (i : Int) : Int :=
  (i + (2 : Int) ^ (w - 1)) % (2 : Int) ^ w - (2 : Int) ^ (w - 1)

/-! ## The standard library the package calls -/

/-- Standard-library functions used by the package and not re-implemented
here.  Each field is the value the Go function returns; an error result the
package discards is not part of the field's type. -/
structure Lib where
  /-- Go function `unicode.ToUpper` on a rune outside ASCII. -/
  unicodeUpper : Char → Char
  /-- First result of `strconv.ParseFloat(s, 64)`. -/
  parseFloat : String → Float64
  /-- Go function `strconv.FormatFloat(f, 'f', -1, 64)`. -/
  formatFloat : Float64 → String
  /-- Conversion of a float64 to a signed integer type of the given width. -/
  floatToSigned : Nat → Float64 → Int
  /-- Conversion of a float64 to an unsigned integer type of the given width. -/
  floatToUnsigned : Nat → Float64 → Nat
  /-- Conversion `float64(n)` of an integer. -/
  intToFloat : Int → Float64
  /-- Conversion `float64(x)` of a float32. -/
  float32To64 : Float32 → Float64
  /-- The fraction term of `time.ParseDuration`,
  `uint64(float64(f) * (float64(unit) / scale))` with `scale` the float64
  power `10^k`: arguments `f`, `k`, `unit`. -/
  fractionNanos : Nat → Nat → Nat → Nat

/-! ### package `strings` -/

/-- Length of a string in bytes, `len(s)`. -/
def goLen (s : String) : Nat := s.utf8ByteSize

/-- Pieces of a rune list between occurrences of the separator rune. -/
def splitRunes (sep : Char) : List Char → List (List Char)
  | [] => [[]]
  | c :: cs =>
    if c = sep then [] :: splitRunes sep cs
    else match splitRunes sep cs with
      | [] => [[c]]
      | p :: ps => (c :: p) :: ps

/-- Go function `strings.Split(s, sep)` for a separator of one ASCII rune. -/
def strings_Split (s : String) (sep : Char) : List String :=
  (splitRunes sep s.data).map String.mk

/-- Go function `strings.ReplaceAll(s, old, new)` for one-rune `old` and `new`. -/
def strings_ReplaceAll (s : String) (old new : Char) : String :=
  String.mk (s.data.map fun c => if c = old then new else c)

/-- Go function `unicode.ToUpper`: ASCII letters by the fixed offset, other runes by the
library's case tables. -/
def unicode_ToUpper (L : Lib) (c : Char) : Char :=
  if c.val < 128 then
    (if 'a' ≤ c ∧ c ≤ 'z' then Char.ofNat (c.toNat - 32) else c)
  else L.unicodeUpper c

/-- Go function `strings.ToUpper`. -/
def strings_ToUpper (L : Lib) (s : String) : String :=
  String.mk (s.data.map (unicode_ToUpper L))

/-- Go function `unicode.IsSpace`. -/
def unicode_IsSpace (c : Char) : Bool :=
  let n := c.toNat
  n == 9 || n == 10 || n == 11 || n == 12 || n == 13 || n == 32 ||
  n == 0x85 || n == 0xA0 || n == 0x1680 || (0x2000 ≤ n && n ≤ 0x200A) ||
  n == 0x2028 || n == 0x2029 || n == 0x202F || n == 0x205F || n == 0x3000

/-- Go function `strings.TrimSpace`. -/
def strings_TrimSpace (s : String) : String :=
  String.mk ((s.data.dropWhile unicode_IsSpace).reverse.dropWhile unicode_IsSpace).reverse

/-! ### package `strconv` -/

/-- The two errors of the integer parsers. -/
inductive NumError where
  | invalid
  | outOfRange
  deriving DecidableEq, Repr

/-- Whether a byte is an ASCII decimal digit. -/
def isDigit (c : Char) : Bool := '0' ≤ c && c ≤ '9'

/-- Value of an ASCII decimal digit. -/
def digitVal (c : Char) : Nat := c.toNat - 48

/-- The digit loop of `strconv.ParseUint` in base 10, with `n` the value
accumulated so far.  In the Go source, for each byte `c` of the string:

    switch { ... case '0' <= c && c <= '9': d = c - '0' ...
             default: return 0, syntaxError(fnParseUint, s0) }
    if d >= byte(base) { return 0, syntaxError(fnParseUint, s0) }
    if n >= cutoff { return maxVal, rangeError(fnParseUint, s0) }
    n *= uint64(base)
    n1 := n + uint64(d)
    if n1 < n || n1 > maxVal { return maxVal, rangeError(fnParseUint, s0) }
    n = n1

with `cutoff = maxUint64/10 + 1`.  A byte that is not a decimal digit ends the
loop with a syntax error and value 0 (letters are digits of a larger base and
fail `d >= byte(base)`); an overflow of `uint64` or of `maxVal` ends it at once
with a range error and value `maxVal`, whatever bytes follow. -/
def parseUintLoop (maxVal : Nat) : List Char → Nat → Nat × Option NumError
  | [], n => (n, none)
  | c :: cs, n =>
    if !isDigit c then (0, some .invalid)
    else if n ≥ (2 ^ 64 - 1) / 10 + 1 then (maxVal, some .outOfRange)
    else
      let n10 := n * 10
      let n1 := (n10 + digitVal c) % 2 ^ 64
      if n1 < n10 ∨ n1 > maxVal then (maxVal, some .outOfRange)
      else parseUintLoop maxVal cs n1

/-- Go function `strconv.ParseUint(s, 10, bitSize)`; `bitSize` 0 means `intSize`. -/
def strconv_ParseUint (s : String) (bitSize : Nat) : Nat × Option NumError :=
  if s = "" then (0, some .invalid)
  else
    let bits := if bitSize = 0 then intSize else bitSize
    parseUintLoop (2 ^ bits - 1) s.data 0

/-- Go function `strconv.ParseInt(s, 10, bitSize)`; `bitSize` 0 means `intSize`.  The Go
source strips one leading `+` or `-`, calls `ParseUint` on the rest, returns
`(0, err)` on an error other than the range error, and then clamps:

    cutoff := uint64(1 << uint(bitSize-1))
    if !neg && un >= cutoff { return int64(cutoff - 1), rangeError(fnParseInt, s0) }
    if neg && un > cutoff { return -int64(cutoff), rangeError(fnParseInt, s0) }
-/
def strconv_ParseInt (s : String) (bitSize : Nat) : Int × Option NumError :=
  if s = "" then (0, some .invalid)
  else
    let neg := s.data.head? = some '-'
    let body := if s.data.head? = some '+' ∨ s.data.head? = some '-' then String.mk s.data.tail else s
    match strconv_ParseUint body bitSize with
    | (_, some .invalid) => (0, some .invalid)
    | (un, _) =>
      let bits := if bitSize = 0 then intSize else bitSize
      let cutoff : Nat := 2 ^ (bits - 1)
      if !neg ∧ un ≥ cutoff then (((cutoff - 1 : Nat) : Int), some .outOfRange)
      else if neg ∧ un > cutoff then (-(cutoff : Int), some .outOfRange)
      else (if neg then -(un : Int) else (un : Int), none)

/-- The digit loop of the fast path of `strconv.Atoi`. -/
def atoiFastLoop : List Char → Int → Option Int
  | [], n => some n
  | c :: cs, n => if !isDigit c then none else atoiFastLoop cs (n * 10 + digitVal c)

/-- Go function `strconv.Atoi`: strings of 1 to 18 bytes take the fast path (an optional
sign, then digits accumulated without overflow check, any other byte a syntax
error with value 0); every other string goes through `ParseInt(s, 10, 0)` and
the result is converted with `int(i64)`. -/
def strconv_Atoi (s : String) : Int × Option NumError :=
  if 0 < goLen s ∧ goLen s < 19 then
    let signed := s.data.head? = some '-' ∨ s.data.head? = some '+'
    let body := if signed then s.data.tail else s.data
    if signed ∧ body.length < 1 then (0, some .invalid)
    else match atoiFastLoop body 0 with
      | none => (0, some .invalid)
      | some n => (if s.data.head? = some '-' then -n else n, none)
  else
    let r := strconv_ParseInt s 0
    (wrapS intSize r.1, r.2)

/-- Go function `strconv.ParseBool`. -/
def strconv_ParseBool (s : String) : Bool × Option NumError :=
  if s = "1" ∨ s = "t" ∨ s = "T" ∨ s = "TRUE" ∨ s = "true" ∨ s = "True" then (true, none)
  else if s = "0" ∨ s = "f" ∨ s = "F" ∨ s = "FALSE" ∨ s = "false" ∨ s = "False" then (false, none)
  else (false, some .invalid)

/-- Go function `strconv.FormatInt(i, 10)` and `strconv.Itoa`. -/
def strconv_FormatInt (i : Int) : String :=
  if i < 0 then "-" ++ Nat.repr i.natAbs else Nat.repr i.natAbs

/-- Go function `strconv.FormatBool`. -/
def strconv_FormatBool (b : Bool) : String := if b then "true" else "false"

/-! ### package `time` -/

/-- Go function `leadingInt` of package time, with `x` the value accumulated
so far: the leading digits and the rest of the string, `none` when the value
overflows `1<<63`. -/
def leadingInt : List Char → Nat → Option (Nat × List Char)
  | [], x => some (x, [])
  | c :: cs, x =>
    if !isDigit c then some (x, c :: cs)
    else if x > 2 ^ 63 / 10 then none
    else if x * 10 + digitVal c > 2 ^ 63 then none
    else leadingInt cs (x * 10 + digitVal c)

/-- Go function `leadingFraction` of package time: the digits after the
period as an integer `x`, the number `k` of digits taken (the scale is
`10^k`) and the rest of the string; digits after an overflow are skipped. -/
def leadingFraction : List Char → Nat → Nat → Bool → Nat × Nat × List Char
  | [], x, k, _ => (x, k, [])
  | c :: cs, x, k, overflow =>
    if !isDigit c then (x, k, c :: cs)
    else if overflow then leadingFraction cs x k true
    else if x > (2 ^ 63 - 1) / 10 then leadingFraction cs x k true
    else if x * 10 + digitVal c > 2 ^ 63 then leadingFraction cs x k true
    else leadingFraction cs (x * 10 + digitVal c) (k + 1) false

/-- The table `unitMap` of package time, in nanoseconds. -/
def unitMap (u : String) : Option Nat :=
  if u = "ns" then some 1
  else if u = "us" then some 1000
  else if u = "\u00b5s" then some 1000
  else if u = "\u03bcs" then some 1000
  else if u = "ms" then some 1000000
  else if u = "s" then some 1000000000
  else if u = "m" then some 60000000000
  else if u = "h" then some 3600000000000
  else none

/-- Whether a byte can start a number of a duration literal (a period or a
digit). -/
def isNumberByte (c : Char) : Bool := c == '.' || isDigit c

/-- Outcome of the term loop of `time.ParseDuration`. -/
inductive DurationLoop where
  | done (d : Nat)
  | failed
  | outOfFuel
  deriving DecidableEq, Repr

/-- The loop `for s != ""` of `time.ParseDuration`, with `d` the sum so far.
Each round reads one term (integer part, optional fraction, unit) and adds it
to `d`; `fuel` bounds the number of rounds. -/
def parseDurationLoop (L : Lib) : Nat → List Char → Nat → DurationLoop
  | _, [], d => .done d
  | 0, _ :: _, _ => .outOfFuel
  | fuel + 1, c :: cs, d =>
    if !isNumberByte c then .failed
    else match leadingInt (c :: cs) 0 with
      | none => .failed
      | some (v, s1) =>
        let pre := s1.length != (c :: cs).length
        let s2 := if s1.head? = some '.' then s1.tail else s1
        let fr := if s1.head? = some '.' then leadingFraction s2 0 0 false else (0, 0, s1)
        let post := s1.head? = some '.' && fr.2.2.length != s2.length
        if !pre && !post then .failed
        else
          let u := fr.2.2.takeWhile fun b => !isNumberByte b
          let rest := fr.2.2.dropWhile fun b => !isNumberByte b
          if u.length = 0 then .failed
          else match unitMap (String.mk u) with
            | none => .failed
            | some unit =>
              if v > 2 ^ 63 / unit then .failed
              else
                let v1 := if fr.1 > 0 then v * unit + L.fractionNanos fr.1 fr.2.1 unit else v * unit
                if fr.1 > 0 ∧ v1 > 2 ^ 63 then .failed
                else
                  let d1 := (d + v1) % 2 ^ 64
                  if d1 > 2 ^ 63 then .failed
                  else parseDurationLoop L fuel rest d1

/-- Go function `time.ParseDuration`: the duration in nanoseconds, `none` on
error.  A leading sign is taken off, the single string `0` is the zero
duration, the empty string is an error, and the terms are summed by the loop;
the loop removes at least one byte per round, so the length of the string is
enough fuel. -/
def time_ParseDuration (L : Lib) (s : String) : Option Int :=
  let neg := s.data.head? = some '-'
  let body := if s.data.head? = some '-' ∨ s.data.head? = some '+' then s.data.tail else s.data
  if body = ['0'] then some 0
  else if body = [] then none
  else match parseDurationLoop L body.length body 0 with
    | .done d =>
      if neg then some (wrapS 64 (-(wrapS 64 d)))
      else if d > 2 ^ 63 - 1 then none
      else some (wrapS 64 d)
    | _ => none

/-! ## converters.go -/

/-- Source function `toString`. -/
def toString (L : Lib) : Value → String
  | .str val => val
  | .int val => strconv_FormatInt val
  | .int64 val => strconv_FormatInt val
  | .float64 val => L.formatFloat val
  | .bool val => strconv_FormatBool val
  | _ => ""

/-- Source function `toBool`. -/
def toBool : Value → Bool
  | .bool val => val
  | .str val => (strconv_ParseBool val).1
  | .int val => val != 0
  | .int64 val => val != 0
  | .float64 val => val.isNonzero
  | _ => false

/-- Source function `toInt`. -/
def toInt (L : Lib) : Value → Int
  | .int val => val
  | .int64 val => wrapS intSize val
  | .float64 val => L.floatToSigned intSize val
  | .str val => (strconv_Atoi val).1
  | _ => 0

/-- Source function `toInt32`. -/
def toInt32 (L : Lib) : Value → Int
  | .int val => wrapS 32 val
  | .int32 val => val
  | .int64 val => wrapS 32 val
  | .float64 val => L.floatToSigned 32 val
  | .str val => wrapS 32 (strconv_ParseInt val 32).1
  | _ => 0

/-- Source function `toInt64`. -/
def toInt64 (L : Lib) : Value → Int
  | .int val => wrapS 64 val
  | .int32 val => wrapS 64 val
  | .int64 val => val
  | .float64 val => L.floatToSigned 64 val
  | .str val => (strconv_ParseInt val 64).1
  | _ => 0

/-- Source function `toUint`. -/
def toUint (L : Lib) : Value → Nat
  | .int val => wrapU intSize val
  | .int64 val => wrapU intSize val
  | .uint val => val
  | .uint64 val => wrapU intSize val
  | .float64 val => L.floatToUnsigned intSize val
  | .str val => wrapU intSize (strconv_ParseUint val 64).1
  | _ => 0

/-- Source function `toUint16`. -/
def toUint16 (L : Lib) : Value → Nat
  | .int val => wrapU 16 val
  | .int64 val => wrapU 16 val
  | .uint val => wrapU 16 val
  | .uint16 val => val
  | .uint64 val => wrapU 16 val
  | .float64 val => L.floatToUnsigned 16 val
  | .str val => wrapU 16 (strconv_ParseUint val 16).1
  | _ => 0

/-- Source function `toUint32`. -/
def toUint32 (L : Lib) : Value → Nat
  | .int val => wrapU 32 val
  | .int64 val => wrapU 32 val
  | .uint val => wrapU 32 val
  | .uint32 val => val
  | .uint64 val => wrapU 32 val
  | .float64 val => L.floatToUnsigned 32 val
  | .str val => wrapU 32 (strconv_ParseUint val 32).1
  | _ => 0

/-- Source function `toUint64`. -/
def toUint64 (L : Lib) : Value → Nat
  | .int val => wrapU 64 val
  | .int64 val => wrapU 64 val
  | .uint val => wrapU 64 val
  | .uint32 val => wrapU 64 val
  | .uint64 val => val
  | .float64 val => L.floatToUnsigned 64 val
  | .str val => (strconv_ParseUint val 64).1
  | _ => 0

/-- Source function `toFloat64`. -/
def toFloat64 (L : Lib) : Value → Float64
  | .float64 val => val
  | .float32 val => L.float32To64 val
  | .int val => L.intToFloat val
  | .int64 val => L.intToFloat val
  | .str val => L.parseFloat val
  | _ => Float64.zero

/-- Source function `toDuration`; a duration is a count of nanoseconds held in
an int64. -/
def toDuration (L : Lib) : Value → Int
  | .duration val => val
  | .int val => wrapS 64 val
  | .int64 val => val
  | .float64 val => L.floatToSigned 64 val
  | .str val =>
    match time_ParseDuration L val with
    | some d => d
    | none =>
      match strconv_ParseInt val 64 with
      | (i, none) => i
      | _ => 0
  | _ => 0

/-- Source function `toStringSlice`. -/
def toStringSlice (L : Lib) : Value → GoSlice String
  | .strSlice val => val
  | .anySlice (some val) => some (val.map (toString L))
  | .anySlice none => some []
  | _ => none

/-- Source function `toIntSlice`. -/
def toIntSlice (L : Lib) : Value → GoSlice Int
  | .intSlice val => val
  | .anySlice (some val) => some (val.map (toInt L))
  | .anySlice none => some []
  | _ => none

/-- Source function `toStringMap`. -/
def toStringMap : Value → GoMap
  | .map val => val
  | _ => some []

/-- Source function `splitAndTrimStringSlice`. -/
def splitAndTrimStringSlice (s : String) : GoSlice String :=
  if strings_TrimSpace s = "" then some []
  else some (((strings_Split s ',').map strings_TrimSpace).filter (fun trimmed => trimmed != ""))

/-- Source function `splitAndTrimIntSlice`. -/
def splitAndTrimIntSlice (s : String) : GoSlice Int :=
  if strings_TrimSpace s = "" then some []
  else some (((strings_Split s ',').map strings_TrimSpace).filterMap fun trimmed =>
    if trimmed = "" then none
    else match strconv_Atoi trimmed with
      | (i, none) => some i
      | _ => none)

/-! ## env.go -/

/-- The process environment: variable names with their values. -/
abbrev Env := List (String × String)

/-- Go function `os.LookupEnv`. -/
def os_LookupEnv (env : Env) (name : String) : Option String := env.lookup name

/-- The environment variable name consulted for a key: `.` becomes `_`, then
the whole name is upper-cased (first line of `getEnvValue`). -/
def envKey (L : Lib) (key : String) : String :=
  strings_ToUpper L (strings_ReplaceAll key '.' '_')

/-- Source function `getEnvValue`: `some v` is `(v, true)`, `none` is
`("", false)`. -/
def getEnvValue (L : Lib) (env : Env) (key : String) : Option String :=
  os_LookupEnv env (envKey L key)

/-! ## config.go -/

/-- The package state: the global `configData` and the process environment. -/
structure State where
  configData : GoMap
  env : Env

/-- Map index expression `m[k]` with the comma-ok result; reading a nil map
finds nothing. -/
def mapIndex (m : GoMap) (k : String) : Option Value :=
  match m with
  | none => none
  | some fs => fs.lookup k

/-- Entries after `m[k] = v` on an allocated map: the entry of `k` is
replaced, or added when `k` was absent. -/
def assocSet : Fields → String → Value → Fields
  | [], k, v => [(k, v)]
  | (k', v') :: rest, k, v =>
    if k' == k then (k, v) :: rest else (k', v') :: assocSet rest k v

/-- Map assignment `m[k] = v`; it panics (`none`) on the nil map. -/
def mapAssign (m : GoMap) (k : String) (v : Value) : Option GoMap :=
  match m with
  | none => none
  | some fs => some (some (assocSet fs k v))

/-- What a map holding a reference to a child map under `k` contains once the
child has been mutated to `v`. -/
def mapReflect (m : GoMap) (k : String) (v : Value) : GoMap :=
  m.map fun fs => assocSet fs k v

/-- The loop of `getFromMap` from the node `current` over the remaining
segments. -/
def getLoop : Value → List String → Option Value
  | current, [] => some current
  | current, part :: rest =>
    match current with
    | .map m =>
      match mapIndex m part with
      | some next => getLoop next rest
      | none => none
    | _ => none

/-- Source function `getFromMap`: `some v` is `(v, true)`, `none` is
`(nil, false)`. -/
def getFromMap (configData : GoMap) (key : String) : Option Value :=
  getLoop (.map configData) (strings_Split key '.')

/-- The loop of `setInMap` from the map `current` over the remaining segments:
the content of `current` when the loop has finished, `none` when it panics.
The map is held by value and its content is rebuilt along the path; the
sharing between map objects is not kept.  `setLoopRef` is the loop on the
heap, with the assignments in place. -/
def setLoop : GoMap → List String → Value → Option GoMap
  | current, [], _ => some current
  | current, [part], value => mapAssign current part value
  | current, part :: rest, value =>
    match (if (mapIndex current part).isNone then mapAssign current part (.map (some []))
           else some current) with
    | none => none
    | some c1 =>
      match mapIndex c1 part with
      | some (.map next) =>
        (setLoop next rest value).map fun next' => mapReflect c1 part (.map next')
      | _ =>
        match mapAssign c1 part (.map (some [])) with
        | none => none
        | some c2 =>
          (setLoop (some []) rest value).map fun next' => mapReflect c2 part (.map next')

/-- Source function `setInMap`: the new `configData`, `none` when the call
panics. -/
def setInMap (configData : GoMap) (key : String) (value : Value) : Option GoMap :=
  setLoop (if configData.isNone then some [] else configData) (strings_Split key '.') value

/-! ## setters.go -/

/-- Source function `Set`, on the tree held by value; `SetRef` is the function
on the heap. -/
def Set (σ : State) (key : String) (value : Value) : Option State :=
  (setInMap σ.configData key value).map fun m => { σ with configData := m }

/-- Source function `Reset`. -/
def Reset (σ : State) : State := { σ with configData := some [] }

/-! ## getters.go -/

/-- Source function `IsSet`. -/
def IsSet (L : Lib) (σ : State) (key : String) : Bool :=
  match getEnvValue L σ.env key with
  | some _ => true
  | none => (getFromMap σ.configData key).isSome

/-- Source function `GetString`. -/
def GetString (L : Lib) (σ : State) (key : String) : String :=
  match getEnvValue L σ.env key with
  | some val => val
  | none =>
    match getFromMap σ.configData key with
    | some val => toString L val
    | none => ""

/-- Source function `GetBool`. -/
def GetBool (L : Lib) (σ : State) (key : String) : Bool :=
  match getEnvValue L σ.env key with
  | some val => toBool (.str val)
  | none =>
    match getFromMap σ.configData key with
    | some val => toBool val
    | none => false

/-- Source function `GetInt`. -/
def GetInt (L : Lib) (σ : State) (key : String) : Int :=
  match getEnvValue L σ.env key with
  | some val => toInt L (.str val)
  | none =>
    match getFromMap σ.configData key with
    | some val => toInt L val
    | none => 0

/-- Source function `GetInt32`. -/
def GetInt32 (L : Lib) (σ : State) (key : String) : Int :=
  match getEnvValue L σ.env key with
  | some val => toInt32 L (.str val)
  | none =>
    match getFromMap σ.configData key with
    | some val => toInt32 L val
    | none => 0

/-- Source function `GetInt64`. -/
def GetInt64 (L : Lib) (σ : State) (key : String) : Int :=
  match getEnvValue L σ.env key with
  | some val => toInt64 L (.str val)
  | none =>
    match getFromMap σ.configData key with
    | some val => toInt64 L val
    | none => 0

/-- Source function `GetUint`. -/
def GetUint (L : Lib) (σ : State) (key : String) : Nat :=
  match getEnvValue L σ.env key with
  | some val => toUint L (.str val)
  | none =>
    match getFromMap σ.configData key with
    | some val => toUint L val
    | none => 0

/-- Source function `GetUint16`. -/
def GetUint16 (L : Lib) (σ : State) (key : String) : Nat :=
  match getEnvValue L σ.env key with
  | some val => toUint16 L (.str val)
  | none =>
    match getFromMap σ.configData key with
    | some val => toUint16 L val
    | none => 0

/-- Source function `GetUint32`. -/
def GetUint32 (L : Lib) (σ : State) (key : String) : Nat :=
  match getEnvValue L σ.env key with
  | some val => toUint32 L (.str val)
  | none =>
    match getFromMap σ.configData key with
    | some val => toUint32 L val
    | none => 0

/-- Source function `GetUint64`. -/
def GetUint64 (L : Lib) (σ : State) (key : String) : Nat :=
  match getEnvValue L σ.env key with
  | some val => toUint64 L (.str val)
  | none =>
    match getFromMap σ.configData key with
    | some val => toUint64 L val
    | none => 0

/-- Source function `GetFloat64`. -/
def GetFloat64 (L : Lib) (σ : State) (key : String) : Float64 :=
  match getEnvValue L σ.env key with
  | some val => toFloat64 L (.str val)
  | none =>
    match getFromMap σ.configData key with
    | some val => toFloat64 L val
    | none => Float64.zero

/-- Source function `GetDuration`. -/
def GetDuration (L : Lib) (σ : State) (key : String) : Int :=
  match getEnvValue L σ.env key with
  | some val => toDuration L (.str val)
  | none =>
    match getFromMap σ.configData key with
    | some val => toDuration L val
    | none => 0

/-- Source function `GetStringPtr`: `none` is the nil pointer. -/
def GetStringPtr (L : Lib) (σ : State) (key : String) : Option String :=
  if !IsSet L σ key then none else some (GetString L σ key)

/-- Source function `GetStringOr`. -/
def GetStringOr (L : Lib) (σ : State) (key : String) (defaultValue : String) : String :=
  if IsSet L σ key then GetString L σ key else defaultValue

/-- Source function `GetBoolOr`. -/
def GetBoolOr (L : Lib) (σ : State) (key : String) (defaultValue : Bool) : Bool :=
  if IsSet L σ key then GetBool L σ key else defaultValue

/-- Source function `GetIntOr`. -/
def GetIntOr (L : Lib) (σ : State) (key : String) (defaultValue : Int) : Int :=
  if IsSet L σ key then GetInt L σ key else defaultValue

/-- Source function `GetInt32Or`. -/
def GetInt32Or (L : Lib) (σ : State) (key : String) (defaultValue : Int) : Int :=
  if IsSet L σ key then GetInt32 L σ key else defaultValue

/-- Source function `GetInt64Or`. -/
def GetInt64Or (L : Lib) (σ : State) (key : String) (defaultValue : Int) : Int :=
  if IsSet L σ key then GetInt64 L σ key else defaultValue

/-- Source function `GetUintOr`. -/
def GetUintOr (L : Lib) (σ : State) (key : String) (defaultValue : Nat) : Nat :=
  if IsSet L σ key then GetUint L σ key else defaultValue

/-- Source function `GetUint16Or`. -/
def GetUint16Or (L : Lib) (σ : State) (key : String) (defaultValue : Nat) : Nat :=
  if IsSet L σ key then GetUint16 L σ key else defaultValue

/-- Source function `GetUint32Or`. -/
def GetUint32Or (L : Lib) (σ : State) (key : String) (defaultValue : Nat) : Nat :=
  if IsSet L σ key then GetUint32 L σ key else defaultValue

/-- Source function `GetUint64Or`. -/
def GetUint64Or (L : Lib) (σ : State) (key : String) (defaultValue : Nat) : Nat :=
  if IsSet L σ key then GetUint64 L σ key else defaultValue

/-- Source function `GetFloat64Or`. -/
def GetFloat64Or (L : Lib) (σ : State) (key : String) (defaultValue : Float64) : Float64 :=
  if IsSet L σ key then GetFloat64 L σ key else defaultValue

/-- Source function `GetDurationOr`. -/
def GetDurationOr (L : Lib) (σ : State) (key : String) (defaultValue : Int) : Int :=
  if IsSet L σ key then GetDuration L σ key else defaultValue

/-- Source function `GetStringSlice`. -/
def GetStringSlice (L : Lib) (σ : State) (key : String) : GoSlice String :=
  match getEnvValue L σ.env key with
  | some val => splitAndTrimStringSlice val
  | none =>
    match getFromMap σ.configData key with
    | some val => toStringSlice L val
    | none => none

/-- Source function `GetIntSlice`. -/
def GetIntSlice (L : Lib) (σ : State) (key : String) : GoSlice Int :=
  match getEnvValue L σ.env key with
  | some val => splitAndTrimIntSlice val
  | none =>
    match getFromMap σ.configData key with
    | some val => toIntSlice L val
    | none => none

/-- Source function `GetStringMap`: the environment is not consulted. -/
def GetStringMap (σ : State) (key : String) : GoMap :=
  match getFromMap σ.configData key with
  | some val => toStringMap val
  | none => some []

/-- Source function `convertEnvToType`. -/
def convertEnvToType (L : Lib) (envVal : String) (originalVal : Value) : Value :=
  match originalVal with
  | .bool _ => .bool (toBool (.str envVal))
  | .int _ => .int (toInt L (.str envVal))
  | .int32 _ => .int32 (toInt32 L (.str envVal))
  | .int64 _ => .int64 (toInt64 L (.str envVal))
  | .uint _ => .uint (toUint L (.str envVal))
  | .uint16 _ => .uint16 (toUint16 L (.str envVal))
  | .uint32 _ => .uint32 (toUint32 L (.str envVal))
  | .uint64 _ => .uint64 (toUint64 L (.str envVal))
  | .float32 _ => .float64 (toFloat64 L (.str envVal))
  | .float64 _ => .float64 (toFloat64 L (.str envVal))
  | .strSlice _ => .strSlice (splitAndTrimStringSlice envVal)
  | .intSlice _ => .intSlice (splitAndTrimIntSlice envVal)
  | .anySlice slice =>
    match slice with
    | some (first :: _) =>
      match first with
      | .int _ => .intSlice (splitAndTrimIntSlice envVal)
      | .int64 _ => .intSlice (splitAndTrimIntSlice envVal)
      | .float64 _ => .intSlice (splitAndTrimIntSlice envVal)
      | _ => .strSlice (splitAndTrimStringSlice envVal)
    | _ => .strSlice (splitAndTrimStringSlice envVal)
  | _ => .str envVal

/-- The default case of the type switch in `applyEnvOverrides`: the leaf `v`
of dotted key `key` with the environment consulted. -/
def overrideLeaf (L : Lib) (env : Env) (v : Value) (key : String) : Value :=
  match getEnvValue L env key with
  | some envVal => convertEnvToType L envVal v
  | none => v

mutual
/-- Source function `applyEnvOverrides` on one entry value `v` whose dotted key
is `key`: a nested map is processed recursively, any other value is replaced
by the converted environment value when there is one. -/
def applyValue (L : Lib) (env : Env) (v : Value) (key : String) : Value :=
  match v with
  | .map (some val) => .map (some (applyFields L env val key))
  | .map none => .map (some [])
  | .null => overrideLeaf L env .null key
  | .bool b => overrideLeaf L env (.bool b) key
  | .int i => overrideLeaf L env (.int i) key
  | .int32 i => overrideLeaf L env (.int32 i) key
  | .int64 i => overrideLeaf L env (.int64 i) key
  | .uint n => overrideLeaf L env (.uint n) key
  | .uint16 n => overrideLeaf L env (.uint16 n) key
  | .uint32 n => overrideLeaf L env (.uint32 n) key
  | .uint64 n => overrideLeaf L env (.uint64 n) key
  | .float32 f => overrideLeaf L env (.float32 f) key
  | .float64 f => overrideLeaf L env (.float64 f) key
  | .str s => overrideLeaf L env (.str s) key
  | .duration d => overrideLeaf L env (.duration d) key
  | .strSlice xs => overrideLeaf L env (.strSlice xs) key
  | .intSlice xs => overrideLeaf L env (.intSlice xs) key
  | .anySlice xs => overrideLeaf L env (.anySlice xs) key
  | .other t => overrideLeaf L env (.other t) key
/-- The loop of `applyEnvOverrides` over the entries of `data`. -/
def applyFields (L : Lib) (env : Env) (data : Fields) (pfx : String) : Fields :=
  match data with
  | [] => []
  | (k, v) :: rest =>
    (k, applyValue L env v (if pfx != "" then pfx ++ "." ++ k else k)) ::
      applyFields L env rest pfx
end

/-- Source function `applyEnvOverrides`: the result is always a freshly made
map, also for nil `data`. -/
def applyEnvOverrides (L : Lib) (env : Env) (data : GoMap) (pfx : String) : GoMap :=
  match data with
  | none => some []
  | some fs => some (applyFields L env fs pfx)

/-- Source function `AllSettings`. -/
def AllSettings (L : Lib) (σ : State) : GoMap :=
  applyEnvOverrides L σ.env σ.configData ""

/-! ## Trees without nil mappings -/

mutual
/-- No nil mapping occurs in the value, looking through nested mappings. -/
def Value.noNilMap : Value → Bool
  | .map none => false
  | .map (some fs) => fieldsNoNilMap fs
  | .null => true
  | .bool _ => true
  | .int _ => true
  | .int32 _ => true
  | .int64 _ => true
  | .uint _ => true
  | .uint16 _ => true
  | .uint32 _ => true
  | .uint64 _ => true
  | .float32 _ => true
  | .float64 _ => true
  | .str _ => true
  | .duration _ => true
  | .strSlice _ => true
  | .intSlice _ => true
  | .anySlice _ => true
  | .other _ => true
/-- No nil mapping occurs in the values of the entries. -/
def fieldsNoNilMap : Fields → Bool
  | [] => true
  | (_, v) :: rest => v.noNilMap && fieldsNoNilMap rest
end

/-! ## A library instance for closed examples -/

/-- A library in which runes outside ASCII have no upper case and every float
operation yields zero.  It only serves to evaluate the package at concrete
inputs. -/
def sampleLib : Lib where
  unicodeUpper := fun c => c
  parseFloat := fun _ => Float64.zero
  formatFloat := fun _ => "0"
  floatToSigned := fun _ _ => 0
  floatToUnsigned := fun _ _ => 0
  intToFloat := fun _ => Float64.zero
  float32To64 := fun _ => Float64.zero
  fractionNanos := fun _ _ _ => 0

/-! ## Notions used to state the claims -/

/-- ASCII lower case of a rune. -/
def asciiLower (c : Char) : Char :=
  if 'A' ≤ c ∧ c ≤ 'Z' then Char.ofNat (c.toNat + 32) else c

/-- Equality of two strings when the case of ASCII letters is ignored. -/
def equalsIgnoringCase (a b : String) : Bool :=
  a.data.map asciiLower == b.data.map asciiLower

/-- The dynamic types that are native integers. -/
def GoType.isInteger : GoType → Bool
  | .int | .int32 | .int64 | .uint | .uint16 | .uint32 | .uint64 => true
  | _ => false

/-- The dynamic types that are native numbers, integers and floats. -/
def GoType.isNumeric (t : GoType) : Bool :=
  t.isInteger || t == .float32 || t == .float64

/-- Value of a run of decimal digits read from the left, with `n` the value
of the digits already read. -/
def digitsValue : List Char → Nat → Nat
  | [], n => n
  | c :: cs, n => digitsValue cs (n * 10 + digitVal c)

/-- The integer a string writes in base 10, stated from the claims' words: an
optional sign `+` or `-` followed by at least one decimal digit and nothing
else; `none` for every other string. -/
def decimalValue (s : String) : Option Int :=
  let ds := if s.data.head? = some '+' ∨ s.data.head? = some '-' then s.data.tail else s.data
  if ds ≠ [] ∧ ∀ c ∈ ds, isDigit c = true then
    some (if s.data.head? = some '-' then -(digitsValue ds 0 : Int) else (digitsValue ds 0 : Int))
  else none

/-- The values of a signed integer type of width `w`. -/
def intRange (w : Nat) (n : Int) : Prop := -(2 : Int) ^ (w - 1) ≤ n ∧ n < (2 : Int) ^ (w - 1)

instance (w : Nat) (n : Int) : Decidable (intRange w n) := by
  unfold intRange
  exact inferInstance

/-- The int a piece of a comma list writes: its decimal reading when that is a
value of the 64-bit `int`, `none` otherwise. -/
def pieceInt (t : String) : Option Int :=
  match decimalValue t with
  | some n => if intRange 64 n then some n else none
  | none => none

/-- The values of an unsigned integer type of width `w`. -/
def uintRange (w : Nat) (n : Int) : Prop := 0 ≤ n ∧ n < (2 : Int) ^ w

instance (w : Nat) (n : Int) : Decidable (uintRange w n) := by
  unfold uintRange
  exact inferInstance

/-- The seven integer coercions of converters.go. -/
inductive IntTarget where
  | int | int32 | int64 | uint | uint16 | uint32 | uint64
  deriving DecidableEq, Repr

/-- The source function of each integer coercion, its result read as an
integer. -/
def IntTarget.coerce (L : Lib) : IntTarget → Value → Int
  | .int, v => toInt L v
  | .int32, v => toInt32 L v
  | .int64, v => toInt64 L v
  | .uint, v => (toUint L v : Int)
  | .uint16, v => (toUint16 L v : Int)
  | .uint32, v => (toUint32 L v : Int)
  | .uint64, v => (toUint64 L v : Int)

/-- Whether an integer is a value of the target type of a coercion. -/
def IntTarget.fits : IntTarget → Int → Prop
  | .int, n => intRange 64 n
  | .int32, n => intRange 32 n
  | .int64, n => intRange 64 n
  | .uint, n => uintRange 64 n
  | .uint16, n => uintRange 16 n
  | .uint32, n => uintRange 32 n
  | .uint64, n => uintRange 64 n

instance (t : IntTarget) (n : Int) : Decidable (t.fits n) := by
  cases t <;> unfold IntTarget.fits <;> exact inferInstance

/-- The integer held by a value of a native integer type. -/
def Value.intValue : Value → Option Int
  | .int i => some i
  | .int32 i => some i
  | .int64 i => some i
  | .uint n => some (n : Int)
  | .uint16 n => some (n : Int)
  | .uint32 n => some (n : Int)
  | .uint64 n => some (n : Int)
  | _ => none

/-- The native integer types named as a case in the type switch of each
integer coercion of converters.go. -/
def IntTarget.handles : IntTarget → GoType → Bool
  | .int, t => t == .int || t == .int64
  | .int32, t => t == .int || t == .int32 || t == .int64
  | .int64, t => t == .int || t == .int32 || t == .int64
  | .uint, t => t == .int || t == .int64 || t == .uint || t == .uint64
  | .uint16, t => t == .int || t == .int64 || t == .uint || t == .uint16 || t == .uint64
  | .uint32, t => t == .int || t == .int64 || t == .uint || t == .uint32 || t == .uint64
  | .uint64, t => t == .int || t == .int64 || t == .uint || t == .uint32 || t == .uint64

/-- The strings of a list joined with a one-rune separator between them. -/
def joinWith (sep : Char) (parts : List String) : String :=
  String.mk (List.intercalate [sep] (parts.map String.data))

/-- The override name of a key as the data model words it: the segments of the
key joined with `_`, in upper case. -/
def overrideName (L : Lib) (key : String) : String :=
  strings_ToUpper L (joinWith '_' (strings_Split key '.'))

/-- A sequence of `Set` calls run one after the other from a state; `none`
when one of them panics. -/
def runSets : State → List (String × Value) → Option State
  | σ, [] => some σ
  | σ, (key, value) :: ops =>
    match Set σ key value with
    | some σ' => runSets σ' ops
    | none => none

/-- The entries of a mapping that holds nothing but the path `segs` down to
the value `v`: one entry per level. -/
def chainFields : List String → Value → Fields
  | [], _ => []
  | [seg], v => [(seg, v)]
  | seg :: rest, v => [(seg, .map (some (chainFields rest v)))]

/-- The walk a dotted key describes, stated on segments: from the mapping `m`
every segment but the last is present in the current mapping and holds a
mapping, and the last segment is present in the last mapping with value `v`. -/
inductive Resolves : GoMap → List String → Value → Prop where
  | last (m : GoMap) (seg : String) (v : Value) :
      mapIndex m seg = some v → Resolves m [seg] v
  | step (m next : GoMap) (seg : String) (rest : List String) (v : Value) :
      mapIndex m seg = some (.map next) → Resolves next rest v → Resolves m (seg :: rest) v

/-- The key `applyEnvOverrides` computes for the entry `k` of a map it
processes under the prefix `pfx` (the first statement of its loop body). -/
def childKey (pfx k : String) : String :=
  if pfx != "" then pfx ++ "." ++ k else k

/-- The key `applyEnvOverrides`, started under the prefix `pfx`, has computed
when it reaches the entry at the end of a path of map keys. -/
def walkKey (pfx : String) : List String → String
  | [] => pfx
  | s :: rest => walkKey (childKey pfx s) rest

mutual
/-- No leaf of the value receives an override: the environment holds no
variable for the key the walk of `applyEnvOverrides` consults at that leaf,
`key` being the key computed for the value itself. -/
def Value.noOverride (L : Lib) (env : Env) : Value → String → Bool
  | .map none, _ => true
  | .map (some fs), key => fieldsNoOverride L env fs key
  | .null, key => (getEnvValue L env key).isNone
  | .bool _, key => (getEnvValue L env key).isNone
  | .int _, key => (getEnvValue L env key).isNone
  | .int32 _, key => (getEnvValue L env key).isNone
  | .int64 _, key => (getEnvValue L env key).isNone
  | .uint _, key => (getEnvValue L env key).isNone
  | .uint16 _, key => (getEnvValue L env key).isNone
  | .uint32 _, key => (getEnvValue L env key).isNone
  | .uint64 _, key => (getEnvValue L env key).isNone
  | .float32 _, key => (getEnvValue L env key).isNone
  | .float64 _, key => (getEnvValue L env key).isNone
  | .str _, key => (getEnvValue L env key).isNone
  | .duration _, key => (getEnvValue L env key).isNone
  | .strSlice _, key => (getEnvValue L env key).isNone
  | .intSlice _, key => (getEnvValue L env key).isNone
  | .anySlice _, key => (getEnvValue L env key).isNone
  | .other _, key => (getEnvValue L env key).isNone
/-- No leaf below the entries of a map processed under `pfx` receives an
override. -/
def fieldsNoOverride (L : Lib) (env : Env) : Fields → String → Bool
  | [], _ => true
  | (k, v) :: rest, pfx =>
    v.noOverride L env (childKey pfx k) && fieldsNoOverride L env rest pfx
end

/-! ## The tree with references

The definitions above hold a tree by value.  Go holds a `map[string]any` and a
`[]any` by reference; the definitions below keep that sharing, to follow what
a caller can reach through the map `AllSettings` returns and what `Set` does
to a map that is held in two places. -/

/-- A value as the runtime holds it: a `[]any` refers to its backing array and
a non-nil `map[string]any` to its table, both objects of the heap; every other
value is held directly. -/
inductive RVal where
  | direct (v : Value)
  | sliceAt (addr : Nat)
  | nilMap
  | mapAt (addr : Nat)

/-- An object of the heap: the backing array of a `[]any` or the table of a
`map[string]any`. -/
inductive Obj where
  | array (elems : List RVal)
  | table (entries : List (String × RVal))

/-- The heap: the object at address `a` is the element of index `a`. -/
abbrev Heap := List Obj

/-- The package state with references: the heap, the global `configData` and
the process environment. -/
structure RState where
  heap : Heap
  configData : RVal
  env : Env

/-- The value a reference value stands for in a heap, followed through at most
`fuel` references. -/
def reify (h : Heap) : Nat → RVal → Value
  | _, .direct v => v
  | _, .nilMap => .map none
  | 0, .sliceAt _ => .null
  | 0, .mapAt _ => .null
  | n + 1, .sliceAt a =>
    match h.get? a with
    | some (.array es) => .anySlice (some (es.map (reify h n)))
    | _ => .anySlice none
  | n + 1, .mapAt a =>
    match h.get? a with
    | some (.table fs) => .map (some (fs.map fun kv => (kv.1, reify h n kv.2)))
    | _ => .map none

/-- The entries a `range` over the map value visits. -/
def rangeEntries (h : Heap) : RVal → List (String × RVal)
  | .mapAt a =>
    match h.get? a with
    | some (.table fs) => fs
    | _ => []
  | _ => []

/-- Source function `applyEnvOverrides` on the heap, with `fuel` bounding the
depth of the recursion: the entries of the result are computed in order, the
result map is a new table of the heap.  A nested map is processed recursively;
for any other value the converted environment value is stored when there is
one (the type switch of `convertEnvToType` sees the value with the elements of
a `[]any` one level down), and otherwise the value itself, `result[k] = v`. -/
def applyEnvOverridesRef (L : Lib) (env : Env) : Nat → Heap → RVal → String → Heap × RVal
  | 0, h, _, _ => (h, .nilMap)
  | n + 1, h, data, pfx =>
    let step : Heap × List (String × RVal) → String × RVal → Heap × List (String × RVal) :=
      fun acc kv =>
        let key := if pfx != "" then pfx ++ "." ++ kv.1 else kv.1
        match kv.2 with
        | .mapAt a =>
          let r := applyEnvOverridesRef L env n acc.1 (.mapAt a) key
          (r.1, acc.2 ++ [(kv.1, r.2)])
        | .nilMap =>
          let r := applyEnvOverridesRef L env n acc.1 .nilMap key
          (r.1, acc.2 ++ [(kv.1, r.2)])
        | v =>
          match getEnvValue L env key with
          | some envVal =>
            (acc.1, acc.2 ++ [(kv.1, .direct (convertEnvToType L envVal (reify acc.1 1 v)))])
          | none => (acc.1, acc.2 ++ [(kv.1, v)])
    let out := (rangeEntries h data).foldl step (h, [])
    (out.1 ++ [.table out.2], .mapAt out.1.length)

/-- Source function `AllSettings` on the heap: the heap after the call and the
returned map.  The recursion is given one level per object of the heap, which
is enough for every tree without a cycle. -/
def AllSettingsRef (L : Lib) (σ : RState) : Heap × RVal :=
  applyEnvOverridesRef L σ.env (σ.heap.length + 1) σ.heap σ.configData ""

/-- Go statement `s[i] = x` for the `[]any` whose backing array is at `a`. -/
def storeElem (h : Heap) (a i : Nat) (x : RVal) : Heap :=
  match h.get? a with
  | some (.array es) => h.set a (.array (es.set i x))
  | _ => h

/-- Go expression `m[k]` for the map value `m` of the heap. -/
def loadEntry (h : Heap) (m : RVal) (k : String) : Option RVal :=
  (rangeEntries h m).lookup k

/-- The stored configuration as a tree held by value, which is what the
getters read. -/
def storedState (σ : RState) : State :=
  { configData :=
      match reify σ.heap (σ.heap.length + 1) σ.configData with
      | .map m => m
      | _ => none
    env := σ.env }

/-- The integers of a list of strings, stated from the claim's words: base-10
integer parsing applied to each element in order, keeping the elements that
parse. -/
def parseInts (xs : List String) : List Int :=
  xs.filterMap fun t =>
    match strconv_Atoi t with
    | (i, none) => some i
    | _ => none

/-- Two dotted keys neither of which continues the other: neither list of
segments is a prefix of the other. -/
def unrelatedKeys (k k' : String) : Prop :=
  ¬ strings_Split k '.' <+: strings_Split k' '.' ∧ ¬ strings_Split k' '.' <+: strings_Split k '.'

instance (k k' : String) : Decidable (unrelatedKeys k k') := by
  unfold unrelatedKeys
  exact inferInstance

/-! ## env.go: the env file -/

/-- The double quote. -/
def dquote : Char := Char.ofNat 34

/-- The single quote. -/
def squote : Char := Char.ofNat 39

/-- The NUL byte. -/
def nul : Char := Char.ofNat 0

/-- Go function `strings.Index(s, sep)` for a separator of one ASCII rune, on
the runes of `s`; `none` is the result -1. -/
def strings_Index (sep : Char) : List Char → Option Nat
  | [] => none
  | c :: cs => if c = sep then some 0 else (strings_Index sep cs).map (· + 1)

/-- The environment after a variable has been given a value. -/
def envSet : Env → String → String → Env
  | [], k, v => [(k, v)]
  | (k', v') :: rest, k, v => if k' == k then (k, v) :: rest else (k', v') :: envSet rest k v

/-- Go function `os.Setenv` (`syscall.Setenv` on Unix): it fails, `none`, on an
empty name, on a name holding `=` or a NUL byte and on a value holding a NUL
byte, and sets the variable otherwise. -/
def os_Setenv (env : Env) (key value : String) : Option Env :=
  if key = "" ∨ '=' ∈ key.data ∨ nul ∈ key.data ∨ nul ∈ value.data then none
  else some (envSet env key value)

/-- The body of the loop of `loadDotenv` for one line `text` the scanner
yields.  The quotes being ASCII, the first and the last byte of the value are
quotes exactly when its first and last runes are; the error of `os.Setenv` is
dropped, as in the source. -/
def loadDotenvLine (env : Env) (text : String) : Env :=
  let line := strings_TrimSpace text
  if line = "" ∨ line.data.head? = some '#' then env
  else
    match strings_Index '=' line.data with
    | none => env
    | some idx =>
      let key := strings_TrimSpace (String.mk (line.data.take idx))
      let value := strings_TrimSpace (String.mk (line.data.drop (idx + 1)))
      let value :=
        if goLen value ≥ 2 ∧
            ((value.data.head? = some dquote ∧ value.data.getLast? = some dquote) ∨
              (value.data.head? = some squote ∧ value.data.getLast? = some squote)) then
          String.mk (value.data.drop 1).dropLast
        else value
      match os_Setenv env key value with
      | some env' => env'
      | none => env

/-- Source function `loadDotenv` on the lines the scanner yields from the
file: the environment after the call. -/
def loadDotenv (env : Env) (lines : List String) : Env :=
  lines.foldl loadDotenvLine env

/-- The text of a line before its first `sep`, stated from the claim's words. -/
def textBefore (sep : Char) (s : String) : String :=
  String.mk (s.data.takeWhile fun c => c != sep)

/-- The text of a line after its first `sep`, stated from the claim's words. -/
def textAfter (sep : Char) (s : String) : String :=
  String.mk ((s.data.dropWhile fun c => c != sep).drop 1)

/-- One layer of surrounding quotes removed, stated from the claim's words:
when the value has at least two characters and begins and ends with the same
quote character, what stands between them; otherwise the value itself. -/
def unquote (v : String) : String :=
  if v.data.length ≥ 2 ∧
      ((v.data.head? = some dquote ∧ v.data.getLast? = some dquote) ∨
        (v.data.head? = some squote ∧ v.data.getLast? = some squote)) then
    String.mk (v.data.drop 1).dropLast
  else v

/-- The name a line of the env file gives: the trimmed text before the first
`=` of the trimmed line. -/
def lineName (text : String) : String :=
  strings_TrimSpace (textBefore '=' (strings_TrimSpace text))

/-- The value a line of the env file gives: the trimmed text after the first
`=` of the trimmed line, without one layer of surrounding quotes. -/
def lineValue (text : String) : String :=
  unquote (strings_TrimSpace (textAfter '=' (strings_TrimSpace text)))

/-- The lines that set nothing by the claim's words: empty after trimming,
starting with `#`, or without `=`. -/
def lineSkipped (text : String) : Prop :=
  strings_TrimSpace text = "" ∨ (strings_TrimSpace text).data.head? = some '#' ∨
    '=' ∉ (strings_TrimSpace text).data

instance (text : String) : Decidable (lineSkipped text) := by
  unfold lineSkipped
  exact inferInstance

/-! ## The lock

The functions above run one at a time.  The definitions below keep, for every
function of the package that touches the store, the order in which its
statements take and release the lock `mu` and read or assign the tree. -/

/-- A statement as the lock sees it: `mu.RLock()`, `mu.RUnlock()`,
`mu.Lock()`, `mu.Unlock()`, a statement that reads `configData` or a map
reachable from it, a statement that assigns `configData` or an entry of a map
reachable from it, and a statement that touches neither the lock nor the
tree. -/
inductive Step where
  | rLock
  | rUnlock
  | wLock
  | wUnlock
  | readTree
  | writeTree
  | other
  deriving DecidableEq

/-- What a goroutine holds of the lock `mu`. -/
inductive Held where
  | nothing
  | reading
  | writing
  deriving DecidableEq

/-- Source function `getFromMap`: the read lock is taken first and released on
return (`defer`); the key is split and the tree walked in between. -/
def getFromMap_steps : List Step := [.rLock, .other, .readTree, .rUnlock]

/-- Source function `setInMap`, for a call whose loop makes `n` assignments:
the write lock is held from the first statement to the return. -/
def setInMap_steps (n : Nat) : List Step :=
  [.wLock, .readTree] ++ List.replicate n .writeTree ++ [.wUnlock]

/-- Source function `Set`: it calls `setInMap`. -/
def Set_steps (n : Nat) : List Step := setInMap_steps n

/-- Source function `Reset`. -/
def Reset_steps : List Step := [.wLock, .writeTree, .wUnlock]

/-- Source function `Init`: the files are read first, then the tree is
assigned by `yaml.Unmarshal(data, &configData)` under the write lock. -/
def Init_steps : List Step := [.other, .other, .wLock, .writeTree, .wUnlock]

/-- Source function `IsSet`: the environment is looked up, and `getFromMap` is
called when no variable is found. -/
def IsSet_steps (envFound : Bool) : List Step :=
  if envFound then [.other] else .other :: getFromMap_steps

/-- Source function `AllSettings`: `applyEnvOverrides` walks the tree under
the read lock. -/
def AllSettings_steps : List Step := [.rLock, .readTree, .rUnlock]

/-- Source function `Unmarshal`: `applyEnvOverrides` and the two yaml calls
run under the read lock. -/
def Unmarshal_steps : List Step := [.rLock, .readTree, .other, .other, .rUnlock]

/-- Source function `UnmarshalKey`: `getFromMap` is called, which releases the
lock on return; then, when the key was found, `applyEnvOverrides` walks the
mapping found (`isMap`) or the environment is looked up, and the two yaml
calls follow. -/
def UnmarshalKey_steps (found isMap : Bool) : List Step :=
  getFromMap_steps ++
    (if found then (if isMap then [.readTree] else [.other]) ++ [.other, .other] else [])

/-- The lock discipline on the statements of one call, `held` being what the
goroutine holds before them: the tree is read under the read or the write
lock, assigned under the write lock, the lock is taken when nothing is held
and released by its holder, and nothing is held at the end. -/
def disciplined : Held → List Step → Bool
  | held, [] => held == .nothing
  | held, .rLock :: s => held == .nothing && disciplined .reading s
  | held, .rUnlock :: s => held == .reading && disciplined .nothing s
  | held, .wLock :: s => held == .nothing && disciplined .writing s
  | held, .wUnlock :: s => held == .writing && disciplined .nothing s
  | held, .readTree :: s => held != .nothing && disciplined held s
  | held, .writeTree :: s => held == .writing && disciplined held s
  | held, .other :: s => disciplined held s

/-- Go type `sync.RWMutex` between two goroutines: what a goroutine holds
after its statement, given what it and the other goroutine hold before;
`none` when the statement has to wait.  A reader waits for a writer inside,
a writer waits for anyone inside. -/
def acquire (mine other : Held) : Step → Option Held
  | .rLock => if other == .writing then none else some .reading
  | .rUnlock => some .nothing
  | .wLock => if other != .nothing || mine != .nothing then none else some .writing
  | .wUnlock => some .nothing
  | _ => some mine

/-- An interleaving of the statements of a reading call and of a writing call;
`turns` tells whose statement runs next (`true`: the reading call).  The result
is `none` when a statement runs that has to wait or a call has no statement
left, and otherwise tells whether a tree read of the reading call ran while
the writing call was inside the write lock. -/
def overlaps : Held → Held → List Step → List Step → List Bool → Option Bool
  | _, _, _, _, [] => some false
  | _, _, [], _, true :: _ => none
  | hR, hW, s :: reader, writer, true :: turns =>
    match acquire hR hW s with
    | none => none
    | some hR' =>
      if s = .readTree ∧ hW = .writing then some true
      else overlaps hR' hW reader writer turns
  | _, _, _, [], false :: _ => none
  | hR, hW, reader, s :: writer, false :: turns =>
    match acquire hW hR s with
    | none => none
    | some hW' => overlaps hR hW' reader writer turns

/-- The entries of a table after `m[k] = x`. -/
def entrySet : List (String × RVal) → String → RVal → List (String × RVal)
  | [], k, x => [(k, x)]
  | (k', x') :: rest, k, x => if k' == k then (k, x) :: rest else (k', x') :: entrySet rest k x

/-- Go statement `m[k] = x` for the map whose table is at `a`. -/
def storeEntry (h : Heap) (a : Nat) (k : String) (x : RVal) : Heap :=
  match h.get? a with
  | some (.table fs) => h.set a (.table (entrySet fs k x))
  | _ => h

/-- What the walk of `applyEnvOverrides` over the map value `m` exports from
the heap `h`, as a tree held by value. -/
def walkExport (L : Lib) (env : Env) (h : Heap) (m : RVal) (pfx : String) : Value :=
  let r := applyEnvOverridesRef L env (h.length + 1) h m pfx
  reify r.1 (r.1.length + 1) r.2

/-! ## The store with references

The store as Go holds it: `configData` refers to a table of the heap, and so
does every nested map.  A map value stored under two keys is one object, and
an assignment made through one key shows through the other. -/

/-- The loop of `getFromMap` on the heap, from the value `current` over the
remaining segments: the type assertion succeeds on a map only, and a nil map
holds no entry. -/
def getLoopRef (h : Heap) : RVal → List String → Option RVal
  | current, [] => some current
  | current, part :: rest =>
    match current with
    | .mapAt a =>
      match loadEntry h (.mapAt a) part with
      | some next => getLoopRef h next rest
      | none => none
    | _ => none

/-- Source function `getFromMap` on the heap: `some v` is `(v, true)`, `none`
is `(nil, false)`. -/
def getFromMapRef (σ : RState) (key : String) : Option RVal :=
  getLoopRef σ.heap σ.configData (strings_Split key '.')

/-- The loop of `setInMap` on the heap, from the map `current` over the
remaining segments: the heap when the loop has finished, `none` when it
panics (an assignment into the nil map).  The assignments `current[part] =
...` change the table `current` refers to, in place; `make` adds an empty
table to the heap. -/
def setLoopRef : Heap → RVal → List String → RVal → Option Heap
  | h, _, [], _ => some h
  | h, current, [part], value =>
    match current with
    | .mapAt a => some (storeEntry h a part value)
    | _ => none
  | h, current, part :: p2 :: rest, value =>
    match current with
    | .mapAt a =>
      let h1 :=
        if (loadEntry h (.mapAt a) part).isNone then
          storeEntry (h ++ [.table []]) a part (.mapAt h.length)
        else h
      match loadEntry h1 (.mapAt a) part with
      | some (.mapAt b) => setLoopRef h1 (.mapAt b) (p2 :: rest) value
      | some .nilMap => setLoopRef h1 .nilMap (p2 :: rest) value
      | _ =>
        setLoopRef (storeEntry (h1 ++ [.table []]) a part (.mapAt h1.length))
          (.mapAt h1.length) (p2 :: rest) value
    | _ => none

/-- The first statement of `setInMap`: a nil `configData` is replaced by a new
empty map.  The heap and `configData` after it. -/
def allocRoot (h : Heap) (configData : RVal) : Heap × RVal :=
  match configData with
  | .nilMap => (h ++ [.table []], .mapAt h.length)
  | root => (h, root)

/-- Source function `setInMap` on the heap: the heap and `configData` after
the call, `none` when it panics. -/
def setInMapRef (h : Heap) (configData : RVal) (key : String) (value : RVal) :
    Option (Heap × RVal) :=
  (setLoopRef (allocRoot h configData).1 (allocRoot h configData).2
      (strings_Split key '.') value).map
    fun h' => (h', (allocRoot h configData).2)

/-- Source function `Set` on the heap. -/
def SetRef (σ : RState) (key : String) (value : RVal) : Option RState :=
  (setInMapRef σ.heap σ.configData key value).map fun r =>
    { σ with heap := r.1, configData := r.2 }

/-- Source function `Reset` on the heap. -/
def ResetRef (σ : RState) : RState :=
  { σ with heap := σ.heap ++ [.table []], configData := .mapAt σ.heap.length }

/-- Source function `GetStringMap` on the heap: the heap after the call and the
map returned, which is the stored map itself when the key holds a map and a
new empty map otherwise. -/
def GetStringMapRef (σ : RState) (key : String) : Heap × RVal :=
  match getFromMapRef σ key with
  | some (.mapAt a) => (σ.heap, .mapAt a)
  | some .nilMap => (σ.heap, .nilMap)
  | _ => (σ.heap ++ [.table []], .mapAt σ.heap.length)

/-- A sequence of `Set` calls on the heap, run one after the other; `none`
when one of them panics. -/
def runSetsRef : RState → List (String × RVal) → Option RState
  | σ, [] => some σ
  | σ, (key, value) :: ops =>
    match SetRef σ key value with
    | some σ' => runSetsRef σ' ops
    | none => none

/-- The address `b` holds a table in the heap. -/
def isTable (h : Heap) (b : Nat) : Prop := ∃ es, h.get? b = some (.table es)

/-- Every map reached from `r` through map keys is a table of the heap. -/
def wellFormedFrom (h : Heap) (r : RVal) : Prop :=
  ∀ q b, getLoopRef h r q = some (.mapAt b) → isTable h b

/-- No map object is reached from `r` through two different paths of map
keys: below `r` the store is a tree, no map is held in two places and no map
holds itself. -/
def unsharedFrom (h : Heap) (r : RVal) : Prop :=
  ∀ q1 q2 b, getLoopRef h r q1 = some (.mapAt b) → getLoopRef h r q2 = some (.mapAt b) → q1 = q2

/-- A store whose `configData` is a map value, nil or not, whose maps are all
tables of the heap, and in which no map is held in two places. -/
def unsharedStore (σ : RState) : Prop :=
  (σ.configData = .nilMap ∨ ∃ a, σ.configData = .mapAt a) ∧
    wellFormedFrom σ.heap σ.configData ∧ unsharedFrom σ.heap σ.configData

/-- No nil map is held below the root of the store. -/
def noNilBelow (σ : RState) : Prop :=
  ∀ q, q ≠ [] → getLoopRef σ.heap σ.configData q ≠ some .nilMap

/-- The value holds no map of the store: every map reached from it through map
keys is a table of the heap, is reached from it through one path only, and is
not reached from the root of the store.  Every value that is not a map is
such, and so is a map built apart from the store. -/
def detached (σ : RState) (v : RVal) : Prop :=
  wellFormedFrom σ.heap v ∧ unsharedFrom σ.heap v ∧
    ∀ q1 q2 c, getLoopRef σ.heap σ.configData q1 = some (.mapAt c) →
      getLoopRef σ.heap v q2 = some (.mapAt c) → False

/-- What deep equality compares at a node of the heap by itself: a table
counts as such, whatever its address and its entries, which are compared at
the longer paths; every other value counts as it is. -/
def RVal.shape : RVal → RVal
  | .mapAt _ => .mapAt 0
  | r => r

/-- Deep equality of two stores of nested maps, stated on paths of map keys:
a path resolves in both stores or in neither, and where it resolves the two
values are both tables, or the same value that is not a table. -/
def sameStore (σ τ : RState) : Prop :=
  ∀ path : List String,
    (getLoopRef σ.heap σ.configData path).map RVal.shape =
      (getLoopRef τ.heap τ.configData path).map RVal.shape

/-! ## Lemmas on splitting and on maps -/

theorem splitRunes_ne_nil (sep : Char) (cs : List Char) : splitRunes sep cs ≠ [] := by
  induction cs with
  | nil => simp [splitRunes]
  | cons c cs ih =>
    unfold splitRunes
    split
    · simp
    · split <;> simp

theorem strings_Split_ne_nil (s : String) (sep : Char) : strings_Split s sep ≠ [] := by
  simp [strings_Split, splitRunes_ne_nil]

theorem lookup_assocSet_self (fs : Fields) (k : String) (v : Value) :
    (assocSet fs k v).lookup k = some v := by
  induction fs with
  | nil => simp [assocSet, List.lookup]
  | cons e rest ih =>
    obtain ⟨k', v'⟩ := e
    unfold assocSet
    by_cases h : (k' == k) = true
    · simp [h, List.lookup]
    · have h' : (k == k') = false := by
        simp only [beq_iff_eq, Bool.not_eq_true, beq_eq_false_iff_ne, ne_eq] at h ⊢
        exact fun e => h e.symm
      simp [h, List.lookup, h', ih]

theorem lookup_assocSet_other (fs : Fields) (k k2 : String) (v : Value) (hne : k2 ≠ k) :
    (assocSet fs k v).lookup k2 = fs.lookup k2 := by
  induction fs with
  | nil =>
    have : (k2 == k) = false := by simpa using hne
    simp [assocSet, List.lookup, this]
  | cons e rest ih =>
    obtain ⟨k', v'⟩ := e
    unfold assocSet
    by_cases h : (k' == k) = true
    · have hk : k' = k := by simpa using h
      have : (k2 == k) = false := by simpa using hne
      simp [h, List.lookup, this, hk]
    · simp only [h, Bool.false_eq_true, ↓reduceIte, List.lookup]
      split <;> simp_all

theorem mapIndex_mapReflect_self (m : Fields) (k : String) (v : Value) :
    mapIndex (mapReflect (some m) k v) k = some v := by
  simp [mapIndex, mapReflect, lookup_assocSet_self]

theorem mapAssign_eq_some (m m' : GoMap) (k : String) (v : Value)
    (h : mapAssign m k v = some m') : ∃ fs, m = some fs ∧ m' = some (assocSet fs k v) := by
  cases m with
  | none => simp [mapAssign] at h
  | some fs => exact ⟨fs, rfl, by simpa [mapAssign, eq_comm] using h⟩

/-- Whenever the loop of `setInMap` finishes, the loop of `getFromMap` over the
same segments finds the written value. -/
theorem getLoop_setLoop (parts : List String) (hne : parts ≠ []) :
    ∀ (current result : GoMap) (value : Value),
      setLoop current parts value = some result →
      getLoop (.map result) parts = some value := by
  induction parts with
  | nil => exact absurd rfl hne
  | cons part rest ih =>
    intro current result value h
    cases rest with
    | nil =>
      simp only [setLoop] at h
      obtain ⟨fs, -, rfl⟩ := mapAssign_eq_some _ _ _ _ h
      simp [getLoop, mapIndex, lookup_assocSet_self]
    | cons p2 rest2 =>
      have ih' := ih (by simp)
      rw [setLoop] at h
      pick_goal 2
      · simp
      split at h
      · exact absurd h (by simp)
      · rename_i c1 hc1
        have hc1some : ∃ fs1, c1 = some fs1 := by
          split at hc1
          · obtain ⟨fs, -, h2⟩ := mapAssign_eq_some _ _ _ _ hc1
            exact ⟨_, h2⟩
          · rename_i hnone
            cases current with
            | none => simp [mapIndex] at hnone
            | some fs => exact ⟨fs, by simpa using hc1.symm⟩
        obtain ⟨fs1, rfl⟩ := hc1some
        split at h
        · rename_i next hnext
          rw [Option.map_eq_some'] at h
          obtain ⟨next', hset, rfl⟩ := h
          have := ih' next next' value hset
          rw [getLoop]
          simp only [mapIndex_mapReflect_self]
          exact this
        · split at h
          · exact absurd h (by simp)
          · rename_i c2 hc2
            obtain ⟨fs2, -, rfl⟩ := mapAssign_eq_some _ _ _ _ hc2
            rw [Option.map_eq_some'] at h
            obtain ⟨next', hset, rfl⟩ := h
            have := ih' (some []) next' value hset
            rw [getLoop]
            simp only [mapIndex_mapReflect_self]
            exact this

/-- Round trip whenever `setInMap` returns: the raw lookup of the same key
finds the written value. -/
theorem getFromMap_setInMap (configData result : GoMap) (key : String) (value : Value)
    (h : setInMap configData key value = some result) :
    getFromMap result key = some value :=
  getLoop_setLoop _ (strings_Split_ne_nil key '.') _ _ _ h

theorem getFromMap_setInMap_witness :
    setInMap none "db.host" (.str "localhost") =
        some (some [("db", .map (some [("host", .str "localhost")]))]) ∧
      getFromMap (some [("db", .map (some [("host", .str "localhost")]))]) "db.host" =
        some (.str "localhost") :=
  ⟨rfl, getFromMap_setInMap none _ "db.host" (.str "localhost") rfl⟩

theorem noNilMap_of_lookup (fs : Fields) (k : String) (v : Value)
    (hfs : fieldsNoNilMap fs = true) (h : fs.lookup k = some v) : v.noNilMap = true := by
  induction fs with
  | nil => simp [List.lookup] at h
  | cons e rest ih =>
    obtain ⟨k', v'⟩ := e
    simp only [fieldsNoNilMap, Bool.and_eq_true] at hfs
    simp only [List.lookup] at h
    split at h
    · cases h
      exact hfs.1
    · exact ih hfs.2 h

/-- On a tree without nil mappings the loop of `setInMap` never panics. -/
theorem setLoop_isSome (parts : List String) :
    ∀ (fs : Fields) (value : Value), fieldsNoNilMap fs = true →
      ∃ result, setLoop (some fs) parts value = some result := by
  induction parts with
  | nil => exact fun fs _ _ => ⟨_, rfl⟩
  | cons part rest ih =>
    intro fs value hfs
    cases rest with
    | nil => exact ⟨_, rfl⟩
    | cons p2 rest2 =>
      rw [setLoop]
      pick_goal 2
      · simp
      cases hl : fs.lookup part with
      | none =>
        obtain ⟨r, hr⟩ := ih [] value rfl
        simp [mapIndex, hl, mapAssign, lookup_assocSet_self, hr]
      | some child =>
        by_cases hchild : ∃ next, child = .map next
        · obtain ⟨next, rfl⟩ := hchild
          have hn := noNilMap_of_lookup fs part _ hfs hl
          cases next with
          | none => simp [Value.noNilMap] at hn
          | some nfs =>
            obtain ⟨r, hr⟩ := ih nfs value (by simpa [Value.noNilMap] using hn)
            simp [mapIndex, hl, hr]
        · obtain ⟨r, hr⟩ := ih [] value rfl
          simp only [mapIndex, hl, Option.isNone_some, Bool.false_eq_true, ↓reduceIte]
          split
          · rename_i next hnext
            exact absurd ⟨next, Option.some.inj hnext⟩ hchild
          · simp [mapAssign, hr]

/-- Round trip on trees without nil mappings: `setInMap` returns and the raw
lookup of the same key then finds the written value. -/
theorem setInMap_roundtrip (configData : GoMap) (key : String) (value : Value)
    (h : (Value.map configData).noNilMap = true ∨ configData = none) :
    ∃ result, setInMap configData key value = some result ∧
      getFromMap result key = some value := by
  have hex : ∃ result, setInMap configData key value = some result := by
    cases configData with
    | none => exact setLoop_isSome _ [] value rfl
    | some fs =>
      have hfs : fieldsNoNilMap fs = true := by
        rcases h with h | h
        · simpa [Value.noNilMap] using h
        · cases h
      exact setLoop_isSome _ fs value hfs
  obtain ⟨result, hr⟩ := hex
  exact ⟨result, hr, getFromMap_setInMap _ _ _ _ hr⟩

/-- The setter leaves the environment as it was. -/
theorem Set_env (σ σ' : State) (key : String) (value : Value) (h : Set σ key value = some σ') :
    σ'.env = σ.env := by
  unfold Set at h
  rw [Option.map_eq_some'] at h
  obtain ⟨m, -, rfl⟩ := h
  rfl

/-- The raw lookup finds nothing in an empty or nil map. -/
theorem getFromMap_empty (key : String) :
    getFromMap (some []) key = none ∧ getFromMap none key = none := by
  unfold getFromMap
  cases hs : strings_Split key '.' with
  | nil => exact absurd hs (strings_Split_ne_nil key '.')
  | cons p rest => simp [getLoop, mapIndex]

/-! ## Claims on the store and the getters -/

/-- C1 (set/get round trip): the claim asks that after `setInMap(k, v)` the raw
lookup of `k` returns `(v, true)` in every tree state.  In the tree whose node
`a` is a nil mapping the call `setInMap("a.b", 1)` panics instead of storing
the value, although the source allocates a map when the root itself is nil
(second part: from the nil root the same call succeeds). -/
theorem setInMap_nil_intermediate_panics :
    setInMap (some [("a", .map none)]) "a.b" (.int 1) = none ∧
      setInMap none "a.b" (.int 1) = some (some [("a", .map (some [("b", .int 1)]))]) :=
  ⟨rfl, rfl⟩

/-- C2 (override precedence): when the environment holds the variable of key
`k` with value `s`, every scalar getter returns the coercion of the string `s`,
whatever the tree of the state contains. -/
theorem getters_prefer_override (L : Lib) (σ : State) (k s : String)
    (h : getEnvValue L σ.env k = some s) :
    GetString L σ k = s ∧
      GetBool L σ k = toBool (.str s) ∧
      GetInt L σ k = toInt L (.str s) ∧
      GetInt32 L σ k = toInt32 L (.str s) ∧
      GetInt64 L σ k = toInt64 L (.str s) ∧
      GetUint L σ k = toUint L (.str s) ∧
      GetUint16 L σ k = toUint16 L (.str s) ∧
      GetUint32 L σ k = toUint32 L (.str s) ∧
      GetUint64 L σ k = toUint64 L (.str s) ∧
      GetFloat64 L σ k = toFloat64 L (.str s) ∧
      GetDuration L σ k = toDuration L (.str s) := by
  simp [GetString, GetBool, GetInt, GetInt32, GetInt64, GetUint, GetUint16, GetUint32,
    GetUint64, GetFloat64, GetDuration, h]

theorem getters_prefer_override_witness :
    getEnvValue sampleLib [("HTTP_PORT", "3000")] "http.port" = some "3000" ∧
      GetInt sampleLib ⟨some [("http", .map (some [("port", .int 8080)]))],
        [("HTTP_PORT", "3000")]⟩ "http.port" = 3000 :=
  ⟨by decide,
    (getters_prefer_override sampleLib
      ⟨some [("http", .map (some [("port", .int 8080)]))], [("HTTP_PORT", "3000")]⟩
      "http.port" "3000" (by decide)).2.2.1.trans (by decide)⟩

/-- C3 (IsSet): `IsSet(k)` is true exactly when the environment holds the
variable of key `k` or the raw lookup of `k` in the tree succeeds. -/
theorem IsSet_iff (L : Lib) (σ : State) (k : String) :
    IsSet L σ k = true ↔
      (os_LookupEnv σ.env (envKey L k)).isSome = true ∨
        (getFromMap σ.configData k).isSome = true := by
  unfold IsSet getEnvValue
  cases os_LookupEnv σ.env (envKey L k) <;> simp

/-- C4 (or-default getters): each `GetTOr(k, d)` is `GetT(k)` when `IsSet(k)`
is true and `d` when it is false. -/
theorem getOr_eq (L : Lib) (σ : State) (k : String) :
    (∀ d, GetStringOr L σ k d = if IsSet L σ k then GetString L σ k else d) ∧
      (∀ d, GetBoolOr L σ k d = if IsSet L σ k then GetBool L σ k else d) ∧
      (∀ d, GetIntOr L σ k d = if IsSet L σ k then GetInt L σ k else d) ∧
      (∀ d, GetInt32Or L σ k d = if IsSet L σ k then GetInt32 L σ k else d) ∧
      (∀ d, GetInt64Or L σ k d = if IsSet L σ k then GetInt64 L σ k else d) ∧
      (∀ d, GetUintOr L σ k d = if IsSet L σ k then GetUint L σ k else d) ∧
      (∀ d, GetUint16Or L σ k d = if IsSet L σ k then GetUint16 L σ k else d) ∧
      (∀ d, GetUint32Or L σ k d = if IsSet L σ k then GetUint32 L σ k else d) ∧
      (∀ d, GetUint64Or L σ k d = if IsSet L σ k then GetUint64 L σ k else d) ∧
      (∀ d, GetFloat64Or L σ k d = if IsSet L σ k then GetFloat64 L σ k else d) ∧
      (∀ d, GetDurationOr L σ k d = if IsSet L σ k then GetDuration L σ k else d) :=
  ⟨fun _ => rfl, fun _ => rfl, fun _ => rfl, fun _ => rfl, fun _ => rfl, fun _ => rfl,
    fun _ => rfl, fun _ => rfl, fun _ => rfl, fun _ => rfl, fun _ => rfl⟩

/-- C5 (Reset): after `Reset()` the tree is the empty allocated mapping and the
environment is the one before; so the raw lookup finds no key, and `IsSet` is
false for every key whose variable is absent from the environment. -/
theorem Reset_clears_tree (L : Lib) (σ : State) :
    (Reset σ).configData = some [] ∧
      (Reset σ).env = σ.env ∧
      (∀ k, getFromMap (Reset σ).configData k = none) ∧
      (∀ k, getEnvValue L σ.env k = none → IsSet L (Reset σ) k = false) := by
  refine ⟨rfl, rfl, fun k => (getFromMap_empty k).1, fun k hk => ?_⟩
  have h1 : (Reset σ).env = σ.env := rfl
  have h2 : getFromMap (Reset σ).configData k = none := (getFromMap_empty k).1
  simp [IsSet, h1, hk, h2]

theorem Reset_clears_tree_witness :
    getEnvValue sampleLib [("APP_ENV", "prod")] "app.name" = none ∧
      IsSet sampleLib (Reset ⟨some [("app", .map (some [("name", .str "x")]))],
        [("APP_ENV", "prod")]⟩) "app.name" = false :=
  ⟨by decide,
    (Reset_clears_tree sampleLib
      ⟨some [("app", .map (some [("name", .str "x")]))], [("APP_ENV", "prod")]⟩).2.2.2
      "app.name" (by decide)⟩

/-- C6 (missing keys): for a key with no environment variable and no node in
the tree, the string getter returns the empty string, the boolean getter
false, every integer getter, the float getter and the duration getter zero,
the two slice getters the nil slice and the map getter an allocated empty
mapping. -/
theorem getters_missing_key (L : Lib) (σ : State) (k : String)
    (henv : getEnvValue L σ.env k = none) (htree : getFromMap σ.configData k = none) :
    GetString L σ k = "" ∧
      GetBool L σ k = false ∧
      GetInt L σ k = 0 ∧
      GetInt32 L σ k = 0 ∧
      GetInt64 L σ k = 0 ∧
      GetUint L σ k = 0 ∧
      GetUint16 L σ k = 0 ∧
      GetUint32 L σ k = 0 ∧
      GetUint64 L σ k = 0 ∧
      GetFloat64 L σ k = Float64.zero ∧
      GetDuration L σ k = 0 ∧
      GetStringSlice L σ k = none ∧
      GetIntSlice L σ k = none ∧
      GetStringMap σ k = some [] := by
  simp [GetString, GetBool, GetInt, GetInt32, GetInt64, GetUint, GetUint16, GetUint32,
    GetUint64, GetFloat64, GetDuration, GetStringSlice, GetIntSlice, GetStringMap, henv, htree]

theorem getters_missing_key_witness :
    getEnvValue sampleLib [] "a.b" = none ∧
      getFromMap (some [("a", .int 1)]) "a.b" = none ∧
      GetStringSlice sampleLib ⟨some [("a", .int 1)], []⟩ "a.b" = none :=
  ⟨rfl, rfl,
    (getters_missing_key sampleLib ⟨some [("a", .int 1)], []⟩ "a.b" rfl rfl).2.2.2.2.2.2.2.2.2.2.2.1⟩

/-! ## Lemmas on the integer parsers -/

theorem parseUintLoop_invalid (maxVal : Nat) (cs : List Char) :
    ∀ n, (parseUintLoop maxVal cs n).2 = some .invalid → (parseUintLoop maxVal cs n).1 = 0 := by
  induction cs with
  | nil => intro n h; simp [parseUintLoop] at h
  | cons c cs ih =>
    intro n h
    rw [parseUintLoop] at h ⊢
    dsimp only at h ⊢
    split at h
    · rename_i hd
      rw [if_pos hd]
    · rename_i hd
      rw [if_neg hd]
      split at h
      · simp at h
      · rename_i hc
        rw [if_neg hc]
        split at h
        · simp at h
        · rename_i ho
          rw [if_neg ho]
          exact ih _ h

theorem strconv_ParseUint_invalid (s : String) (bitSize : Nat)
    (h : (strconv_ParseUint s bitSize).2 = some .invalid) : (strconv_ParseUint s bitSize).1 = 0 := by
  unfold strconv_ParseUint at h ⊢
  dsimp only at h ⊢
  split at h
  · rename_i hs
    rw [if_pos hs]
  · rename_i hs
    rw [if_neg hs]
    exact parseUintLoop_invalid _ _ _ h

theorem strconv_ParseInt_invalid (s : String) (bitSize : Nat)
    (h : (strconv_ParseInt s bitSize).2 = some .invalid) : (strconv_ParseInt s bitSize).1 = 0 := by
  unfold strconv_ParseInt at h ⊢
  dsimp only at h ⊢
  split at h
  · rename_i hs
    rw [if_pos hs]
  · rename_i hs
    rw [if_neg hs]
    generalize strconv_ParseUint
      (if s.data.head? = some '+' ∨ s.data.head? = some '-' then String.mk s.data.tail else s)
      bitSize = r at h ⊢
    obtain ⟨un, e⟩ := r
    cases e with
    | none =>
      dsimp only at h
      split_ifs at h <;> simp at h
    | some e =>
      cases e with
      | invalid => rfl
      | outOfRange =>
        dsimp only at h
        split_ifs at h <;> simp at h

theorem strconv_Atoi_invalid (s : String)
    (h : (strconv_Atoi s).2 = some .invalid) : (strconv_Atoi s).1 = 0 := by
  unfold strconv_Atoi at h ⊢
  dsimp only at h ⊢
  split at h
  · rename_i hlen
    rw [if_pos hlen]
    generalize (if s.data.head? = some '-' ∨ s.data.head? = some '+' then s.data.tail
      else s.data) = body at h ⊢
    split at h
    · rename_i hsg
      rw [if_pos hsg]
    · rename_i hsg
      rw [if_neg hsg]
      generalize atoiFastLoop body 0 = r at h ⊢
      cases r with
      | none => rfl
      | some n => simp at h
  · rename_i hlen
    rw [if_neg hlen]
    have := strconv_ParseInt_invalid s 0 h
    simp only [this]
    decide

/-- A string in which the parser of the target type finds a syntax error is
coerced to 0 by each integer coercion. -/
theorem integer_coercions_invalid (L : Lib) (s : String) :
    ((strconv_Atoi s).2 = some .invalid → toInt L (.str s) = 0) ∧
      ((strconv_ParseInt s 32).2 = some .invalid → toInt32 L (.str s) = 0) ∧
      ((strconv_ParseInt s 64).2 = some .invalid → toInt64 L (.str s) = 0) ∧
      ((strconv_ParseUint s 64).2 = some .invalid → toUint L (.str s) = 0) ∧
      ((strconv_ParseUint s 16).2 = some .invalid → toUint16 L (.str s) = 0) ∧
      ((strconv_ParseUint s 32).2 = some .invalid → toUint32 L (.str s) = 0) ∧
      ((strconv_ParseUint s 64).2 = some .invalid → toUint64 L (.str s) = 0) := by
  refine ⟨fun h => strconv_Atoi_invalid s h, fun h => ?_, fun h => strconv_ParseInt_invalid s 64 h,
    fun h => ?_, fun h => ?_, fun h => ?_, fun h => strconv_ParseUint_invalid s 64 h⟩
  · show wrapS 32 (strconv_ParseInt s 32).1 = 0
    rw [strconv_ParseInt_invalid s 32 h]
    decide
  · show wrapU intSize (strconv_ParseUint s 64).1 = 0
    rw [strconv_ParseUint_invalid s 64 h]
    decide
  · show wrapU 16 (strconv_ParseUint s 16).1 = 0
    rw [strconv_ParseUint_invalid s 16 h]
    decide
  · show wrapU 32 (strconv_ParseUint s 32).1 = 0
    rw [strconv_ParseUint_invalid s 32 h]
    decide

/-! ## Claims on the coercions -/

/-- C7 (identity on matching types): each coercion returns unchanged a value
whose dynamic type already is its target type. -/
theorem coerce_matching_type (L : Lib) :
    (∀ s, toString L (.str s) = s) ∧
      (∀ b, toBool (.bool b) = b) ∧
      (∀ i, toInt L (.int i) = i) ∧
      (∀ i, toInt32 L (.int32 i) = i) ∧
      (∀ i, toInt64 L (.int64 i) = i) ∧
      (∀ n, toUint L (.uint n) = n) ∧
      (∀ n, toUint16 L (.uint16 n) = n) ∧
      (∀ n, toUint32 L (.uint32 n) = n) ∧
      (∀ n, toUint64 L (.uint64 n) = n) ∧
      (∀ f, toFloat64 L (.float64 f) = f) ∧
      (∀ d, toDuration L (.duration d) = d) ∧
      (∀ xs, toStringSlice L (.strSlice xs) = xs) ∧
      (∀ xs, toIntSlice L (.intSlice xs) = xs) ∧
      (∀ m, toStringMap (.map m) = m) :=
  ⟨fun _ => rfl, fun _ => rfl, fun _ => rfl, fun _ => rfl, fun _ => rfl, fun _ => rfl,
    fun _ => rfl, fun _ => rfl, fun _ => rfl, fun _ => rfl, fun _ => rfl, fun _ => rfl,
    fun _ => rfl, fun _ => rfl⟩

/-- C8 (zero on unsupported input): a coercion given a value whose dynamic
type is none of the types its type switch names returns the zero value of its
target: the empty string, false, 0, the float zero, the zero duration, the nil
slice, or an allocated empty mapping.  Every coercion is a total function, so
no error and no panic arises. -/
theorem coerce_unsupported_type (L : Lib) (v : Value) :
    (v.typeOf ∉ [GoType.str, .int, .int64, .float64, .bool] → toString L v = "") ∧
      (v.typeOf ∉ [GoType.bool, .str, .int, .int64, .float64] → toBool v = false) ∧
      (v.typeOf ∉ [GoType.int, .int64, .float64, .str] → toInt L v = 0) ∧
      (v.typeOf ∉ [GoType.int, .int32, .int64, .float64, .str] → toInt32 L v = 0) ∧
      (v.typeOf ∉ [GoType.int, .int32, .int64, .float64, .str] → toInt64 L v = 0) ∧
      (v.typeOf ∉ [GoType.int, .int64, .uint, .uint64, .float64, .str] → toUint L v = 0) ∧
      (v.typeOf ∉ [GoType.int, .int64, .uint, .uint16, .uint64, .float64, .str] →
        toUint16 L v = 0) ∧
      (v.typeOf ∉ [GoType.int, .int64, .uint, .uint32, .uint64, .float64, .str] →
        toUint32 L v = 0) ∧
      (v.typeOf ∉ [GoType.int, .int64, .uint, .uint32, .uint64, .float64, .str] →
        toUint64 L v = 0) ∧
      (v.typeOf ∉ [GoType.float64, .float32, .int, .int64, .str] →
        toFloat64 L v = Float64.zero) ∧
      (v.typeOf ∉ [GoType.duration, .int, .int64, .float64, .str] → toDuration L v = 0) ∧
      (v.typeOf ∉ [GoType.strSlice, .anySlice] → toStringSlice L v = none) ∧
      (v.typeOf ∉ [GoType.intSlice, .anySlice] → toIntSlice L v = none) ∧
      (v.typeOf ∉ [GoType.map] → toStringMap v = some []) := by
  cases v <;>
    simp [Value.typeOf, Config.toString, toBool, toInt, toInt32, toInt64, toUint, toUint16,
      toUint32, toUint64, toFloat64, toDuration, toStringSlice, toIntSlice, toStringMap]

theorem coerce_unsupported_type_witness :
    toString sampleLib .null = "" ∧
      toInt sampleLib (.anySlice (some [.int 1])) = 0 ∧
      toBool (.map (some [("a", .bool true)])) = false ∧
      toDuration sampleLib (.strSlice (some ["1s"])) = 0 ∧
      toStringSlice sampleLib (.str "a,b") = none ∧
      toIntSlice sampleLib .null = none ∧
      toStringMap (.str "a") = some [] :=
  ⟨(coerce_unsupported_type sampleLib .null).1 (by decide),
    (coerce_unsupported_type sampleLib (.anySlice (some [.int 1]))).2.2.1 (by decide),
    (coerce_unsupported_type sampleLib (.map (some [("a", .bool true)]))).2.1 (by decide),
    (coerce_unsupported_type sampleLib (.strSlice (some ["1s"]))).2.2.2.2.2.2.2.2.2.2.1
      (by decide),
    (coerce_unsupported_type sampleLib (.str "a,b")).2.2.2.2.2.2.2.2.2.2.2.1 (by decide),
    (coerce_unsupported_type sampleLib .null).2.2.2.2.2.2.2.2.2.2.2.2.1 (by decide),
    (coerce_unsupported_type sampleLib (.str "a")).2.2.2.2.2.2.2.2.2.2.2.2.2 (by decide)⟩

/-- C9 (integer coercion of strings on parse failure): the claim asks for 0 on
every string that is not the decimal text of an integer of the target type.
On a digit string one past the largest (or one below the smallest) value of the
target type each integer coercion returns the nearest bound of the type, not
0: the parsers of package strconv return that bound together with a range
error, and the coercions drop the error. -/
theorem integer_coercions_out_of_range (L : Lib) :
    toInt L (.str "9223372036854775808") = 9223372036854775807 ∧
      toInt32 L (.str "2147483648") = 2147483647 ∧
      toInt32 L (.str "-2147483649") = -2147483648 ∧
      toInt64 L (.str "9223372036854775808") = 9223372036854775807 ∧
      toUint L (.str "18446744073709551616") = 18446744073709551615 ∧
      toUint16 L (.str "65536") = 65535 ∧
      toUint32 L (.str "4294967296") = 4294967295 ∧
      toUint64 L (.str "18446744073709551616") = 18446744073709551615 := by
  refine ⟨?_, ?_, ?_, ?_, ?_, ?_, ?_, ?_⟩
  · show (strconv_Atoi "9223372036854775808").1 = _
    decide
  · show wrapS 32 (strconv_ParseInt "2147483648" 32).1 = _
    decide
  · show wrapS 32 (strconv_ParseInt "-2147483649" 32).1 = _
    decide
  · show (strconv_ParseInt "9223372036854775808" 64).1 = _
    decide
  · show wrapU intSize (strconv_ParseUint "18446744073709551616" 64).1 = _
    decide
  · show wrapU 16 (strconv_ParseUint "65536" 16).1 = _
    decide
  · show wrapU 32 (strconv_ParseUint "4294967296" 32).1 = _
    decide
  · show (strconv_ParseUint "18446744073709551616" 64).1 = _
    decide

/-- C10 (no partial integer parse in overrides): the claim asks for 0 on every
override string that is not a sign followed by digits.  The string `42abc`
gives 0, but `99999999999999999999abc` gives the largest int for an int leaf,
through `convertEnvToType` and through `AllSettings` alike: the digit loop of
strconv reports the overflow of the first twenty digits before it reaches
`abc`, and `toInt` drops the error and keeps the bound. -/
theorem convertEnvToType_int_overflow (L : Lib) :
    convertEnvToType L "42abc" (.int 8080) = .int 0 ∧
      convertEnvToType L "99999999999999999999abc" (.int 8080) = .int 9223372036854775807 ∧
      AllSettings L ⟨some [("port", .int 8080)], [("PORT", "99999999999999999999abc")]⟩ =
        some [("port", .int 9223372036854775807)] := by
  have h1 : (strconv_Atoi "42abc").1 = 0 := by decide
  have h2 : (strconv_Atoi "99999999999999999999abc").1 = 9223372036854775807 := by decide
  have h3 : getEnvValue L [("PORT", "99999999999999999999abc")] "port" =
      some "99999999999999999999abc" := rfl
  refine ⟨congrArg Value.int h1, congrArg Value.int h2, ?_⟩
  simp only [AllSettings, applyEnvOverrides, applyFields, applyValue, overrideLeaf]
  simp [h3, convertEnvToType, toInt, h2]

/-! ## Claims on the boolean and string coercions -/

/-- C11 (boolean string grammar), the claim fails: `TrUe` equals `true` when
letter case is ignored, yet `toBool` gives false on it, and `t` is neither
`true` in any case nor `1`, yet `toBool` gives true on it. -/
theorem toBool_string_not_case_insensitive :
    equalsIgnoringCase "TrUe" "true" = true ∧ toBool (.str "TrUe") = false ∧
      equalsIgnoringCase "t" "true" = false ∧ toBool (.str "t") = true := by
  decide

/-- C11 as amended: `toBool` of a string is true exactly on the six spellings
`1`, `t`, `T`, `TRUE`, `true`, `True` accepted by `strconv.ParseBool`; every
other string, among them `false` in any case, `0` and `tRuE`, yields
false. -/
theorem toBool_string_iff (s : String) :
    toBool (.str s) = true ↔ s ∈ ["1", "t", "T", "TRUE", "true", "True"] := by
  unfold toBool strconv_ParseBool
  by_cases h : s = "1" ∨ s = "t" ∨ s = "T" ∨ s = "TRUE" ∨ s = "true" ∨ s = "True"
  · simp only [h, ↓reduceIte, true_iff]
    simpa using h
  · have h' : s ∉ ["1", "t", "T", "TRUE", "true", "True"] := by simpa using h
    simp only [h, ↓reduceIte, h', iff_false]
    split <;> simp

/-- C12 (boolean coercion of numbers), the claim fails: the nonzero unsigned
integer 5, the nonzero int32 7 and a nonzero float32 are coerced to false. -/
theorem toBool_unsigned_nonzero_false :
    (GoType.isNumeric (Value.uint 5).typeOf = true ∧ toBool (.uint 5) = false) ∧
      (GoType.isNumeric (Value.int32 7).typeOf = true ∧ toBool (.int32 7) = false) ∧
      (GoType.isNumeric (Value.float32 ⟨1065353216⟩).typeOf = true ∧
        toBool (.float32 ⟨1065353216⟩) = false) := by
  decide

/-- C12 as amended: on an int, an int64 and a float64 `toBool` is true exactly
when the number is not zero; a number of any other native type (int32, uint,
uint16, uint32, uint64, float32) is coerced to false. -/
theorem toBool_numeric :
    (∀ n : Int, toBool (.int n) = true ↔ n ≠ 0) ∧
      (∀ n : Int, toBool (.int64 n) = true ↔ n ≠ 0) ∧
      (∀ f : Float64, toBool (.float64 f) = true ↔ f.isNonzero = true) ∧
      (∀ v : Value, v.typeOf ∈ [GoType.int32, .uint, .uint16, .uint32, .uint64, .float32] →
        toBool v = false) := by
  refine ⟨fun n => by simp [toBool], fun n => by simp [toBool], fun f => by simp [toBool], ?_⟩
  intro v
  cases v <;> simp [Value.typeOf, toBool]

theorem toBool_numeric_witness :
    (toBool (.int 3) = true ↔ (3 : Int) ≠ 0) ∧ toBool (.uint64 9) = false :=
  ⟨toBool_numeric.1 3, toBool_numeric.2.2.2 (.uint64 9) (by decide)⟩

/-! ## Claims on the sequence coercions and getters -/

/-- C16 (sequence coercion): `toStringSlice` returns a `[]string` unchanged and
maps a generic sequence to an allocated sequence of the same length whose i-th
element is `toString` of the i-th input element; `toIntSlice` does the same
with `[]int` and `toInt`; every input of another dynamic type yields the nil
slice. -/
theorem sequence_coercions (L : Lib) :
    (∀ xs, toStringSlice L (.strSlice xs) = xs) ∧
      (∀ xs : GoSlice Value, ∃ ys, toStringSlice L (.anySlice xs) = some ys ∧
        ys.length = (xs.getD []).length ∧
        ∀ i (h1 : i < ys.length) (h2 : i < (xs.getD []).length),
          ys[i] = toString L (xs.getD [])[i]) ∧
      (∀ v, v.typeOf ∉ [GoType.strSlice, .anySlice] → toStringSlice L v = none) ∧
      (∀ xs, toIntSlice L (.intSlice xs) = xs) ∧
      (∀ xs : GoSlice Value, ∃ ys, toIntSlice L (.anySlice xs) = some ys ∧
        ys.length = (xs.getD []).length ∧
        ∀ i (h1 : i < ys.length) (h2 : i < (xs.getD []).length),
          ys[i] = toInt L (xs.getD [])[i]) ∧
      (∀ v, v.typeOf ∉ [GoType.intSlice, .anySlice] → toIntSlice L v = none) := by
  refine ⟨fun _ => rfl, ?_, ?_, fun _ => rfl, ?_, ?_⟩
  · intro xs
    cases xs with
    | none => exact ⟨[], rfl, rfl, fun i h1 _ => absurd h1 (by simp)⟩
    | some l => exact ⟨l.map (toString L), rfl, by simp, fun i h1 h2 => by simp⟩
  · intro v hv
    cases v <;> simp [Value.typeOf, toStringSlice] at hv ⊢
  · intro xs
    cases xs with
    | none => exact ⟨[], rfl, rfl, fun i h1 _ => absurd h1 (by simp)⟩
    | some l => exact ⟨l.map (toInt L), rfl, by simp, fun i h1 h2 => by simp⟩
  · intro v hv
    cases v <;> simp [Value.typeOf, toIntSlice] at hv ⊢

theorem sequence_coercions_witness :
    toStringSlice sampleLib (.str "not a slice") = none ∧
      toIntSlice sampleLib (.strSlice (some ["1"])) = none :=
  ⟨(sequence_coercions sampleLib).2.2.1 (.str "not a slice") (by decide),
    (sequence_coercions sampleLib).2.2.2.2.2 (.strSlice (some ["1"])) (by decide)⟩

/-- C19 (environment overrides of the sequence getters): when the environment
holds the variable of key `k` with value `s`, `GetStringSlice(k)` is
`splitAndTrimStringSlice(s)` and `GetIntSlice(k)` is `splitAndTrimIntSlice(s)`
whatever the tree holds, and neither result is the nil slice. -/
theorem slice_getters_prefer_override (L : Lib) (σ : State) (k s : String)
    (h : getEnvValue L σ.env k = some s) :
    GetStringSlice L σ k = splitAndTrimStringSlice s ∧
      GetIntSlice L σ k = splitAndTrimIntSlice s ∧
      GetStringSlice L σ k ≠ none ∧
      GetIntSlice L σ k ≠ none := by
  have h1 : GetStringSlice L σ k = splitAndTrimStringSlice s := by simp [GetStringSlice, h]
  have h2 : GetIntSlice L σ k = splitAndTrimIntSlice s := by simp [GetIntSlice, h]
  refine ⟨h1, h2, ?_, ?_⟩
  · rw [h1]
    unfold splitAndTrimStringSlice
    split <;> simp
  · rw [h2]
    unfold splitAndTrimIntSlice
    split <;> simp

theorem slice_getters_prefer_override_witness :
    getEnvValue sampleLib [("TAGS", "foo, bar,,baz")] "tags" = some "foo, bar,,baz" ∧
      GetStringSlice sampleLib ⟨some [("tags", .strSlice (some ["x"]))],
        [("TAGS", "foo, bar,,baz")]⟩ "tags" = some ["foo", "bar", "baz"] :=
  ⟨by decide,
    (slice_getters_prefer_override sampleLib
      ⟨some [("tags", .strSlice (some ["x"]))], [("TAGS", "foo, bar,,baz")]⟩
      "tags" "foo, bar,,baz" (by decide)).1.trans (by decide)⟩

/-! ## Claims on the dotted-key lookup -/

theorem resolves_ne_nil (m : GoMap) (parts : List String) (v : Value)
    (h : Resolves m parts v) : parts ≠ [] := by
  cases h <;> simp

theorem getLoop_iff_resolves (parts : List String) (hne : parts ≠ []) :
    ∀ (m : GoMap) (v : Value), getLoop (.map m) parts = some v ↔ Resolves m parts v := by
  induction parts with
  | nil => exact absurd rfl hne
  | cons seg rest ih =>
    intro m v
    cases rest with
    | nil =>
      constructor
      · intro h
        apply Resolves.last
        cases hm : mapIndex m seg with
        | none => simp [getLoop, hm] at h
        | some x => simpa [getLoop, hm] using h
      · intro h
        cases h with
        | last _ _ _ hm => simp [getLoop, hm]
        | step _ next _ _ _ hm hr => exact absurd rfl (resolves_ne_nil _ _ _ hr)
    | cons seg2 rest2 =>
      have ih' := ih (by simp)
      constructor
      · intro h
        cases hm : mapIndex m seg with
        | none => simp [getLoop, hm] at h
        | some x =>
          rw [getLoop] at h
          simp only [hm] at h
          cases x with
          | map next => exact Resolves.step m next seg _ v hm ((ih' next v).1 h)
          | _ => simp [getLoop] at h
      · intro h
        cases h with
        | step _ next _ _ _ hm hr =>
          rw [getLoop]
          simp only [hm]
          exact (ih' next v).2 hr

theorem getLoop_append (pre rest : List String) :
    ∀ current : Value,
      getLoop current (pre ++ rest) = (getLoop current pre).bind fun x => getLoop x rest := by
  induction pre with
  | nil => intro current; simp [getLoop]
  | cons seg pre ih =>
    intro current
    cases current with
    | map m =>
      cases hm : mapIndex m seg with
      | none => simp [getLoop, hm]
      | some x => simp [getLoop, hm, ih]
    | _ => simp [getLoop]

/-- C20 (dotted-key lookup): `getFromMap` returns `(v, true)` exactly when the
segments of the key resolve to `v` by a walk through mappings.  It returns
`(nil, false)` when a node reached on the way is not a mapping, when the
mapping reached on the way lacks the next segment, and when the root lacks the
first segment. -/
theorem getFromMap_iff_resolves (t : GoMap) (k : String) :
    (∀ v, getFromMap t k = some v ↔ Resolves t (strings_Split k '.') v) ∧
      (∀ pre seg rest x, strings_Split k '.' = pre ++ seg :: rest → Resolves t pre x →
        (∀ m, x ≠ .map m) → getFromMap t k = none) ∧
      (∀ pre seg rest m, strings_Split k '.' = pre ++ seg :: rest →
        Resolves t pre (.map m) → mapIndex m seg = none → getFromMap t k = none) ∧
      (∀ seg rest, strings_Split k '.' = seg :: rest → mapIndex t seg = none →
        getFromMap t k = none) := by
  refine ⟨fun v => getLoop_iff_resolves _ (strings_Split_ne_nil k '.') t v, ?_, ?_, ?_⟩
  · intro pre seg rest x hs hr hx
    have hpre := (getLoop_iff_resolves pre (resolves_ne_nil _ _ _ hr) t x).2 hr
    unfold getFromMap
    rw [hs, getLoop_append, hpre]
    cases x with
    | map m => exact absurd rfl (hx m)
    | _ => simp [getLoop]
  · intro pre seg rest m hs hr hm
    have hpre := (getLoop_iff_resolves pre (resolves_ne_nil _ _ _ hr) t _).2 hr
    unfold getFromMap
    rw [hs, getLoop_append, hpre]
    simp [getLoop, hm]
  · intro seg rest hs hm
    unfold getFromMap
    rw [hs]
    simp [getLoop, hm]

theorem getFromMap_iff_resolves_witness :
    strings_Split "a.b" '.' = ["a"] ++ "b" :: [] ∧
      Resolves (some [("a", .int 1)]) ["a"] (.int 1) ∧
      getFromMap (some [("a", .int 1)]) "a.b" = none :=
  ⟨by decide, Resolves.last _ _ _ rfl,
    (getFromMap_iff_resolves (some [("a", .int 1)]) "a.b").2.1 ["a"] "b" [] (.int 1)
      (by decide) (Resolves.last _ _ _ rfl) (fun m h => by cases h)⟩

/-! ## Lemmas on splitting and trimming -/

theorem splitRunes_no_sep (sep : Char) (cs : List Char) :
    ∀ p ∈ splitRunes sep cs, sep ∉ p := by
  induction cs with
  | nil => simp [splitRunes]
  | cons c cs ih =>
    intro p hp
    unfold splitRunes at hp
    split at hp
    · rcases List.mem_cons.1 hp with h | h
      · simp [h]
      · exact ih p h
    · rename_i hc
      cases hs : splitRunes sep cs with
      | nil => exact absurd hs (splitRunes_ne_nil sep cs)
      | cons q qs =>
        rw [hs] at hp ih
        rcases List.mem_cons.1 hp with h | h
        · subst h
          have := ih q (List.mem_cons_self _ _)
          simp only [List.mem_cons, not_or]
          exact ⟨fun e => hc e.symm, this⟩
        · exact ih p (List.mem_cons_of_mem _ h)

theorem splitRunes_join (sep : Char) (cs : List Char) :
    List.intercalate [sep] (splitRunes sep cs) = cs := by
  induction cs with
  | nil => simp [splitRunes, List.intercalate]
  | cons c cs ih =>
    unfold splitRunes
    cases hs : splitRunes sep cs with
    | nil => exact absurd hs (splitRunes_ne_nil sep cs)
    | cons q qs =>
      rw [hs] at ih
      split
      · rename_i hc
        subst hc
        rw [← ih]
        simp [List.intercalate, List.intersperse]
      · rw [← ih]
        cases qs <;> simp [List.intercalate, List.intersperse]

theorem splitRunes_of_not_mem (sep : Char) (cs : List Char) (h : sep ∉ cs) :
    splitRunes sep cs = [cs] := by
  induction cs with
  | nil => rfl
  | cons c cs ih =>
    simp only [List.mem_cons, not_or] at h
    unfold splitRunes
    rw [if_neg (fun e => h.1 e.symm), ih h.2]

theorem strings_Split_of_not_mem (s : String) (sep : Char) (h : sep ∉ s.data) :
    strings_Split s sep = [s] := by
  simp [strings_Split, splitRunes_of_not_mem sep s.data h]

theorem trimSpace_data (s : String) :
    (strings_TrimSpace s).data =
      ((s.data.dropWhile unicode_IsSpace).reverse.dropWhile unicode_IsSpace).reverse := rfl

theorem trimSpace_head (s : String) (c : Char)
    (h : (strings_TrimSpace s).data.head? = some c) : unicode_IsSpace c = false := by
  rw [trimSpace_data] at h
  have hpre : ((s.data.dropWhile unicode_IsSpace).reverse.dropWhile unicode_IsSpace).reverse <+:
      s.data.dropWhile unicode_IsSpace := by
    have := List.dropWhile_suffix unicode_IsSpace
      (l := (s.data.dropWhile unicode_IsSpace).reverse)
    simpa using List.reverse_prefix.2 this
  obtain ⟨t, ht⟩ := hpre
  cases hb : ((s.data.dropWhile unicode_IsSpace).reverse.dropWhile unicode_IsSpace).reverse with
  | nil => simp [hb] at h
  | cons b bs =>
    rw [hb] at h ht
    have hc : b = c := by simpa using h
    subst hc
    have hne : s.data.dropWhile unicode_IsSpace ≠ [] := by
      rw [← ht]; simp
    have := List.head_dropWhile_not unicode_IsSpace s.data hne
    have hh : (s.data.dropWhile unicode_IsSpace).head hne = b := by
      simp [← ht]
    rw [hh] at this
    simpa using this

theorem trimSpace_last (s : String) (c : Char)
    (h : (strings_TrimSpace s).data.getLast? = some c) : unicode_IsSpace c = false := by
  rw [trimSpace_data, List.getLast?_reverse] at h
  have hne : (s.data.dropWhile unicode_IsSpace).reverse.dropWhile unicode_IsSpace ≠ [] := by
    intro e
    simp [e] at h
  have := List.head_dropWhile_not unicode_IsSpace (s.data.dropWhile unicode_IsSpace).reverse hne
  rw [List.head?_eq_head hne] at h
  have hc := Option.some.inj h
  rw [hc] at this
  simpa using this

theorem trimSpace_subset (s : String) (c : Char) (h : c ∈ (strings_TrimSpace s).data) :
    c ∈ s.data := by
  rw [trimSpace_data, List.mem_reverse] at h
  have h1 := (List.dropWhile_suffix unicode_IsSpace).subset h
  rw [List.mem_reverse] at h1
  exact (List.dropWhile_suffix unicode_IsSpace).subset h1

theorem trimSpace_eq_empty_of_all (s : String) (h : ∀ c ∈ s.data, unicode_IsSpace c = true) :
    strings_TrimSpace s = "" := by
  have h1 : s.data.dropWhile unicode_IsSpace = [] := List.dropWhile_eq_nil_iff.2 h
  apply String.ext
  rw [trimSpace_data, h1]
  rfl

theorem all_space_of_trimSpace_eq_empty (s : String) (h : strings_TrimSpace s = "") :
    ∀ c ∈ s.data, unicode_IsSpace c = true := by
  have hd : (strings_TrimSpace s).data = [] := by rw [h]
  rw [trimSpace_data, List.reverse_eq_nil_iff] at hd
  have hall := List.dropWhile_eq_nil_iff.1 hd
  by_cases hne : s.data.dropWhile unicode_IsSpace = []
  · exact List.dropWhile_eq_nil_iff.1 hne
  · exfalso
    have hnot := List.head_dropWhile_not unicode_IsSpace s.data hne
    have hmem : (s.data.dropWhile unicode_IsSpace).head hne ∈
        (s.data.dropWhile unicode_IsSpace).reverse :=
      List.mem_reverse.2 (List.head_mem hne)
    have := hall _ hmem
    rw [this] at hnot
    exact absurd hnot (by simp)

theorem strings_Split_pieces (s : String) (sep : Char) :
    List.intercalate [sep] ((strings_Split s sep).map String.data) = s.data ∧
      ∀ p ∈ strings_Split s sep, sep ∉ p.data := by
  constructor
  · have : (strings_Split s sep).map String.data = splitRunes sep s.data := by
      simp [strings_Split, Function.comp_def]
    rw [this, splitRunes_join]
  · intro p hp
    simp only [strings_Split, List.mem_map] at hp
    obtain ⟨q, hq, rfl⟩ := hp
    exact splitRunes_no_sep sep s.data q hq

theorem splitAndTrimStringSlice_eq (s : String) :
    splitAndTrimStringSlice s =
      some (((strings_Split s ',').map strings_TrimSpace).filter fun t => t != "") := by
  unfold splitAndTrimStringSlice
  split
  · rename_i h
    have hall := all_space_of_trimSpace_eq_empty s h
    have hno : ',' ∉ s.data := by
      intro hm
      have := hall _ hm
      exact absurd this (by decide)
    rw [strings_Split_of_not_mem s ',' hno]
    simp [h]
  · rfl

/-! ## Claims on the comma-list parsers -/

/-- C17 (comma-list parsing of strings): the pieces of `s` split on the comma
are the comma-free strings whose join with commas is `s`;
`splitAndTrimStringSlice(s)` is the allocated sequence of the trimmed pieces,
in order, that are not empty after trimming; so every element is non-empty,
neither starts nor ends with a whitespace rune and holds no comma.  On
`a, ,b,,c` it gives the three strings a, b, c, and the empty allocated
sequence on the empty string and on three blanks. -/
theorem splitAndTrimStringSlice_spec :
    (∀ s : String,
      (List.intercalate [','] ((strings_Split s ',').map String.data) = s.data ∧
        ∀ p ∈ strings_Split s ',', ',' ∉ p.data) ∧
      splitAndTrimStringSlice s =
        some (((strings_Split s ',').map strings_TrimSpace).filter fun t => t != "") ∧
      ∀ ys, splitAndTrimStringSlice s = some ys → ∀ y ∈ ys,
        y ≠ "" ∧ (∀ c, y.data.head? = some c → unicode_IsSpace c = false) ∧
          (∀ c, y.data.getLast? = some c → unicode_IsSpace c = false) ∧ ',' ∉ y.data) ∧
      splitAndTrimStringSlice "a, ,b,,c" = some ["a", "b", "c"] ∧
      splitAndTrimStringSlice "" = some [] ∧
      splitAndTrimStringSlice "   " = some [] := by
  refine ⟨fun s => ⟨strings_Split_pieces s ',', splitAndTrimStringSlice_eq s, ?_⟩,
    by decide, by decide, by decide⟩
  intro ys hys y hy
  rw [splitAndTrimStringSlice_eq] at hys
  have hys' := Option.some.inj hys
  rw [← hys', List.mem_filter, List.mem_map] at hy
  obtain ⟨⟨piece, hpiece, rfl⟩, hne⟩ := hy
  refine ⟨by simpa using hne, trimSpace_head piece, trimSpace_last piece, ?_⟩
  intro hc
  exact (strings_Split_pieces s ',').2 piece hpiece (trimSpace_subset piece ',' hc)

theorem splitAndTrimStringSlice_spec_witness :
    splitAndTrimStringSlice " x ,y" = some ["x", "y"] ∧ "x" ≠ "" ∧ ',' ∉ "x".data :=
  ⟨by decide,
    ((splitAndTrimStringSlice_spec.1 " x ,y").2.2 ["x", "y"] (by decide) "x"
      (by decide)).1,
    ((splitAndTrimStringSlice_spec.1 " x ,y").2.2 ["x", "y"] (by decide) "x"
      (by decide)).2.2.2⟩

/-! ## The integer parsers against the decimal reading of a string -/

theorem isDigit_iff (c : Char) : isDigit c = true ↔ 48 ≤ c.toNat ∧ c.toNat ≤ 57 := by
  simp only [isDigit, Bool.and_eq_true, decide_eq_true_eq]
  constructor
  · rintro ⟨h1, h2⟩
    exact ⟨h1, h2⟩
  · rintro ⟨h1, h2⟩
    exact ⟨h1, h2⟩

theorem digitVal_le (c : Char) (h : isDigit c = true) : digitVal c ≤ 9 := by
  have := (isDigit_iff c).1 h
  unfold digitVal
  omega

theorem le_digitsValue (ds : List Char) : ∀ n, n ≤ digitsValue ds n := by
  induction ds with
  | nil => intro n; simp [digitsValue]
  | cons c cs ih =>
    intro n
    have := ih (n * 10 + digitVal c)
    simp only [digitsValue]
    omega

theorem digitsValue_lt (ds : List Char) (hd : ∀ c ∈ ds, isDigit c = true) :
    ∀ n, digitsValue ds n < (n + 1) * 10 ^ ds.length := by
  induction ds with
  | nil => intro n; simp [digitsValue]
  | cons c cs ih =>
    intro n
    have hc := digitVal_le c (hd c (List.mem_cons_self _ _))
    have := ih (fun x hx => hd x (List.mem_cons_of_mem _ hx)) (n * 10 + digitVal c)
    simp only [digitsValue, List.length_cons, pow_succ]
    calc digitsValue cs (n * 10 + digitVal c)
        < (n * 10 + digitVal c + 1) * 10 ^ cs.length := this
      _ ≤ ((n + 1) * 10) * 10 ^ cs.length := Nat.mul_le_mul_right _ (by omega)
      _ = (n + 1) * (10 ^ cs.length * 10) := by ring

theorem parseUintLoop_digits (maxVal : Nat) (hmax : maxVal < 2 ^ 64) (ds : List Char)
    (hd : ∀ c ∈ ds, isDigit c = true) :
    ∀ n, n ≤ maxVal →
      parseUintLoop maxVal ds n =
        if digitsValue ds n ≤ maxVal then (digitsValue ds n, none)
        else (maxVal, some .outOfRange) := by
  have h64 : (2 : Nat) ^ 64 = 18446744073709551616 := by norm_num
  rw [h64] at hmax
  induction ds with
  | nil => intro n hn; simp [parseUintLoop, digitsValue, hn]
  | cons c cs ih =>
    intro n hn
    have hc := hd c (List.mem_cons_self _ _)
    have hv := digitVal_le c hc
    have ih' := ih (fun x hx => hd x (List.mem_cons_of_mem _ hx))
    have hmono := le_digitsValue cs (n * 10 + digitVal c)
    rw [parseUintLoop]
    simp only [hc, Bool.not_true, Bool.false_eq_true, ↓reduceIte, digitsValue, h64]
    by_cases h1 : n ≥ (18446744073709551616 - 1) / 10 + 1
    · rw [if_pos h1, if_neg (by omega)]
    · rw [if_neg h1]
      by_cases h2 : (n * 10 + digitVal c) % 18446744073709551616 < n * 10 ∨
          (n * 10 + digitVal c) % 18446744073709551616 > maxVal
      · rw [if_pos h2, if_neg (by omega)]
      · rw [if_neg h2]
        have hlt : n * 10 + digitVal c < 18446744073709551616 := by
          by_contra hge
          apply h2
          left
          omega
        rw [Nat.mod_eq_of_lt hlt] at h2 ⊢
        exact ih' _ (by omega)

theorem parseUintLoop_nondigit (maxVal : Nat) (ds : List Char) :
    ∀ n, (∃ c ∈ ds, isDigit c = false) → (parseUintLoop maxVal ds n).2 ≠ none := by
  induction ds with
  | nil => intro n h; simp at h
  | cons c cs ih =>
    intro n h
    rw [parseUintLoop]
    dsimp only
    by_cases hc : isDigit c = true
    · have hcs : ∃ x ∈ cs, isDigit x = false := by
        obtain ⟨x, hx, hxd⟩ := h
        rcases List.mem_cons.1 hx with e | e
        · subst e
          rw [hc] at hxd
          exact absurd hxd (by simp)
        · exact ⟨x, e, hxd⟩
      simp only [hc, Bool.not_true, Bool.false_eq_true, ↓reduceIte]
      split
      · simp
      · split
        · simp
        · exact ih _ hcs
    · simp [hc]

theorem parseUintLoop_outOfRange (maxVal : Nat) (ds : List Char) :
    ∀ n, (parseUintLoop maxVal ds n).2 = some .outOfRange →
      (parseUintLoop maxVal ds n).1 = maxVal := by
  induction ds with
  | nil => intro n h; simp [parseUintLoop] at h
  | cons c cs ih =>
    intro n h
    rw [parseUintLoop] at h ⊢
    dsimp only at h ⊢
    split at h
    · simp at h
    · rename_i hd
      rw [if_neg hd]
      split at h
      · rename_i hc
        rw [if_pos hc]
      · rename_i hc
        rw [if_neg hc]
        split at h
        · rename_i ho
          rw [if_pos ho]
        · rename_i ho
          rw [if_neg ho]
          exact ih _ h

theorem string_ne_empty_of_data (s : String) (h : s.data ≠ []) : s ≠ "" :=
  fun e => h (by rw [e])

theorem string_eq_empty_of_data (s : String) (h : s.data = []) : s = "" :=
  String.ext h

theorem strconv_ParseUint_digits (s : String) (bitSize : Nat)
    (h64 : (if bitSize = 0 then intSize else bitSize) ≤ 64)
    (hne : s.data ≠ []) (hd : ∀ c ∈ s.data, isDigit c = true) :
    strconv_ParseUint s bitSize =
      if digitsValue s.data 0 ≤ 2 ^ (if bitSize = 0 then intSize else bitSize) - 1 then
        (digitsValue s.data 0, none)
      else (2 ^ (if bitSize = 0 then intSize else bitSize) - 1, some .outOfRange) := by
  unfold strconv_ParseUint
  rw [if_neg (string_ne_empty_of_data s hne)]
  dsimp only
  refine parseUintLoop_digits _ ?_ _ hd 0 (Nat.zero_le _)
  have h1 : 2 ^ (if bitSize = 0 then intSize else bitSize) ≤ 2 ^ 64 :=
    Nat.pow_le_pow_right (by norm_num) h64
  have h2 : 0 < 2 ^ (if bitSize = 0 then intSize else bitSize) := Nat.pow_pos (by norm_num)
  omega

theorem strconv_ParseUint_bad (s : String) (bitSize : Nat)
    (h : s.data = [] ∨ ∃ c ∈ s.data, isDigit c = false) :
    (strconv_ParseUint s bitSize).2 = some .invalid ∨
      strconv_ParseUint s bitSize =
        (2 ^ (if bitSize = 0 then intSize else bitSize) - 1, some .outOfRange) := by
  unfold strconv_ParseUint
  by_cases hs : s = ""
  · rw [if_pos hs]
    exact Or.inl rfl
  · rw [if_neg hs]
    dsimp only
    have hex : ∃ c ∈ s.data, isDigit c = false := by
      rcases h with h | h
      · exact absurd (string_eq_empty_of_data s h) hs
      · exact h
    have hne := parseUintLoop_nondigit (2 ^ (if bitSize = 0 then intSize else bitSize) - 1)
      s.data 0 hex
    have hr := parseUintLoop_outOfRange (2 ^ (if bitSize = 0 then intSize else bitSize) - 1)
      s.data 0
    generalize parseUintLoop (2 ^ (if bitSize = 0 then intSize else bitSize) - 1) s.data 0 = r
      at hne hr ⊢
    obtain ⟨un, e⟩ := r
    cases e with
    | none => exact absurd rfl hne
    | some e =>
      cases e with
      | invalid => exact Or.inl rfl
      | outOfRange =>
        right
        have := hr rfl
        simp only at this
        rw [this]

theorem strconv_ParseInt_ok_iff (s : String) (bitSize : Nat) (n : Int)
    (h2 : 2 ≤ (if bitSize = 0 then intSize else bitSize))
    (h64 : (if bitSize = 0 then intSize else bitSize) ≤ 64) :
    strconv_ParseInt s bitSize = (n, none) ↔
      decimalValue s = some n ∧ intRange (if bitSize = 0 then intSize else bitSize) n := by
  unfold strconv_ParseInt decimalValue
  by_cases hs : s = ""
  · subst hs
    simp
  · rw [if_neg hs]
    dsimp only
    have hbody : (if s.data.head? = some '+' ∨ s.data.head? = some '-' then String.mk s.data.tail
        else s).data = (if s.data.head? = some '+' ∨ s.data.head? = some '-' then s.data.tail
        else s.data) := by
      split <;> rfl
    generalize (if s.data.head? = some '+' ∨ s.data.head? = some '-' then String.mk s.data.tail
        else s) = body at hbody ⊢
    generalize (if s.data.head? = some '+' ∨ s.data.head? = some '-' then s.data.tail
        else s.data) = ds at hbody ⊢
    by_cases hgood : ds ≠ [] ∧ ∀ c ∈ ds, isDigit c = true
    · rw [if_pos hgood]
      have hU := strconv_ParseUint_digits body bitSize h64 (hbody ▸ hgood.1) (hbody ▸ hgood.2)
      rw [hbody] at hU
      rw [hU]
      generalize (if bitSize = 0 then intSize else bitSize) = B at h2 h64 ⊢
      have hM : 2 ^ B = 2 * 2 ^ (B - 1) := by
        obtain ⟨k, rfl⟩ : ∃ k, B = k + 1 := ⟨B - 1, by omega⟩
        simp [pow_succ, Nat.mul_comm]
      have hMpos : 2 ≤ 2 ^ (B - 1) := by
        obtain ⟨k, rfl⟩ : ∃ k, B = k + 2 := ⟨B - 2, by omega⟩
        have : 0 < 2 ^ k := Nat.pow_pos (by norm_num)
        have e1 : k + 2 - 1 = k + 1 := rfl
        rw [e1, pow_succ]
        omega
      have hcast : (2 : Int) ^ (B - 1) = ((2 ^ (B - 1) : Nat) : Int) := by push_cast; rfl
      unfold intRange
      rw [hcast, hM]
      generalize 2 ^ (B - 1) = M at hMpos ⊢
      generalize digitsValue ds 0 = v
      by_cases hv : v ≤ 2 * M - 1
      · rw [if_pos hv]
        dsimp only
        by_cases hneg : s.data.head? = some '-'
        · simp only [hneg, decide_True, Bool.not_true, Bool.false_eq_true, false_and, ↓reduceIte,
            true_and, Option.some.injEq]
          split_ifs <;> simp only [Prod.mk.injEq, reduceCtorEq, and_false, and_true, false_iff] <;>
            omega
        · simp only [hneg, decide_False, Bool.not_false, true_and, ↓reduceIte, false_and,
            Option.some.injEq]
          split_ifs <;> simp only [Prod.mk.injEq, reduceCtorEq, and_false, and_true, false_iff] <;>
            omega
      · rw [if_neg hv]
        dsimp only
        by_cases hneg : s.data.head? = some '-'
        · simp only [hneg, decide_True, Bool.not_true, Bool.false_eq_true, false_and, ↓reduceIte,
            true_and, Option.some.injEq]
          split_ifs <;> simp only [Prod.mk.injEq, reduceCtorEq, and_false, and_true, false_iff] <;>
            omega
        · simp only [hneg, decide_False, Bool.not_false, true_and, ↓reduceIte, false_and,
            Option.some.injEq]
          split_ifs <;> simp only [Prod.mk.injEq, reduceCtorEq, and_false, and_true, false_iff] <;>
            omega
    · rw [if_neg hgood]
      have hbad : body.data = [] ∨ ∃ c ∈ body.data, isDigit c = false := by
        rw [hbody]
        by_cases hnil : ds = []
        · exact Or.inl hnil
        · right
          by_contra hall
          apply hgood
          refine ⟨hnil, fun c hc => ?_⟩
          by_contra hcd
          exact hall ⟨c, hc, by simpa using hcd⟩
      have hUbad := strconv_ParseUint_bad body bitSize hbad
      generalize (if bitSize = 0 then intSize else bitSize) = B at h2 h64 hUbad ⊢
      have hMpos : 2 ^ (B - 1) < 2 ^ B - 1 := by
        obtain ⟨k, rfl⟩ : ∃ k, B = k + 2 := ⟨B - 2, by omega⟩
        have : 0 < 2 ^ k := Nat.pow_pos (by norm_num)
        have e1 : k + 2 - 1 = k + 1 := rfl
        rw [e1, pow_succ, pow_succ, pow_succ]
        omega
      simp only [reduceCtorEq, false_and, iff_false]
      rcases hUbad with h | h
      · generalize strconv_ParseUint body bitSize = r at h ⊢
        obtain ⟨un, e⟩ := r
        simp only at h
        subst h
        simp
      · rw [h]
        dsimp only
        by_cases hneg : s.data.head? = some '-'
        · simp only [hneg, decide_True, Bool.not_true, Bool.false_eq_true, false_and, ↓reduceIte,
            true_and]
          rw [if_pos hMpos]
          simp
        · simp only [hneg, decide_False, Bool.not_false, true_and, ↓reduceIte, false_and]
          rw [if_pos (Nat.le_of_lt hMpos)]
          simp

theorem wrapS_of_intRange (n : Int) (h : intRange 64 n) : wrapS 64 n = n := by
  unfold intRange at h
  unfold wrapS
  norm_num at h ⊢
  omega

theorem data_length_le_goLen (s : String) : s.data.length ≤ goLen s := by
  obtain ⟨l⟩ := s
  unfold goLen
  induction l with
  | nil => simp [String.utf8ByteSize, String.utf8ByteSize.go]
  | cons c cs ih =>
    simp only [String.utf8ByteSize, String.utf8ByteSize.go, List.length_cons] at ih ⊢
    have := Char.utf8Size_pos c
    omega

theorem atoiFastLoop_digits (ds : List Char) (hd : ∀ c ∈ ds, isDigit c = true) :
    ∀ m : Nat, atoiFastLoop ds (m : Int) = some ((digitsValue ds m : Nat) : Int) := by
  induction ds with
  | nil => intro m; simp [atoiFastLoop, digitsValue]
  | cons c cs ih =>
    intro m
    have hc := hd c (List.mem_cons_self _ _)
    have := ih (fun x hx => hd x (List.mem_cons_of_mem _ hx)) (m * 10 + digitVal c)
    simp only [atoiFastLoop, hc, Bool.not_true, Bool.false_eq_true, ↓reduceIte, digitsValue]
    rw [← this]
    push_cast
    rfl

theorem atoiFastLoop_nondigit (ds : List Char) :
    ∀ n : Int, (∃ c ∈ ds, isDigit c = false) → atoiFastLoop ds n = none := by
  induction ds with
  | nil => intro n h; simp at h
  | cons c cs ih =>
    intro n h
    by_cases hc : isDigit c = true
    · have hcs : ∃ x ∈ cs, isDigit x = false := by
        obtain ⟨x, hx, hxd⟩ := h
        rcases List.mem_cons.1 hx with e | e
        · subst e
          rw [hc] at hxd
          exact absurd hxd (by simp)
        · exact ⟨x, e, hxd⟩
      simp only [atoiFastLoop, hc, Bool.not_true, Bool.false_eq_true, ↓reduceIte]
      exact ih _ hcs
    · simp [atoiFastLoop, hc]

theorem strconv_Atoi_ok_iff (s : String) (n : Int) :
    strconv_Atoi s = (n, none) ↔ decimalValue s = some n ∧ intRange 64 n := by
  unfold strconv_Atoi
  by_cases hlen : 0 < goLen s ∧ goLen s < 19
  · rw [if_pos hlen]
    dsimp only
    have hsne : s.data ≠ [] := by
      intro e
      have : s = "" := String.ext e
      rw [this] at hlen
      exact absurd hlen.1 (by decide)
    have hds : (if s.data.head? = some '+' ∨ s.data.head? = some '-' then s.data.tail
        else s.data) = (if s.data.head? = some '-' ∨ s.data.head? = some '+' then s.data.tail
        else s.data) := by
      by_cases h1 : s.data.head? = some '-' <;> by_cases h2 : s.data.head? = some '+' <;>
        simp [h1, h2]
    unfold decimalValue
    dsimp only
    rw [hds]
    have hlends : (if s.data.head? = some '-' ∨ s.data.head? = some '+' then s.data.tail
        else s.data).length ≤ 18 := by
      have h1 := data_length_le_goLen s
      split
      · simp only [List.length_tail]
        omega
      · omega
    have hnil : (s.data.head? = some '-' ∨ s.data.head? = some '+') ∧
        (if s.data.head? = some '-' ∨ s.data.head? = some '+' then s.data.tail
          else s.data).length < 1 ↔
        (if s.data.head? = some '-' ∨ s.data.head? = some '+' then s.data.tail
          else s.data) = [] := by
      constructor
      · rintro ⟨-, h⟩
        exact List.length_eq_zero.1 (by omega)
      · intro h
        by_cases hsg : s.data.head? = some '-' ∨ s.data.head? = some '+'
        · exact ⟨hsg, by rw [h]; simp⟩
        · rw [if_neg hsg] at h
          exact absurd h hsne
    generalize (if s.data.head? = some '-' ∨ s.data.head? = some '+' then s.data.tail
        else s.data) = ds at hlends hnil ⊢
    by_cases hempty : ds = []
    · rw [if_pos (hnil.2 hempty)]
      simp [hempty]
    · rw [if_neg (fun h => hempty (hnil.1 h))]
      by_cases hall : ∀ c ∈ ds, isDigit c = true
      · rw [if_pos ⟨hempty, hall⟩]
        have hf := atoiFastLoop_digits ds hall 0
        simp only [Nat.cast_zero] at hf
        rw [hf]
        have hlt := digitsValue_lt ds hall 0
        have hpow : 10 ^ ds.length ≤ 10 ^ 18 := Nat.pow_le_pow_right (by norm_num) hlends
        have hb : digitsValue ds 0 < 1000000000000000000 := by
          have : (10 : Nat) ^ 18 = 1000000000000000000 := by norm_num
          omega
        unfold intRange
        generalize digitsValue ds 0 = v at hb
        simp only [Prod.mk.injEq, and_true, Option.some.injEq]
        norm_num
        split <;> omega
      · have hex : ∃ c ∈ ds, isDigit c = false := by
          by_contra hno
          apply hall
          intro c hc
          by_contra hcd
          exact hno ⟨c, hc, by simpa using hcd⟩
        rw [atoiFastLoop_nondigit ds 0 hex, if_neg (fun h => hall h.2)]
        simp
  · rw [if_neg hlen]
    dsimp only
    have hP := fun m => strconv_ParseInt_ok_iff s 0 m (by decide) (by decide)
    simp only [↓reduceIte] at hP
    have h64 : intSize = 64 := rfl
    rw [h64] at hP ⊢
    constructor
    · intro h
      have h2 : (strconv_ParseInt s 0).2 = none := (Prod.mk.inj h).2
      have h1 : wrapS 64 (strconv_ParseInt s 0).1 = n := (Prod.mk.inj h).1
      have hr : strconv_ParseInt s 0 = ((strconv_ParseInt s 0).1, none) := by
        rw [← h2]
      have := (hP _).1 hr
      rw [wrapS_of_intRange _ this.2] at h1
      rw [← h1]
      exact this
    · intro h
      have := (hP n).2 h
      rw [this]
      simp [wrapS_of_intRange n h.2]

/-! ## The loop of the duration parser -/

theorem leadingInt_length (l : List Char) :
    ∀ x v r, leadingInt l x = some (v, r) → r.length ≤ l.length := by
  induction l with
  | nil =>
    intro x v r h
    simp only [leadingInt, Option.some.injEq, Prod.mk.injEq] at h
    rw [← h.2]
  | cons c cs ih =>
    intro x v r h
    rw [leadingInt] at h
    split at h
    · simp only [Option.some.injEq, Prod.mk.injEq] at h
      rw [← h.2]
    · split at h
      · simp at h
      · split at h
        · simp at h
        · have := ih _ _ _ h
          simp only [List.length_cons]
          omega

theorem leadingFraction_length (l : List Char) :
    ∀ x k o, (leadingFraction l x k o).2.2.length ≤ l.length := by
  induction l with
  | nil => intro x k o; simp [leadingFraction]
  | cons c cs ih =>
    intro x k o
    rw [leadingFraction]
    split
    · simp
    · simp only [List.length_cons]
      split
      · exact Nat.le_succ_of_le (ih _ _ _)
      · split
        · exact Nat.le_succ_of_le (ih _ _ _)
        · split
          · exact Nat.le_succ_of_le (ih _ _ _)
          · exact Nat.le_succ_of_le (ih _ _ _)

/-- The loop of `time.ParseDuration` never runs out of fuel when the fuel is
at least the length of the string. -/
theorem parseDurationLoop_fuel (L : Lib) (fuel : Nat) :
    ∀ (s : List Char) (d : Nat), s.length ≤ fuel → parseDurationLoop L fuel s d ≠ .outOfFuel := by
  induction fuel with
  | zero =>
    intro s d h
    have : s = [] := List.length_eq_zero.1 (by omega)
    subst this
    simp [parseDurationLoop]
  | succ fuel ih =>
    intro s d h
    cases s with
    | nil => simp [parseDurationLoop]
    | cons c cs =>
      rw [parseDurationLoop]
      split
      · simp
      · split
        · simp
        · rename_i v s1 hli
          have h1 := leadingInt_length _ _ _ _ hli
          have key : ∀ (pre post : Bool) (fr : Nat × Nat × List Char),
              fr.2.2.length ≤ s1.length →
              (if (!pre && !post) = true then DurationLoop.failed
              else
                let u := List.takeWhile (fun b => !isNumberByte b) fr.2.2
                let rest := List.dropWhile (fun b => !isNumberByte b) fr.2.2
                if u.length = 0 then DurationLoop.failed
                else
                  match unitMap (String.mk u) with
                  | none => DurationLoop.failed
                  | some unit =>
                    if v > 2 ^ 63 / unit then DurationLoop.failed
                    else
                      let v1 := if fr.1 > 0 then v * unit + L.fractionNanos fr.1 fr.2.1 unit
                        else v * unit
                      if fr.1 > 0 ∧ v1 > 2 ^ 63 then DurationLoop.failed
                      else
                        let d1 := (d + v1) % 2 ^ 64
                        if d1 > 2 ^ 63 then DurationLoop.failed
                        else parseDurationLoop L fuel rest d1) ≠ DurationLoop.outOfFuel := by
            intro pre post fr hfr
            have hrest : (List.takeWhile (fun b => !isNumberByte b) fr.2.2).length +
                (List.dropWhile (fun b => !isNumberByte b) fr.2.2).length = fr.2.2.length := by
              rw [← List.length_append, List.takeWhile_append_dropWhile]
            split
            · simp
            · dsimp only
              split
              · simp
              · rename_i hu
                split
                · simp
                · rename_i unit hunit
                  split
                  · simp
                  · generalize (if fr.1 > 0 then v * unit + L.fractionNanos fr.1 fr.2.1 unit
                      else v * unit) = v1
                    split
                    · simp
                    · split
                      · simp
                      · apply ih
                        simp only [List.length_cons] at h h1
                        omega
          refine key _ _ _ ?_
          split
          · exact le_trans (leadingFraction_length _ _ _ _) (by simp)
          · exact le_refl _

/-! ## Claims on the integer list parser and on durations -/

theorem pieceInt_eq_atoi (t : String) :
    (if t = "" then none
      else match strconv_Atoi t with
        | (i, none) => some i
        | _ => none) = pieceInt t := by
  by_cases ht : t = ""
  · subst ht
    decide
  · rw [if_neg ht]
    unfold pieceInt
    cases hd : decimalValue t with
    | none =>
      have hno : ∀ i, strconv_Atoi t ≠ (i, none) := fun i h => by
        have := ((strconv_Atoi_ok_iff t i).1 h).1
        rw [hd] at this
        exact absurd this (by simp)
      generalize strconv_Atoi t = r at hno
      obtain ⟨i, e⟩ := r
      cases e with
      | none => exact absurd rfl (hno i)
      | some e => rfl
    | some n =>
      by_cases hr : intRange 64 n
      · rw [(strconv_Atoi_ok_iff t n).2 ⟨hd, hr⟩]
        simp [hr]
      · have hno : ∀ i, strconv_Atoi t ≠ (i, none) := fun i h => by
          have h2 := (strconv_Atoi_ok_iff t i).1 h
          rw [hd] at h2
          have : n = i := Option.some.inj h2.1
          exact hr (this ▸ h2.2)
        generalize strconv_Atoi t = r at hno
        obtain ⟨i, e⟩ := r
        cases e with
        | none => exact absurd rfl (hno i)
        | some e => simp [hr]

theorem splitAndTrimIntSlice_eq (s : String) :
    splitAndTrimIntSlice s =
      some (((strings_Split s ',').map strings_TrimSpace).filterMap pieceInt) := by
  unfold splitAndTrimIntSlice
  split
  · rename_i h
    have hall := all_space_of_trimSpace_eq_empty s h
    have hno : ',' ∉ s.data := by
      intro hm
      have := hall _ hm
      exact absurd this (by decide)
    rw [strings_Split_of_not_mem s ',' hno]
    have : pieceInt "" = none := by decide
    simp [h, this]
  · congr 1
    apply List.filterMap_congr
    intro t _
    exact pieceInt_eq_atoi t

/-- C18 (comma-list parsing of integers): `splitAndTrimIntSlice(s)` is the
allocated sequence, in order, of the integers written by those trimmed pieces
of `s` split on the comma that are the base-10 text of an `int`; every other
piece (empty, a word, a float such as 1.5) is left out and changes nothing
else.  On `1,x,2,,3` it gives 1, 2, 3, and the empty allocated sequence when
no piece parses. -/
theorem splitAndTrimIntSlice_spec :
    (∀ s : String,
      splitAndTrimIntSlice s =
        some (((strings_Split s ',').map strings_TrimSpace).filterMap pieceInt)) ∧
      (∀ t : String, ∀ n : Int, pieceInt t = some n ↔ decimalValue t = some n ∧ intRange 64 n) ∧
      splitAndTrimIntSlice "1,x,2,,3" = some [1, 2, 3] ∧
      splitAndTrimIntSlice "1.5, x ,7" = some [7] ∧
      splitAndTrimIntSlice "x,1.5" = some [] ∧
      splitAndTrimIntSlice "" = some [] := by
  refine ⟨splitAndTrimIntSlice_eq, ?_, by decide, by decide, by decide, by decide⟩
  intro t n
  unfold pieceInt
  cases hd : decimalValue t with
  | none => simp
  | some m =>
    by_cases hr : intRange 64 m
    · simp only [hr, ↓reduceIte, Option.some.injEq]
      constructor
      · rintro rfl
        exact ⟨rfl, hr⟩
      · exact fun h => h.1
    · simp only [hr, ↓reduceIte, reduceCtorEq, Option.some.injEq, false_iff, not_and]
      rintro rfl
      exact hr

theorem leadingInt_suffix (l : List Char) :
    ∀ x v r, leadingInt l x = some (v, r) → r <:+ l := by
  induction l with
  | nil =>
    intro x v r h
    simp only [leadingInt, Option.some.injEq, Prod.mk.injEq] at h
    rw [← h.2]
  | cons c cs ih =>
    intro x v r h
    rw [leadingInt] at h
    split at h
    · simp only [Option.some.injEq, Prod.mk.injEq] at h
      rw [← h.2]
    · split at h
      · simp at h
      · split at h
        · simp at h
        · exact (ih _ _ _ h).trans (List.suffix_cons c cs)

/-- On a string without a period the loop of `time.ParseDuration` never asks
the library for a fraction term, so its result is the same for every
library. -/
theorem parseDurationLoop_no_period (L L' : Lib) (fuel : Nat) :
    ∀ (s : List Char) (d : Nat), '.' ∉ s →
      parseDurationLoop L fuel s d = parseDurationLoop L' fuel s d := by
  induction fuel with
  | zero =>
    intro s d _
    cases s <;> simp [parseDurationLoop]
  | succ fuel ih =>
    intro s d hs
    cases s with
    | nil => simp [parseDurationLoop]
    | cons c cs =>
      rw [parseDurationLoop, parseDurationLoop]
      by_cases hc : (!isNumberByte c) = true
      · rw [if_pos hc, if_pos hc]
      · rw [if_neg hc, if_neg hc]
        cases hli : leadingInt (c :: cs) 0 with
        | none => rfl
        | some p =>
          obtain ⟨v, s1⟩ := p
          have hsuf := leadingInt_suffix _ _ _ _ hli
          have hs1 : '.' ∉ s1 := fun h => hs (hsuf.subset h)
          have hh : ¬s1.head? = some '.' := by
            intro h
            cases s1 with
            | nil => simp at h
            | cons a t =>
              simp only [List.head?_cons, Option.some.injEq] at h
              exact hs1 (h ▸ List.mem_cons_self _ _)
          have hrest : '.' ∉ List.dropWhile (fun b => !isNumberByte b) s1 :=
            fun h => hs1 ((List.dropWhile_suffix _).subset h)
          have hrw : ∀ d1, parseDurationLoop L fuel
              (List.dropWhile (fun b => !isNumberByte b) s1) d1 =
              parseDurationLoop L' fuel (List.dropWhile (fun b => !isNumberByte b) s1) d1 :=
            fun d1 => ih _ d1 hrest
          simp only [hh, ↓reduceIte, gt_iff_lt, lt_self_iff_false, false_and, hrw]

theorem time_ParseDuration_no_period (L L' : Lib) (s : String) (hs : '.' ∉ s.data) :
    time_ParseDuration L s = time_ParseDuration L' s := by
  unfold time_ParseDuration
  have hb : '.' ∉ (if s.data.head? = some '-' ∨ s.data.head? = some '+' then s.data.tail
      else s.data) := by
    split
    · exact fun h => hs (List.mem_of_mem_tail h)
    · exact hs
  dsimp only
  rw [parseDurationLoop_no_period L L' _ _ _ hb]

/-- C15 (duration coercion): an int or int64 `n` is `n` nanoseconds; a string
that `time.ParseDuration` accepts is the parsed duration; a string it rejects
that is the base-10 text of a 64-bit integer `n` is `n` nanoseconds; every
other string is the zero duration.  So `30s` is thirty seconds, `1h` one hour,
`1000` a thousand nanoseconds and `abc` zero. -/
theorem toDuration_spec (L : Lib) :
    (∀ n : Int, intRange 64 n → toDuration L (.int n) = n) ∧
      (∀ n : Int, toDuration L (.int64 n) = n) ∧
      (∀ s d, time_ParseDuration L s = some d → toDuration L (.str s) = d) ∧
      (∀ s n, time_ParseDuration L s = none → decimalValue s = some n → intRange 64 n →
        toDuration L (.str s) = n) ∧
      (∀ s, time_ParseDuration L s = none →
        (∀ n, decimalValue s = some n → ¬intRange 64 n) → toDuration L (.str s) = 0) ∧
      toDuration L (.str "30s") = 30 * 1000000000 ∧
      toDuration L (.str "1h") = 3600 * 1000000000 ∧
      toDuration L (.str "1000") = 1000 ∧
      toDuration L (.str "abc") = 0 := by
  have hP := fun s m => strconv_ParseInt_ok_iff s 64 m (by decide) (by decide)
  simp only [reduceCtorEq, ↓reduceIte, OfNat.ofNat_ne_zero] at hP
  have h3 : ∀ s d, time_ParseDuration L s = some d → toDuration L (.str s) = d := by
    intro s d h
    simp [toDuration, h]
  have h4 : ∀ s n, time_ParseDuration L s = none → decimalValue s = some n → intRange 64 n →
      toDuration L (.str s) = n := by
    intro s n h hd hr
    have := (hP s n).2 ⟨hd, hr⟩
    simp [toDuration, h, this]
  have h5 : ∀ s, time_ParseDuration L s = none →
      (∀ n, decimalValue s = some n → ¬intRange 64 n) → toDuration L (.str s) = 0 := by
    intro s h hno
    have hne : ∀ i, strconv_ParseInt s 64 ≠ (i, none) := fun i hi =>
      hno i ((hP s i).1 hi).1 ((hP s i).1 hi).2
    generalize hr : strconv_ParseInt s 64 = r at hne
    obtain ⟨i, e⟩ := r
    cases e with
    | none => exact absurd rfl (hne i)
    | some e => simp [toDuration, h, hr]
  refine ⟨fun n hn => wrapS_of_intRange n hn, fun _ => rfl, h3, h4, h5, ?_, ?_, ?_, ?_⟩
  · exact h3 "30s" _ ((time_ParseDuration_no_period L sampleLib "30s" (by decide)).trans
      (by decide))
  · exact h3 "1h" _ ((time_ParseDuration_no_period L sampleLib "1h" (by decide)).trans
      (by decide))
  · exact h4 "1000" 1000 ((time_ParseDuration_no_period L sampleLib "1000" (by decide)).trans
      (by decide)) (by decide) (by decide)
  · refine h5 "abc" ((time_ParseDuration_no_period L sampleLib "abc" (by decide)).trans
      (by decide)) (fun n hn => ?_)
    have h2 : decimalValue "abc" = none := by decide
    rw [h2] at hn
    exact absurd hn (by simp)

theorem toDuration_spec_witness :
    intRange 64 1000 ∧ toDuration sampleLib (.int 1000) = 1000 ∧
      time_ParseDuration sampleLib "1h30m" = some 5400000000000 ∧
      toDuration sampleLib (.str "1h30m") = 5400000000000 ∧
      time_ParseDuration sampleLib "-25" = none ∧ decimalValue "-25" = some (-25) ∧
      toDuration sampleLib (.str "-25") = -25 ∧
      time_ParseDuration sampleLib "9223372036854775808" = none ∧
      toDuration sampleLib (.str "9223372036854775808") = 0 :=
  ⟨by decide, (toDuration_spec sampleLib).1 1000 (by decide),
    by decide, (toDuration_spec sampleLib).2.2.1 "1h30m" _ (by decide),
    by decide, by decide,
    (toDuration_spec sampleLib).2.2.2.1 "-25" (-25) (by decide) (by decide) (by decide),
    by decide,
    (toDuration_spec sampleLib).2.2.2.2.1 "9223372036854775808" (by decide)
      (fun n hn => by
        have : n = 9223372036854775808 := by
          have h2 : decimalValue "9223372036854775808" = some 9223372036854775808 := by decide
          rw [h2] at hn
          exact (Option.some.inj hn).symm
        subst this
        decide)⟩

/-! ## Formatting of integers -/

theorem digitChar_spec (k : Nat) (hk : k < 10) :
    isDigit (Nat.digitChar k) = true ∧ digitVal (Nat.digitChar k) = k := by
  interval_cases k <;> decide

theorem digitsValue_append (a b : List Char) :
    ∀ m, digitsValue (a ++ b) m = digitsValue b (digitsValue a m) := by
  induction a with
  | nil => intro m; rfl
  | cons c cs ih => intro m; exact ih (m * 10 + digitVal c)

theorem toDigitsCore_spec (fuel : Nat) :
    ∀ (n : Nat) (ds : List Char), n < fuel →
      ∃ pre, Nat.toDigitsCore 10 fuel n ds = pre ++ ds ∧ pre ≠ [] ∧
        (∀ c ∈ pre, isDigit c = true) ∧ ∀ m, digitsValue pre m = m * 10 ^ pre.length + n := by
  induction fuel with
  | zero => intro n ds h; omega
  | succ fuel ih =>
    intro n ds h
    have hd := digitChar_spec (n % 10) (Nat.mod_lt _ (by norm_num))
    rw [Nat.toDigitsCore]
    by_cases h0 : n / 10 = 0
    · rw [if_pos h0]
      refine ⟨[Nat.digitChar (n % 10)], rfl, by simp, ?_, ?_⟩
      · intro c hc
        rw [List.mem_singleton.1 hc]
        exact hd.1
      · intro m
        simp only [digitsValue, hd.2, List.length_singleton, pow_one]
        omega
    · rw [if_neg h0]
      obtain ⟨pre, hpre, -, hdig, hval⟩ := ih (n / 10) (Nat.digitChar (n % 10) :: ds) (by omega)
      refine ⟨pre ++ [Nat.digitChar (n % 10)], by rw [hpre]; simp, by simp, ?_, ?_⟩
      · intro c hc
        rcases List.mem_append.1 hc with h1 | h1
        · exact hdig c h1
        · rw [List.mem_singleton.1 h1]
          exact hd.1
      · intro m
        rw [digitsValue_append, hval]
        simp only [digitsValue, hd.2, List.length_append, List.length_singleton, pow_succ]
        have := Nat.div_add_mod n 10
        nlinarith [this]

theorem repr_spec (n : Nat) :
    (Nat.repr n).data ≠ [] ∧ (∀ c ∈ (Nat.repr n).data, isDigit c = true) ∧
      digitsValue (Nat.repr n).data 0 = n := by
  obtain ⟨pre, hpre, hne, hdig, hval⟩ := toDigitsCore_spec (n + 1) n [] (by omega)
  have hdata : (Nat.repr n).data = pre := by
    simp only [Nat.repr, Nat.toDigits, List.asString, hpre, List.append_nil]
  rw [hdata]
  exact ⟨hne, hdig, by simpa using hval 0⟩

theorem isDigit_not_sign (c : Char) (h : isDigit c = true) : c ≠ '+' ∧ c ≠ '-' := by
  have := (isDigit_iff c).1 h
  constructor <;> rintro rfl <;> simp at this

/-- The text `strconv.FormatInt` writes reads back, in base 10, as the integer
it was given. -/
theorem decimalValue_FormatInt (n : Int) : decimalValue (strconv_FormatInt n) = some n := by
  obtain ⟨hne, hdig, hval⟩ := repr_spec n.natAbs
  unfold strconv_FormatInt
  by_cases hn : n < 0
  · rw [if_pos hn]
    have hdata : ("-" ++ Nat.repr n.natAbs).data = '-' :: (Nat.repr n.natAbs).data := by
      simp [String.data_append]
    unfold decimalValue
    simp only [hdata, List.head?_cons, List.tail_cons, Option.some.injEq, or_true, ↓reduceIte,
      true_and]
    rw [if_pos ⟨hne, hdig⟩, hval]
    congr 1
    omega
  · rw [if_neg hn]
    obtain ⟨c, cs, hcs⟩ := List.exists_cons_of_ne_nil hne
    have hc := isDigit_not_sign c (hdig c (by rw [hcs]; exact List.mem_cons_self _ _))
    have hhead : ¬((Nat.repr n.natAbs).data.head? = some '+' ∨
        (Nat.repr n.natAbs).data.head? = some '-') := by
      rw [hcs]
      simp [hc.1, hc.2]
    have hneg : ¬(Nat.repr n.natAbs).data.head? = some '-' := fun h => hhead (Or.inr h)
    have hpos : ¬(Nat.repr n.natAbs).data.head? = some '+' := fun h => hhead (Or.inl h)
    unfold decimalValue
    simp only [hpos, hneg, or_self, ↓reduceIte]
    rw [if_pos ⟨hne, hdig⟩, hval]
    congr 1
    omega

/-! ## Claims on the string coercion and on the integer matrix -/

theorem wrapS_eq (w : Nat) (hw : 1 ≤ w) (n : Int) (h : intRange w n) : wrapS w n = n := by
  unfold intRange at h
  unfold wrapS
  have hp : (2 : Int) ^ w = 2 * 2 ^ (w - 1) := by
    obtain ⟨k, rfl⟩ : ∃ k, w = k + 1 := ⟨w - 1, by omega⟩
    simp [pow_succ, mul_comm]
  rw [hp]
  generalize (2 : Int) ^ (w - 1) = M at h ⊢
  rw [Int.emod_eq_of_lt (by omega) (by omega)]
  omega

theorem wrapU_eq (w : Nat) (n : Int) (h : uintRange w n) : ((wrapU w n : Nat) : Int) = n := by
  unfold uintRange at h
  unfold wrapU
  rw [Int.emod_eq_of_lt h.1 h.2]
  exact Int.toNat_of_nonneg h.1

/-- C13 (string coercion of numbers), the claim fails: the int32 42 and the
unsigned integer 7 are native numbers, and `toString` gives the empty string
on both. -/
theorem toString_int32_empty :
    GoType.isNumeric (Value.int32 42).typeOf = true ∧ toString sampleLib (.int32 42) = "" ∧
      GoType.isNumeric (Value.uint 7).typeOf = true ∧ toString sampleLib (.uint 7) = "" := by
  decide

/-- C13 as amended: `toString` writes an int and an int64 as their decimal
text (the text reads back as the same integer), a float64 as
`strconv.FormatFloat(f, 'f', -1, 64)`, a boolean as `true` or `false`, and
returns a string itself; every other input yields the empty string: null,
sequences and mappings, and also int32, uint, uint16, uint32, uint64, float32
and duration values. -/
theorem toString_spec (L : Lib) :
    (∀ n : Int, toString L (.int n) = strconv_FormatInt n ∧
        decimalValue (toString L (.int n)) = some n) ∧
      (∀ n : Int, toString L (.int64 n) = strconv_FormatInt n ∧
        decimalValue (toString L (.int64 n)) = some n) ∧
      (∀ f : Float64, toString L (.float64 f) = L.formatFloat f) ∧
      (toString L (.bool true) = "true" ∧ toString L (.bool false) = "false") ∧
      (∀ s : String, toString L (.str s) = s) ∧
      (∀ v : Value, v.typeOf ∉ [GoType.str, .int, .int64, .float64, .bool] →
        toString L v = "") ∧
      toString L (.int 42) = "42" ∧
      toString L (.int64 (-7)) = "-7" := by
  refine ⟨fun n => ⟨rfl, decimalValue_FormatInt n⟩, fun n => ⟨rfl, decimalValue_FormatInt n⟩,
    fun _ => rfl, ⟨rfl, rfl⟩, fun _ => rfl, ?_, ?_, ?_⟩
  · intro v hv
    cases v <;> simp [Value.typeOf, Config.toString] at hv ⊢
  · show strconv_FormatInt 42 = "42"
    decide
  · show strconv_FormatInt (-7) = "-7"
    decide

theorem toString_spec_witness :
    toString sampleLib (.duration 5) = "" ∧ toString sampleLib (.uint64 5) = "" ∧
      toString sampleLib .null = "" :=
  ⟨(toString_spec sampleLib).2.2.2.2.2.1 (.duration 5) (by decide),
    (toString_spec sampleLib).2.2.2.2.2.1 (.uint64 5) (by decide),
    (toString_spec sampleLib).2.2.2.2.2.1 .null (by decide)⟩

/-- C14 (integer coercion matrix), the claim fails: the int32 5 is a value of
`int`, of `uint` and of `uint64`, and the uint16 9 is a value of `int`, yet
`toInt`, `toUint` and `toUint64` return 0 on the first and `toInt` returns 0
on the second. -/
theorem integer_matrix_incomplete :
    (Value.int32 5).intValue = some 5 ∧ IntTarget.fits .int 5 ∧
      IntTarget.coerce sampleLib .int (.int32 5) = 0 ∧
      IntTarget.fits .uint 5 ∧ IntTarget.coerce sampleLib .uint (.int32 5) = 0 ∧
      IntTarget.fits .uint64 5 ∧ IntTarget.coerce sampleLib .uint64 (.int32 5) = 0 ∧
      (Value.uint16 9).intValue = some 9 ∧ IntTarget.fits .int 9 ∧
      IntTarget.coerce sampleLib .int (.uint16 9) = 0 := by
  decide

/-- C14 as amended: an integer coercion returns a native integer `v` that is a
value of its target type when the source type of `v` is a case of its type
switch (toInt: int, int64; toInt32 and toInt64: int, int32, int64; toUint:
int, int64, uint, uint64; toUint16, toUint32, toUint64: int, int64, uint,
uint64 and, in turn, uint16, uint32, uint32), and returns 0 for every other
source type. -/
theorem integer_matrix (L : Lib) (target : IntTarget) (v : Value) (n : Int)
    (hv : v.intValue = some n) (hfit : target.fits n) :
    target.coerce L v = if target.handles v.typeOf = true then n else 0 := by
  cases target <;> cases v <;>
    simp only [Value.intValue, reduceCtorEq, Option.some.injEq] at hv <;>
    subst hv <;>
    simp only [IntTarget.coerce, IntTarget.handles, Value.typeOf, IntTarget.fits, toInt, toInt32,
      toInt64, toUint, toUint16, toUint32, toUint64, intSize] at hfit ⊢ <;>
    first
      | rfl
      | exact wrapS_eq _ (by norm_num) _ hfit
      | exact wrapU_eq _ _ hfit

theorem integer_matrix_witness :
    (Value.int 300).intValue = some 300 ∧ IntTarget.fits .uint16 300 ∧
      IntTarget.coerce sampleLib .uint16 (.int 300) = 300 ∧
      IntTarget.coerce sampleLib .int32 (.uint32 8) = 0 :=
  ⟨rfl, by decide,
    (integer_matrix sampleLib .uint16 (.int 300) 300 rfl (by decide)).trans (by decide),
    (integer_matrix sampleLib .int32 (.uint32 8) 8 rfl (by decide)).trans (by decide)⟩

/-! ## Claims on the environment variable name -/

theorem intercalate_splitRunes (a b : Char) (cs : List Char) :
    List.intercalate [b] (splitRunes a cs) = cs.map fun c => if c = a then b else c := by
  induction cs with
  | nil => simp [splitRunes, List.intercalate]
  | cons c cs ih =>
    unfold splitRunes
    cases hs : splitRunes a cs with
    | nil => exact absurd hs (splitRunes_ne_nil a cs)
    | cons q qs =>
      rw [hs] at ih
      split
      · rename_i hc
        rw [List.map_cons, if_pos hc, ← ih]
        simp [List.intercalate, List.intersperse]
      · rename_i hc
        rw [List.map_cons, if_neg hc, ← ih]
        cases qs <;> simp [List.intercalate, List.intersperse]

theorem envKey_eq_overrideName (L : Lib) (key : String) : envKey L key = overrideName L key := by
  unfold envKey overrideName joinWith strings_ReplaceAll strings_Split
  congr 2
  rw [List.map_map]
  have : (String.data ∘ String.mk) = id := by
    funext l
    rfl
  rw [this, List.map_id, intercalate_splitRunes]

theorem strings_ToUpper_ascii (L L' : Lib) (s : String) (h : ∀ c ∈ s.data, c.val < 128) :
    strings_ToUpper L s = strings_ToUpper L' s := by
  unfold strings_ToUpper
  congr 1
  apply List.map_congr_left
  intro c hc
  simp [unicode_ToUpper, h c hc]

theorem envKey_ascii (L L' : Lib) (key : String) (h : ∀ c ∈ key.data, c.val < 128) :
    envKey L key = envKey L' key := by
  unfold envKey
  apply strings_ToUpper_ascii
  intro c hc
  simp only [strings_ReplaceAll, List.mem_map] at hc
  obtain ⟨d, hd, rfl⟩ := hc
  split
  · decide
  · exact h d hd

/-- C23 (environment variable name): the variable `getEnvValue(k)` looks up is
the upper-cased join with `_` of the segments of `k` split on the period, which
is the upper-casing of `k` with every period replaced by `_`; it depends on
`k` alone.  `db.host` gives `DB_HOST` and `services.thrift.timeout` gives
`SERVICES_THRIFT_TIMEOUT`. -/
theorem getEnvValue_name (L : Lib) :
    (∀ env key, getEnvValue L env key = os_LookupEnv env (overrideName L key)) ∧
      (∀ key, overrideName L key = strings_ToUpper L (strings_ReplaceAll key '.' '_')) ∧
      overrideName L "db.host" = "DB_HOST" ∧
      overrideName L "services.thrift.timeout" = "SERVICES_THRIFT_TIMEOUT" := by
  refine ⟨fun env key => ?_, fun key => (envKey_eq_overrideName L key).symm, ?_, ?_⟩
  · unfold getEnvValue
    rw [envKey_eq_overrideName]
  · rw [← envKey_eq_overrideName, envKey_ascii L sampleLib _ (by decide)]
    decide
  · rw [← envKey_eq_overrideName, envKey_ascii L sampleLib _ (by decide)]
    decide

/-- C24 (override-name collisions): the keys `a.b_c` and `a.b.c` are different
and both map to the variable `A_B_C`, so the name derivation is not injective;
when the environment holds `A_B_C`, `GetString` returns its value for both
keys, whatever the tree holds at them. -/
theorem overrideName_collision (L : Lib) :
    envKey L "a.b_c" = "A_B_C" ∧ envKey L "a.b.c" = "A_B_C" ∧
      ¬Function.Injective (envKey L) ∧
      ∀ (σ : State) (s : String), os_LookupEnv σ.env "A_B_C" = some s →
        GetString L σ "a.b_c" = s ∧ GetString L σ "a.b.c" = s := by
  have h1 : envKey L "a.b_c" = "A_B_C" := by
    rw [envKey_ascii L sampleLib _ (by decide)]
    decide
  have h2 : envKey L "a.b.c" = "A_B_C" := by
    rw [envKey_ascii L sampleLib _ (by decide)]
    decide
  refine ⟨h1, h2, ?_, ?_⟩
  · intro hinj
    have := hinj (h1.trans h2.symm)
    exact absurd this (by decide)
  · intro σ s hs
    constructor
    · simp [GetString, getEnvValue, h1, hs]
    · simp [GetString, getEnvValue, h2, hs]

theorem overrideName_collision_witness :
    os_LookupEnv [("A_B_C", "env")] "A_B_C" = some "env" ∧
      getFromMap (some [("a", .map (some [("b_c", .str "x"),
        ("b", .map (some [("c", .str "y")]))]))]) "a.b_c" = some (.str "x") ∧
      getFromMap (some [("a", .map (some [("b_c", .str "x"),
        ("b", .map (some [("c", .str "y")]))]))]) "a.b.c" = some (.str "y") ∧
      GetString sampleLib ⟨some [("a", .map (some [("b_c", .str "x"),
        ("b", .map (some [("c", .str "y")]))]))], [("A_B_C", "env")]⟩ "a.b_c" = "env" ∧
      GetString sampleLib ⟨some [("a", .map (some [("b_c", .str "x"),
        ("b", .map (some [("c", .str "y")]))]))], [("A_B_C", "env")]⟩ "a.b.c" = "env" :=
  ⟨rfl, rfl, rfl,
    ((overrideName_collision sampleLib).2.2.2 ⟨some [("a", .map (some [("b_c", .str "x"),
      ("b", .map (some [("c", .str "y")]))]))], [("A_B_C", "env")]⟩ "env" rfl).1,
    ((overrideName_collision sampleLib).2.2.2 ⟨some [("a", .map (some [("b_c", .str "x"),
      ("b", .map (some [("c", .str "y")]))]))], [("A_B_C", "env")]⟩ "env" rfl).2⟩

/-! ## Claims on the conversion of overrides -/

/-- C27 (override of a generic sequence leaf): for a generic sequence leaf the
override string is parsed by `splitAndTrimIntSlice` when the sequence has a
first element of type int, int64 or float64, and by `splitAndTrimStringSlice`
when it is empty or nil or its first element has another type; the elements
after the first play no part. -/
theorem convertEnvToType_generic_sequence (L : Lib) (s : String) :
    (∀ first rest, first.typeOf ∈ [GoType.int, .int64, .float64] →
        convertEnvToType L s (.anySlice (some (first :: rest))) =
          .intSlice (splitAndTrimIntSlice s)) ∧
      (∀ first rest, first.typeOf ∉ [GoType.int, .int64, .float64] →
        convertEnvToType L s (.anySlice (some (first :: rest))) =
          .strSlice (splitAndTrimStringSlice s)) ∧
      convertEnvToType L s (.anySlice (some [])) = .strSlice (splitAndTrimStringSlice s) ∧
      convertEnvToType L s (.anySlice none) = .strSlice (splitAndTrimStringSlice s) ∧
      (∀ first rest rest',
        convertEnvToType L s (.anySlice (some (first :: rest))) =
          convertEnvToType L s (.anySlice (some (first :: rest')))) := by
  refine ⟨?_, ?_, rfl, rfl, ?_⟩
  · intro first rest h
    cases first <;> simp [Value.typeOf] at h <;> rfl
  · intro first rest h
    cases first <;> simp [Value.typeOf] at h <;> rfl
  · intro first rest rest'
    cases first <;> rfl

theorem convertEnvToType_generic_sequence_witness :
    convertEnvToType sampleLib "1, 2,x" (.anySlice (some [.int 7, .str "a"])) =
        .intSlice (some [1, 2]) ∧
      convertEnvToType sampleLib "1, 2,x" (.anySlice (some [.str "a", .int 7])) =
        .strSlice (some ["1", "2", "x"]) :=
  ⟨((convertEnvToType_generic_sequence sampleLib "1, 2,x").1 (.int 7) [.str "a"]
      (by decide)).trans (congrArg Value.intSlice (by decide)),
    ((convertEnvToType_generic_sequence sampleLib "1, 2,x").2.1 (.str "a") [.int 7]
      (by decide)).trans (congrArg Value.strSlice (by decide))⟩

/-- C30 (GetStringMap ignores the environment): under any two environments
`GetStringMap(k)` returns the same mapping, the mapping the tree holds at `k`
or an allocated empty mapping when `k` does not resolve to a mapping. -/
theorem GetStringMap_ignores_env (t : GoMap) (k : String) (e1 e2 : Env) :
    GetStringMap ⟨t, e1⟩ k = GetStringMap ⟨t, e2⟩ k ∧
      (∀ m, getFromMap t k = some (.map m) → GetStringMap ⟨t, e1⟩ k = m) ∧
      ((∀ m, getFromMap t k ≠ some (.map m)) → GetStringMap ⟨t, e1⟩ k = some []) := by
  refine ⟨rfl, ?_, ?_⟩
  · intro m h
    simp [GetStringMap, h, toStringMap]
  · intro h
    unfold GetStringMap
    cases hg : getFromMap t k with
    | none => rfl
    | some v =>
      cases v with
      | map m => exact absurd hg (h m)
      | _ => rfl

theorem GetStringMap_ignores_env_witness :
    getFromMap (some [("db", .map (some [("host", .str "h")]))]) "db" =
        some (.map (some [("host", .str "h")])) ∧
      GetStringMap ⟨some [("db", .map (some [("host", .str "h")]))], [("DB", "x")]⟩ "db" =
        some [("host", .str "h")] :=
  ⟨rfl,
    (GetStringMap_ignores_env (some [("db", .map (some [("host", .str "h")]))]) "db"
      [("DB", "x")] []).2.1 _ rfl⟩

/-- C26 (overrides preserve the runtime type of the leaf), the claim fails: a
duration leaf and a null leaf come back as a string, a float32 leaf as a
float64, and a generic sequence leaf as a `[]int` or a `[]string`. -/
theorem convertEnvToType_changes_type :
    (convertEnvToType sampleLib "5s" (.duration 1000)).typeOf = GoType.str ∧
      (Value.duration 1000).typeOf = GoType.duration ∧
      (convertEnvToType sampleLib "x" .null).typeOf = GoType.str ∧
      (convertEnvToType sampleLib "1.5" (.float32 ⟨0⟩)).typeOf = GoType.float64 ∧
      (convertEnvToType sampleLib "1,2" (.anySlice (some [.int 1]))).typeOf = GoType.intSlice ∧
      (convertEnvToType sampleLib "a,b" (.anySlice (some [.str "a"]))).typeOf =
        GoType.strSlice := by
  decide

/-- C26 as amended: `convertEnvToType` returns a value of the runtime type of
the leaf when the leaf is a boolean, an integer of any of the seven integer
types, a float64, a string, a `[]string` or a `[]int`; a float32 leaf becomes
a float64, a generic sequence leaf becomes a `[]int` or a `[]string`, and a
null leaf becomes a string. -/
theorem convertEnvToType_type (L : Lib) (s : String) (leaf : Value) :
    (leaf.typeOf ∈ [GoType.bool, .int, .int32, .int64, .uint, .uint16, .uint32, .uint64,
        .float64, .str, .strSlice, .intSlice] →
        (convertEnvToType L s leaf).typeOf = leaf.typeOf) ∧
      (leaf.typeOf = GoType.float32 → (convertEnvToType L s leaf).typeOf = GoType.float64) ∧
      (leaf.typeOf = GoType.anySlice →
        (convertEnvToType L s leaf).typeOf = GoType.intSlice ∨
          (convertEnvToType L s leaf).typeOf = GoType.strSlice) ∧
      (leaf.typeOf = GoType.null → (convertEnvToType L s leaf).typeOf = GoType.str) := by
  refine ⟨?_, ?_, ?_, ?_⟩
  · intro h
    cases leaf <;> simp [Value.typeOf] at h <;> rfl
  · intro h
    cases leaf <;> simp [Value.typeOf] at h
    rfl
  · intro h
    cases leaf with
    | anySlice xs =>
      cases xs with
      | none => exact Or.inr rfl
      | some l =>
        cases l with
        | nil => exact Or.inr rfl
        | cons first rest => cases first <;> first | exact Or.inl rfl | exact Or.inr rfl
    | _ => simp [Value.typeOf] at h
  · intro h
    cases leaf <;> simp [Value.typeOf] at h
    rfl

theorem convertEnvToType_type_witness :
    (convertEnvToType sampleLib "443" (.int 8080)).typeOf = GoType.int ∧
      (convertEnvToType sampleLib "1" (.float32 ⟨0⟩)).typeOf = GoType.float64 ∧
      (convertEnvToType sampleLib "x" .null).typeOf = GoType.str :=
  ⟨(convertEnvToType_type sampleLib "443" (.int 8080)).1 (by decide),
    (convertEnvToType_type sampleLib "1" (.float32 ⟨0⟩)).2.1 rfl,
    (convertEnvToType_type sampleLib "x" .null).2.2.2 rfl⟩

/-! ## Lemmas on the loop of the setter -/

theorem mapIndex_some_isSome (m : GoMap) (k : String) (x : Value) (h : mapIndex m k = some x) :
    ∃ fs, m = some fs := by
  cases m with
  | none => simp [mapIndex] at h
  | some fs => exact ⟨fs, rfl⟩

theorem mapIndex_mapReflect_other (fs : Fields) (k k2 : String) (v : Value) (h : k2 ≠ k) :
    mapIndex (mapReflect (some fs) k v) k2 = mapIndex (some fs) k2 := by
  simp [mapIndex, mapReflect, lookup_assocSet_other fs k k2 v h]

theorem setLoop_fresh (rest : List String) (hne : rest ≠ []) (v : Value) :
    setLoop (some []) rest v = some (some (chainFields rest v)) := by
  induction rest with
  | nil => exact absurd rfl hne
  | cons seg rest ih =>
    cases rest with
    | nil => rfl
    | cons s2 r =>
      have ih' := ih (by simp)
      rw [setLoop]
      pick_goal 2
      · simp
      simp [mapIndex, mapAssign, assocSet, ih', mapReflect, chainFields]

/-- The first segment is the only root entry the loop of `setInMap` touches. -/
theorem setLoop_other (seg : String) (rest : List String) (cur r : GoMap) (v : Value)
    (h : setLoop cur (seg :: rest) v = some r) (k2 : String) (hk : k2 ≠ seg) :
    mapIndex r k2 = mapIndex cur k2 := by
  cases rest with
  | nil =>
    simp only [setLoop] at h
    obtain ⟨fs, rfl, rfl⟩ := mapAssign_eq_some _ _ _ _ h
    simp [mapIndex, lookup_assocSet_other fs seg k2 v hk]
  | cons s2 rest2 =>
    rw [setLoop] at h
    pick_goal 2
    · simp
    cases cur with
    | none => simp [mapIndex, mapAssign] at h
    | some fs =>
      cases hl : fs.lookup seg with
      | none =>
        simp only [mapIndex, hl, Option.isNone_none, ↓reduceIte, mapAssign,
          lookup_assocSet_self] at h
        rw [Option.map_eq_some'] at h
        obtain ⟨next', -, rfl⟩ := h
        rw [mapIndex_mapReflect_other _ _ _ _ hk]
        simp [mapIndex, lookup_assocSet_other fs seg k2 _ hk]
      | some child =>
        simp only [mapIndex, hl, Option.isNone_some, Bool.false_eq_true, ↓reduceIte] at h
        split at h
        · rw [Option.map_eq_some'] at h
          obtain ⟨next', -, rfl⟩ := h
          exact mapIndex_mapReflect_other _ _ _ _ hk
        · simp only [mapAssign] at h
          rw [Option.map_eq_some'] at h
          obtain ⟨next', -, rfl⟩ := h
          rw [mapIndex_mapReflect_other _ _ _ _ hk]
          simp [mapIndex, lookup_assocSet_other fs seg k2 _ hk]

theorem getFromMap_empty_key (t : GoMap) : getFromMap t "" = mapIndex t "" := by
  have hs : strings_Split "" '.' = [""] := by decide
  unfold getFromMap
  rw [hs]
  simp only [getLoop]
  cases mapIndex t "" <;> rfl

theorem setInMap_other_root (t r : GoMap) (key : String) (v : Value)
    (h : setInMap t key v = some r) (k2 : String)
    (hk : (strings_Split key '.').head? ≠ some k2) :
    mapIndex r k2 = mapIndex t k2 := by
  unfold setInMap at h
  cases hs : strings_Split key '.' with
  | nil => exact absurd hs (strings_Split_ne_nil key '.')
  | cons seg rest =>
    rw [hs] at h hk
    have hne : k2 ≠ seg := by
      intro e
      apply hk
      simp [e]
    rw [setLoop_other seg rest _ r v h k2 hne]
    cases t <;> simp [mapIndex]

theorem runSets_empty_key (ops : List (String × Value)) :
    ∀ σ σ' : State, (∀ op ∈ ops, (strings_Split op.1 '.').head? ≠ some "") →
      runSets σ ops = some σ' → mapIndex σ.configData "" = none →
      mapIndex σ'.configData "" = none := by
  induction ops with
  | nil =>
    intro σ σ' _ h h0
    simp only [runSets, Option.some.injEq] at h
    rw [← h]
    exact h0
  | cons op ops ih =>
    intro σ σ' hops h h0
    obtain ⟨key, value⟩ := op
    simp only [runSets] at h
    cases hset : Set σ key value with
    | none => simp [hset] at h
    | some σ1 =>
      rw [hset] at h
      refine ih σ1 σ' (fun o ho => hops o (List.mem_cons_of_mem _ ho)) h ?_
      unfold Set at hset
      rw [Option.map_eq_some'] at hset
      obtain ⟨m, hm, rfl⟩ := hset
      show mapIndex m "" = none
      rw [setInMap_other_root _ _ _ _ hm "" (hops (key, value) (List.mem_cons_self _ _))]
      exact h0

/-- C21 (the empty key), the claim fails: from `Reset()` the call
`Set("", 1)` stores the value under the empty segment at the root, and
`getFromMap("")` then finds it. -/
theorem empty_key_resolves_after_Set :
    runSets (Reset ⟨none, []⟩) [("", .int 1)] = some ⟨some [("", .int 1)], []⟩ ∧
      getFromMap (some [("", .int 1)]) "" = some (.int 1) :=
  ⟨rfl, rfl⟩

/-- C21 as amended: `getFromMap("")` looks up the single empty segment in the
root mapping; it returns not found in every tree state reached from `Reset()`
by `Set` calls whose keys have a non-empty first segment (keys that are
neither empty nor start with a period). -/
theorem empty_key_not_found (σ0 σ : State) (ops : List (String × Value))
    (hops : ∀ op ∈ ops, (strings_Split op.1 '.').head? ≠ some "")
    (hrun : runSets (Reset σ0) ops = some σ) :
    getFromMap σ.configData "" = mapIndex σ.configData "" ∧
      getFromMap σ.configData "" = none := by
  have h := runSets_empty_key ops (Reset σ0) σ hops hrun rfl
  exact ⟨getFromMap_empty_key _, (getFromMap_empty_key _).trans h⟩

theorem empty_key_not_found_witness :
    runSets (Reset ⟨none, []⟩) [("a.b", .int 1), ("c", .str "x")] =
        some ⟨some [("a", .map (some [("b", .int 1)])), ("c", .str "x")], []⟩ ∧
      getFromMap (some [("a", .map (some [("b", .int 1)])), ("c", .str "x")]) "" = none :=
  ⟨rfl,
    (empty_key_not_found ⟨none, []⟩
      ⟨some [("a", .map (some [("b", .int 1)])), ("c", .str "x")], []⟩
      [("a.b", .int 1), ("c", .str "x")] (by decide) rfl).2⟩

theorem setLoop_resolved (parts : List String) (hne : parts ≠ []) (v : Value) :
    ∀ (t : GoMap) (x : Value), getLoop (.map t) parts = some x →
      ∃ t', setLoop t parts v = some t' := by
  induction parts with
  | nil => exact absurd rfl hne
  | cons seg rest ih =>
    intro t x h
    cases hm : mapIndex t seg with
    | none => simp [getLoop, hm] at h
    | some child =>
      obtain ⟨fs, rfl⟩ := mapIndex_some_isSome _ _ _ hm
      cases rest with
      | nil => exact ⟨_, rfl⟩
      | cons s2 rest2 =>
        rw [getLoop] at h
        simp only [hm] at h
        rw [setLoop]
        pick_goal 2
        · simp
        simp only [hm, Option.isNone_some, Bool.false_eq_true, ↓reduceIte]
        cases child with
        | map next =>
          obtain ⟨n', hn'⟩ := ih (by simp) next x h
          exact ⟨mapReflect (some fs) seg (.map n'), by simp [hn']⟩
        | _ => simp [getLoop] at h

theorem setLoop_prefix_nonmap (pre : List String) (hne : pre ≠ []) (rest : List String)
    (hrest : rest ≠ []) (v : Value) :
    ∀ (t : GoMap) (x : Value), getLoop (.map t) pre = some x → (∀ m, x ≠ .map m) →
      ∃ t', setLoop t (pre ++ rest) v = some t' ∧
        getLoop (.map t') pre = some (.map (some (chainFields rest v))) := by
  induction pre with
  | nil => exact absurd rfl hne
  | cons seg pre ih =>
    intro t x h hx
    obtain ⟨r1, rs, rfl⟩ := List.exists_cons_of_ne_nil hrest
    cases hm : mapIndex t seg with
    | none => simp [getLoop, hm] at h
    | some child =>
      obtain ⟨fs, rfl⟩ := mapIndex_some_isSome _ _ _ hm
      cases pre with
      | nil =>
        simp only [getLoop, hm, Option.some.injEq] at h
        subst h
        simp only [List.cons_append, List.nil_append]
        rw [setLoop]
        pick_goal 2
        · simp
        simp only [hm, Option.isNone_some, Bool.false_eq_true, ↓reduceIte]
        have hfresh := setLoop_fresh (r1 :: rs) (by simp) v
        cases child with
        | map m => exact absurd rfl (hx m)
        | _ =>
          simp only [mapAssign, hfresh, Option.map_some']
          exact ⟨_, rfl, by simp [getLoop, mapIndex_mapReflect_self]⟩
      | cons s2 pre2 =>
        rw [getLoop] at h
        simp only [hm] at h
        simp only [List.cons_append]
        rw [setLoop]
        pick_goal 2
        · simp
        simp only [hm, Option.isNone_some, Bool.false_eq_true, ↓reduceIte]
        cases child with
        | map next =>
          obtain ⟨n', hn', hg⟩ := ih (by simp) next x h hx
          simp only [List.cons_append] at hn'
          refine ⟨mapReflect (some fs) seg (.map n'), by simp [hn'], ?_⟩
          rw [getLoop]
          simp only [mapIndex_mapReflect_self]
          exact hg
        | _ => simp [getLoop] at h

theorem splitRunes_append_sep (sep : Char) (a b : List Char) :
    splitRunes sep (a ++ sep :: b) = splitRunes sep a ++ splitRunes sep b := by
  induction a with
  | nil => simp [splitRunes]
  | cons c a ih =>
    by_cases hc : c = sep
    · simp [splitRunes, hc, ih]
    · have e : splitRunes sep (c :: a ++ sep :: b) =
          (match splitRunes sep (a ++ sep :: b) with
            | [] => [[c]]
            | p :: ps => (c :: p) :: ps) := by
        simp only [List.cons_append, splitRunes, hc, ↓reduceIte]
        rfl
      rw [e, ih]
      simp only [splitRunes, hc, ↓reduceIte]
      cases hs : splitRunes sep a with
      | nil => exact absurd hs (splitRunes_ne_nil sep a)
      | cons p ps => simp

/-- Splitting `p + "." + r` gives the segments of `p` followed by those of `r`. -/
theorem strings_Split_append_sep (p r : String) :
    strings_Split (p ++ "." ++ r) '.' = strings_Split p '.' ++ strings_Split r '.' := by
  have h : (p ++ "." ++ r).data = p.data ++ '.' :: r.data := by
    simp [String.data_append]
  simp [strings_Split, h, splitRunes_append_sep]

theorem getLoop_nonmap (x : Value) (hx : ∀ m, x ≠ .map m) (rest : List String)
    (hne : rest ≠ []) : getLoop x rest = none := by
  cases rest with
  | nil => exact absurd rfl hne
  | cons seg rest =>
    cases x with
    | map m => exact absurd rfl (hx m)
    | _ => simp [getLoop]

theorem setInMap_of_some (fs : Fields) (key : String) (v : Value) :
    setInMap (some fs) key v = setLoop (some fs) (strings_Split key '.') v := by
  simp [setInMap]

/-- C22 (Set discards what conflicts with the written path).  (a) When a proper
prefix `p` of the key `p.r` holds a value that is not a mapping, `Set(p.r, v)`
succeeds; afterwards the node at `p` is the mapping holding nothing but the
chain of the remaining segments down to `v` (the old value is gone), and the
key resolves to `v`.  (b) When `k` holds a mapping and `v` is not a mapping,
`Set(k, v)` succeeds; afterwards `k` resolves to `v` and no key below `k`
resolves.  (c) After `Reset()`, `Set("x.y.z", 1)` and `Set("x.y", "scalar")`
the key `x.y` resolves to `"scalar"` and `x.y.z` is not found. -/
theorem Set_discards_conflicts :
    (∀ (σ : State) (p r : String) (x v : Value),
        getFromMap σ.configData p = some x → (∀ m, x ≠ .map m) →
        ∃ σ', Set σ (p ++ "." ++ r) v = some σ' ∧
          getFromMap σ'.configData p =
            some (.map (some (chainFields (strings_Split r '.') v))) ∧
          getFromMap σ'.configData (p ++ "." ++ r) = some v) ∧
    (∀ (σ : State) (k : String) (m : GoMap) (v : Value),
        getFromMap σ.configData k = some (.map m) → (∀ m', v ≠ .map m') →
        ∃ σ', Set σ k v = some σ' ∧ getFromMap σ'.configData k = some v ∧
          ∀ r, getFromMap σ'.configData (k ++ "." ++ r) = none) ∧
    (∀ σ0 : State, ∃ σ,
        runSets (Reset σ0) [("x.y.z", .int 1), ("x.y", .str "scalar")] = some σ ∧
          getFromMap σ.configData "x.y" = some (.str "scalar") ∧
          getFromMap σ.configData "x.y.z" = none) := by
  refine ⟨?_, ?_, ?_⟩
  · intro σ p r x v h hx
    obtain ⟨t, env⟩ := σ
    cases t with
    | none => simp [(getFromMap_empty p).2] at h
    | some fs =>
      obtain ⟨t', hset, hget⟩ :=
        setLoop_prefix_nonmap (strings_Split p '.') (strings_Split_ne_nil p '.')
          (strings_Split r '.') (strings_Split_ne_nil r '.') v (some fs) x h hx
      have hs : setInMap (some fs) (p ++ "." ++ r) v = some t' := by
        rw [setInMap_of_some, strings_Split_append_sep]
        exact hset
      refine ⟨⟨t', env⟩, by simp [Set, hs], hget, ?_⟩
      exact getFromMap_setInMap _ _ _ _ hs
  · intro σ k m v h hv
    obtain ⟨t, env⟩ := σ
    cases t with
    | none => simp [(getFromMap_empty k).2] at h
    | some fs =>
      obtain ⟨t', hset⟩ :=
        setLoop_resolved (strings_Split k '.') (strings_Split_ne_nil k '.') v (some fs) _ h
      have hs : setInMap (some fs) k v = some t' := by
        rw [setInMap_of_some]
        exact hset
      have hk : getFromMap t' k = some v := getFromMap_setInMap _ _ _ _ hs
      refine ⟨⟨t', env⟩, by simp [Set, hs], hk, ?_⟩
      intro r
      show getFromMap t' (k ++ "." ++ r) = none
      unfold getFromMap at hk ⊢
      rw [strings_Split_append_sep, getLoop_append, hk]
      exact getLoop_nonmap v hv _ (strings_Split_ne_nil r '.')
  · intro σ0
    exact ⟨⟨some [("x", .map (some [("y", .str "scalar")]))], σ0.env⟩, rfl, rfl, rfl⟩

theorem Set_discards_conflicts_witness :
    getFromMap (some [("a", .int 1)]) "a" = some (.int 1) ∧
      (∃ σ', Set ⟨some [("a", .int 1)], []⟩ ("a" ++ "." ++ "b.c") (.str "v") = some σ' ∧
        getFromMap σ'.configData "a" =
          some (.map (some (chainFields (strings_Split "b.c" '.') (.str "v")))) ∧
        getFromMap σ'.configData ("a" ++ "." ++ "b.c") = some (.str "v")) ∧
      getFromMap (some [("a", .map (some [("b", .int 1)]))]) "a" =
        some (.map (some [("b", .int 1)])) ∧
      (∃ σ', Set ⟨some [("a", .map (some [("b", .int 1)]))], []⟩ "a" (.bool true) = some σ' ∧
        getFromMap σ'.configData "a" = some (.bool true) ∧
        ∀ r, getFromMap σ'.configData ("a" ++ "." ++ r) = none) :=
  ⟨rfl,
    Set_discards_conflicts.1 ⟨some [("a", .int 1)], []⟩ "a" "b.c" (.int 1) (.str "v") rfl
      (fun _ h => by cases h),
    rfl,
    Set_discards_conflicts.2.1 ⟨some [("a", .map (some [("b", .int 1)]))], []⟩ "a"
      (some [("b", .int 1)]) (.bool true) rfl (fun _ h => by cases h)⟩

/-! ## Lemmas on the walk of `applyEnvOverrides` -/

theorem lookup_applyFields (L : Lib) (env : Env) (pfx k : String) (fs : Fields) :
    (applyFields L env fs pfx).lookup k =
      (fs.lookup k).map fun v => applyValue L env v (childKey pfx k) := by
  induction fs with
  | nil => simp [applyFields]
  | cons e rest ih =>
    obtain ⟨k', v⟩ := e
    simp only [applyFields, List.lookup]
    by_cases hk : k = k'
    · subst hk
      simp [childKey]
    · have hb : (k == k') = false := by simpa using hk
      simp only [hb]
      exact ih

theorem keys_applyFields (L : Lib) (env : Env) (pfx : String) (fs : Fields) :
    (applyFields L env fs pfx).map Prod.fst = fs.map Prod.fst := by
  induction fs with
  | nil => simp [applyFields]
  | cons e rest ih =>
    obtain ⟨k', v⟩ := e
    simp [applyFields, ih]

theorem convertEnvToType_ne_map (L : Lib) (s : String) (v : Value) (m : GoMap) :
    convertEnvToType L s v ≠ .map m := by
  unfold convertEnvToType
  split <;> try simp
  split <;> try simp
  split <;> simp

theorem applyValue_leaf (L : Lib) (env : Env) (v : Value) (key : String)
    (hv : ∀ m, v ≠ .map m) : applyValue L env v key = overrideLeaf L env v key := by
  cases v with
  | map m => exact absurd rfl (hv m)
  | _ => simp [applyValue]

theorem overrideLeaf_ne_map (L : Lib) (env : Env) (v : Value) (key : String)
    (hv : ∀ m, v ≠ .map m) (m : GoMap) : overrideLeaf L env v key ≠ .map m := by
  unfold overrideLeaf
  split
  · exact convertEnvToType_ne_map L _ v m
  · exact hv m

theorem applyValue_map (L : Lib) (env : Env) (t : GoMap) (pfx : String) :
    applyValue L env (.map t) pfx = .map (applyEnvOverrides L env t pfx) := by
  cases t <;> simp [applyValue, applyEnvOverrides]

/-- The walk of `getFromMap` commutes with `applyEnvOverrides`: a path resolves
in the result exactly when it resolves in the tree, to the image of the value
under the key computed along the path. -/
theorem getLoop_applyValue (L : Lib) (env : Env) (path : List String) :
    ∀ (v : Value) (key : String),
      getLoop (applyValue L env v key) path =
        (getLoop v path).map fun x => applyValue L env x (walkKey key path) := by
  induction path with
  | nil => intro v key; simp [getLoop, walkKey]
  | cons s rest ih =>
    intro v key
    by_cases hv : ∀ m, v ≠ .map m
    · have h1 : getLoop v (s :: rest) = none := getLoop_nonmap v hv _ (by simp)
      have h2 : getLoop (applyValue L env v key) (s :: rest) = none := by
        rw [applyValue_leaf L env v key hv]
        exact getLoop_nonmap _ (overrideLeaf_ne_map L env v key hv) _ (by simp)
      rw [h1, h2]
      rfl
    · push_neg at hv
      obtain ⟨m, rfl⟩ := hv
      cases m with
      | none => simp [applyValue, getLoop, mapIndex]
      | some fs =>
        simp only [applyValue, getLoop, mapIndex, lookup_applyFields, walkKey]
        cases hl : fs.lookup s with
        | none => simp
        | some x =>
          simp only [Option.map_some']
          exact ih x (childKey key s)

theorem getLoop_applyEnvOverrides (L : Lib) (env : Env) (t : GoMap) (pfx : String)
    (path : List String) :
    getLoop (.map (applyEnvOverrides L env t pfx)) path =
      (getLoop (.map t) path).map fun x => applyValue L env x (walkKey pfx path) := by
  rw [← applyValue_map]
  exact getLoop_applyValue L env path _ _

mutual
theorem applyValue_eq_self (L : Lib) (env : Env) (v : Value) (key : String)
    (hn : v.noNilMap = true) (ho : v.noOverride L env key = true) :
    applyValue L env v key = v := by
  cases v with
  | map m =>
    cases m with
    | none => simp [Value.noNilMap] at hn
    | some fs =>
      simp only [Value.noNilMap] at hn
      simp only [Value.noOverride] at ho
      simp only [applyValue, applyFields_eq_self L env fs key hn ho]
  | _ =>
    simp only [Value.noOverride, Option.isNone_iff_eq_none] at ho
    simp [applyValue, overrideLeaf, ho]
theorem applyFields_eq_self (L : Lib) (env : Env) (fs : Fields) (pfx : String)
    (hn : fieldsNoNilMap fs = true) (ho : fieldsNoOverride L env fs pfx = true) :
    applyFields L env fs pfx = fs := by
  cases fs with
  | nil => simp [applyFields]
  | cons e rest =>
    obtain ⟨k, v⟩ := e
    simp only [fieldsNoNilMap, Bool.and_eq_true] at hn
    simp only [fieldsNoOverride, Bool.and_eq_true] at ho
    have h1 := applyValue_eq_self L env v (childKey pfx k) hn.1 ho.1
    simp only [childKey] at h1
    simp only [applyFields, h1, applyFields_eq_self L env rest pfx hn.2 ho.2]
end

/-! ## Claims on `AllSettings` -/

/-- C25 (the export mirrors the tree), the claim fails on its last part: with
an empty environment no variable matches any leaf, yet `AllSettings()` of the
nil tree is an allocated empty map, and the nil mapping stored at `a` comes
back as an allocated empty mapping; neither result is deep-equal to the stored
tree. -/
theorem AllSettings_allocates_nil_maps :
    AllSettings sampleLib ⟨none, []⟩ = some [] ∧
      AllSettings sampleLib ⟨none, []⟩ ≠ none ∧
      (Value.map (some [("a", .map none)])).noOverride sampleLib [] "" = true ∧
      AllSettings sampleLib ⟨some [("a", .map none)], []⟩ = some [("a", .map (some []))] ∧
      AllSettings sampleLib ⟨some [("a", .map none)], []⟩ ≠ some [("a", .map none)] := by
  refine ⟨rfl, ?_, rfl, rfl, ?_⟩
  · simp [AllSettings, applyEnvOverrides]
  · simp [AllSettings, applyEnvOverrides, applyFields, applyValue]

/-- C25 as amended: for every tree `t`, prefix and environment, (1) wherever a
path of map keys reaches an allocated mapping of `t`, the result has at that
path an allocated mapping with exactly the same keys; (2) wherever it reaches
a nil mapping, the result has an allocated empty mapping; (3) wherever it
reaches a value that is not a mapping, the result has the value itself when
the environment has no variable for the key computed along the path; (4) a
path that does not resolve in `t` does not resolve in the result; (5) when no
leaf has an override and `t` holds no nil mapping, the result, and so
`AllSettings()`, equals the stored tree. -/
theorem applyEnvOverrides_mirrors (L : Lib) (env : Env) (t : GoMap) (pfx : String) :
    (∀ path fs, getLoop (.map t) path = some (.map (some fs)) →
        ∃ fs', getLoop (.map (applyEnvOverrides L env t pfx)) path = some (.map (some fs')) ∧
          fs'.map Prod.fst = fs.map Prod.fst) ∧
      (∀ path, getLoop (.map t) path = some (.map none) →
        getLoop (.map (applyEnvOverrides L env t pfx)) path = some (.map (some []))) ∧
      (∀ path v, getLoop (.map t) path = some v → (∀ m, v ≠ .map m) →
        getEnvValue L env (walkKey pfx path) = none →
        getLoop (.map (applyEnvOverrides L env t pfx)) path = some v) ∧
      (∀ path, getLoop (.map t) path = none →
        getLoop (.map (applyEnvOverrides L env t pfx)) path = none) ∧
      ((Value.map t).noNilMap = true → (Value.map t).noOverride L env pfx = true →
        applyEnvOverrides L env t pfx = t) ∧
      ((Value.map t).noNilMap = true → (Value.map t).noOverride L env "" = true →
        AllSettings L ⟨t, env⟩ = t) := by
  have key : ∀ p, (Value.map t).noNilMap = true → (Value.map t).noOverride L env p = true →
      applyEnvOverrides L env t p = t := by
    intro p hn ho
    have h := applyValue_eq_self L env (.map t) p hn ho
    rw [applyValue_map] at h
    exact Value.map.inj h
  refine ⟨?_, ?_, ?_, ?_, key pfx, key ""⟩
  · intro path fs h
    refine ⟨applyFields L env fs (walkKey pfx path), ?_, keys_applyFields L env _ fs⟩
    rw [getLoop_applyEnvOverrides, h]
    simp [applyValue]
  · intro path h
    rw [getLoop_applyEnvOverrides, h]
    simp [applyValue]
  · intro path v h hv he
    rw [getLoop_applyEnvOverrides, h]
    simp [applyValue_leaf L env v _ hv, overrideLeaf, he]
  · intro path h
    rw [getLoop_applyEnvOverrides, h]
    rfl

theorem applyEnvOverrides_mirrors_witness :
    getLoop (.map (some [("db", .map (some [("host", .str "h"), ("port", .int 1)]))])) ["db"] =
        some (.map (some [("host", .str "h"), ("port", .int 1)])) ∧
      (∃ fs', getLoop (.map (applyEnvOverrides sampleLib [("DB_PORT", "2")]
          (some [("db", .map (some [("host", .str "h"), ("port", .int 1)]))]) "")) ["db"] =
            some (.map (some fs')) ∧
          fs'.map Prod.fst = [("host", Value.str "h"), ("port", .int 1)].map Prod.fst) ∧
      getEnvValue sampleLib [("DB_PORT", "2")] (walkKey "" ["db", "host"]) = none ∧
      getLoop (.map (applyEnvOverrides sampleLib [("DB_PORT", "2")]
          (some [("db", .map (some [("host", .str "h"), ("port", .int 1)]))]) "")) ["db", "host"] =
        some (.str "h") ∧
      (Value.map (some [("db", .map (some [("host", .str "h")]))])).noNilMap = true ∧
      (Value.map (some [("db", .map (some [("host", .str "h")]))])).noOverride sampleLib
          [("DB_PORT", "2")] "" = true ∧
      AllSettings sampleLib ⟨some [("db", .map (some [("host", .str "h")]))], [("DB_PORT", "2")]⟩ =
        some [("db", .map (some [("host", .str "h")]))] :=
  ⟨rfl,
    (applyEnvOverrides_mirrors sampleLib [("DB_PORT", "2")]
      (some [("db", .map (some [("host", .str "h"), ("port", .int 1)]))]) "").1 ["db"] _ rfl,
    by decide,
    (applyEnvOverrides_mirrors sampleLib [("DB_PORT", "2")]
      (some [("db", .map (some [("host", .str "h"), ("port", .int 1)]))]) "").2.2.1
        ["db", "host"] (.str "h") rfl (fun _ h => by cases h) (by decide),
    rfl, by decide,
    (applyEnvOverrides_mirrors sampleLib [("DB_PORT", "2")]
      (some [("db", .map (some [("host", .str "h")]))]) "").2.2.2.2.2 rfl (by decide)⟩

theorem childKey_of_ne (pfx k : String) (h : pfx ≠ "") : childKey pfx k = pfx ++ "." ++ k := by
  simp [childKey, h]

theorem joinWith_cons_cons (sep : Char) (a b : String) (rest : List String) :
    joinWith sep ((a ++ String.singleton sep ++ b) :: rest) = joinWith sep (a :: b :: rest) := by
  unfold joinWith
  congr 1
  cases rest with
  | nil => simp [List.intercalate, List.intersperse, String.data_append, String.singleton]
  | cons r rs => simp [List.intercalate, List.intersperse, String.data_append, String.singleton]

/-- Under a non-empty prefix the walk computes the dotted join of the prefix
and the map keys of the path. -/
theorem walkKey_of_ne (path : List String) :
    ∀ pfx : String, pfx ≠ "" → walkKey pfx path = joinWith '.' (pfx :: path) := by
  induction path with
  | nil =>
    intro pfx _
    simp [walkKey, joinWith, List.intercalate, List.intersperse]
  | cons s rest ih =>
    intro pfx h
    have hne : pfx ++ "." ++ s ≠ "" := by
      intro e
      have := congrArg String.data e
      simp [String.data_append] at this
    rw [walkKey, childKey_of_ne pfx s h, ih _ hne]
    exact joinWith_cons_cons '.' pfx s rest

/-- From the root the walk computes the dotted join of the map keys of the
path when the first of them is not empty. -/
theorem walkKey_root (s : String) (rest : List String) (h : s ≠ "") :
    walkKey "" (s :: rest) = joinWith '.' (s :: rest) := by
  have e : childKey "" s = s := by simp [childKey]
  rw [walkKey, e]
  exact walkKey_of_ne rest s h

/-- At a leaf reached through map keys whose first one is not empty,
`AllSettings` consults the variable of the dotted join of the keys. -/
theorem AllSettings_leaf (L : Lib) (t : GoMap) (env : Env) (s : String) (rest : List String)
    (v : Value) (hs : s ≠ "") (h : getLoop (.map t) (s :: rest) = some v)
    (hv : ∀ m, v ≠ .map m) :
    getLoop (.map (AllSettings L ⟨t, env⟩)) (s :: rest) =
      some (match os_LookupEnv env (overrideName L (joinWith '.' (s :: rest))) with
        | some envVal => convertEnvToType L envVal v
        | none => v) := by
  unfold AllSettings
  rw [getLoop_applyEnvOverrides, h]
  simp only [Option.map_some', applyValue_leaf L env v _ hv, overrideLeaf, getEnvValue,
    walkKey_root s rest hs, envKey_eq_overrideName]

theorem AllSettings_leaf_witness :
    getLoop (.map (AllSettings sampleLib ⟨some [("a", .map (some [("b", .int 1)]))],
        [("A_B", "5")]⟩)) ["a", "b"] = some (.int 5) :=
  AllSettings_leaf sampleLib (some [("a", .map (some [("b", .int 1)]))]) [("A_B", "5")]
    "a" ["b"] (.int 1) (by decide) rfl (fun _ h => by cases h)

/-- C28 (the key `AllSettings` consults), the claim fails at a leaf below an
empty map key.  `Set(".b", 1)` after `Reset()` stores the leaf under the map
keys `""` and `"b"`, where `getFromMap(".b")` finds it; the variable of the
dotted key `.b` is `_B`.  With `B=5` in the environment and no `_B`,
`AllSettings()` substitutes 5 at the leaf while `GetInt(".b")` is 1; with
`_B=5` and no `B`, `AllSettings()` leaves the leaf at 1 while `GetInt(".b")`
is 5. -/
theorem AllSettings_empty_segment_key (L : Lib) :
    Set (Reset ⟨none, [("B", "5")]⟩) ".b" (.int 1) =
        some ⟨some [("", .map (some [("b", .int 1)]))], [("B", "5")]⟩ ∧
      getFromMap (some [("", .map (some [("b", .int 1)]))]) ".b" = some (.int 1) ∧
      overrideName L ".b" = "_B" ∧
      os_LookupEnv [("B", "5")] (overrideName L ".b") = none ∧
      AllSettings L ⟨some [("", .map (some [("b", .int 1)]))], [("B", "5")]⟩ =
        some [("", .map (some [("b", .int 5)]))] ∧
      GetInt L ⟨some [("", .map (some [("b", .int 1)]))], [("B", "5")]⟩ ".b" = 1 ∧
      os_LookupEnv [("_B", "5")] (overrideName L ".b") = some "5" ∧
      AllSettings L ⟨some [("", .map (some [("b", .int 1)]))], [("_B", "5")]⟩ =
        some [("", .map (some [("b", .int 1)]))] ∧
      GetInt L ⟨some [("", .map (some [("b", .int 1)]))], [("_B", "5")]⟩ ".b" = 5 := by
  have hn : overrideName L ".b" = "_B" := by
    rw [← envKey_eq_overrideName, envKey_ascii L sampleLib _ (by decide)]
    decide
  have hb : envKey L "b" = "B" := by
    rw [envKey_ascii L sampleLib _ (by decide)]
    decide
  have hdb : envKey L ".b" = "_B" := by rw [envKey_eq_overrideName, hn]
  have h5 : (strconv_Atoi "5").1 = 5 := by decide
  have hg : getFromMap (some [("", .map (some [("b", .int 1)]))]) ".b" = some (.int 1) := rfl
  refine ⟨rfl, hg, hn, ?_, ?_, ?_, ?_, ?_, ?_⟩
  · rw [hn]
    rfl
  · simp only [AllSettings, applyEnvOverrides, applyFields, applyValue, overrideLeaf]
    simp [getEnvValue, hb, os_LookupEnv, List.lookup, convertEnvToType, toInt, h5]
  · simp [GetInt, getEnvValue, hdb, os_LookupEnv, List.lookup, hg, toInt]
  · rw [hn]
    rfl
  · simp only [AllSettings, applyEnvOverrides, applyFields, applyValue, overrideLeaf]
    simp [getEnvValue, hb, os_LookupEnv, List.lookup]
  · simp [GetInt, getEnvValue, hdb, os_LookupEnv, List.lookup, toInt, h5]

/-- C29 (the export is a deep copy), the claim fails for a sequence leaf.  The
stored tree is the map with the one entry `list`, a `[]any` holding 1.
`AllSettings()` returns a new map whose entry `list` is the stored slice
itself, with the same backing array; after `settings["list"].([]any)[0] = 2`
on the returned map the stored configuration holds 2 in the sequence, and
`GetIntSlice("list")`, `[1]` before, is `[2]`. -/
theorem AllSettings_shares_sequences (L : Lib) :
    storedState ⟨[.table [("list", .sliceAt 1)], .array [.direct (.int 1)]], .mapAt 0, []⟩ =
        ⟨some [("list", .anySlice (some [.int 1]))], []⟩ ∧
      AllSettingsRef L ⟨[.table [("list", .sliceAt 1)], .array [.direct (.int 1)]], .mapAt 0, []⟩ =
        ([.table [("list", .sliceAt 1)], .array [.direct (.int 1)],
          .table [("list", .sliceAt 1)]], .mapAt 2) ∧
      loadEntry [.table [("list", .sliceAt 1)], .array [.direct (.int 1)],
          .table [("list", .sliceAt 1)]] (.mapAt 2) "list" = some (.sliceAt 1) ∧
      storeElem [.table [("list", .sliceAt 1)], .array [.direct (.int 1)],
          .table [("list", .sliceAt 1)]] 1 0 (.direct (.int 2)) =
        [.table [("list", .sliceAt 1)], .array [.direct (.int 2)],
          .table [("list", .sliceAt 1)]] ∧
      storedState ⟨[.table [("list", .sliceAt 1)], .array [.direct (.int 2)],
          .table [("list", .sliceAt 1)]], .mapAt 0, []⟩ =
        ⟨some [("list", .anySlice (some [.int 2]))], []⟩ ∧
      GetIntSlice L ⟨some [("list", .anySlice (some [.int 1]))], []⟩ "list" = some [1] ∧
      GetIntSlice L ⟨some [("list", .anySlice (some [.int 2]))], []⟩ "list" = some [2] := by
  have hg : ∀ x : Value, getFromMap (some [("list", x)]) "list" = some x := fun _ => rfl
  refine ⟨rfl, ?_, rfl, rfl, rfl, ?_, ?_⟩
  · simp [AllSettingsRef, applyEnvOverridesRef, rangeEntries, getEnvValue, os_LookupEnv]
  · simp [GetIntSlice, getEnvValue, os_LookupEnv, hg, toIntSlice, toInt]
  · simp [GetIntSlice, getEnvValue, os_LookupEnv, hg, toIntSlice, toInt]

/-! ## Claims on the remaining getters and coercions -/

/-- C31 (the accessor rule and the mapping target), the claim fails: with the
variable `DB` set, an override exists for the key `db` and its coercion to a
mapping is the empty mapping, yet `GetStringMap("db")` returns the mapping
stored in the tree, while `GetString("db")` returns the override. -/
theorem GetStringMap_keeps_tree_value :
    getEnvValue sampleLib [("DB", "x")] "db" = some "x" ∧
      toStringMap (.str "x") = some [] ∧
      GetStringMap ⟨some [("db", .map (some [("host", .str "h")]))], [("DB", "x")]⟩ "db" =
        some [("host", .str "h")] ∧
      GetString sampleLib ⟨some [("db", .map (some [("host", .str "h")]))], [("DB", "x")]⟩ "db" =
        "x" := by
  refine ⟨by decide, rfl, rfl, by decide⟩

/-- C31 as amended: when an environment override exists for `k`,
`GetStringMap(k)` still returns what it returns with an empty environment: the
mapping the tree holds at `k`, and an allocated empty mapping when `k` does not
resolve to a mapping; the override is not read. -/
theorem GetStringMap_override_unused (L : Lib) (σ : State) (k s : String)
    (_h : getEnvValue L σ.env k = some s) :
    GetStringMap σ k = GetStringMap ⟨σ.configData, []⟩ k ∧
      (∀ m, getFromMap σ.configData k = some (.map m) → GetStringMap σ k = m) ∧
      ((∀ m, getFromMap σ.configData k ≠ some (.map m)) → GetStringMap σ k = some []) := by
  refine ⟨rfl, ?_, ?_⟩
  · intro m hm
    simp [GetStringMap, hm, toStringMap]
  · intro hm
    unfold GetStringMap
    cases hg : getFromMap σ.configData k with
    | none => rfl
    | some v =>
      cases v with
      | map m => exact absurd hg (hm m)
      | _ => rfl

theorem GetStringMap_override_unused_witness :
    GetStringMap ⟨some [("db", .map (some [("host", .str "h")]))], [("DB", "x")]⟩ "db" =
      some [("host", .str "h")] :=
  (GetStringMap_override_unused sampleLib
    ⟨some [("db", .map (some [("host", .str "h")]))], [("DB", "x")]⟩ "db" "x"
    (by decide)).2.1 _ rfl

/-- C32 (GetStringPtr): `GetStringPtr(k)` is nil exactly when `IsSet(k)` is
false, and otherwise points to a string equal to `GetString(k)`; for a key
holding the empty string the pointer is not nil and points to the empty
string. -/
theorem GetStringPtr_spec (L : Lib) (σ : State) (k : String) :
    (GetStringPtr L σ k = none ↔ IsSet L σ k = false) ∧
      (IsSet L σ k = true → GetStringPtr L σ k = some (GetString L σ k)) ∧
      GetStringPtr L ⟨some [("name", .str "")], []⟩ "name" = some "" ∧
      GetStringPtr L ⟨some [("name", .str "")], []⟩ "other" = none := by
  refine ⟨?_, ?_, rfl, rfl⟩
  · unfold GetStringPtr
    cases IsSet L σ k <;> simp
  · intro h
    simp [GetStringPtr, h]

theorem GetStringPtr_spec_witness :
    GetStringPtr sampleLib ⟨some [("a", .int 5)], []⟩ "a" = some "5" :=
  ((GetStringPtr_spec sampleLib ⟨some [("a", .int 5)], []⟩ "a").2.1 (by decide)).trans
    (by decide)

/-- C34 (narrowing of native integers): for every int or int64 `n`,
`toUint16`, `toUint32` and `toUint64` give `n` modulo `2^16`, `2^32` and
`2^64`, and `toInt32` gives the value of the signed 32-bit range congruent to
`n` modulo `2^32`; `toUint16(70000)` is 4464 and `toUint64(-1)` is
`2^64 - 1`. -/
theorem native_narrowing_wraps (L : Lib) (n : Int) :
    ((toUint16 L (.int n) : Int) = n % 2 ^ 16 ∧ (toUint16 L (.int64 n) : Int) = n % 2 ^ 16) ∧
      ((toUint32 L (.int n) : Int) = n % 2 ^ 32 ∧ (toUint32 L (.int64 n) : Int) = n % 2 ^ 32) ∧
      ((toUint64 L (.int n) : Int) = n % 2 ^ 64 ∧ (toUint64 L (.int64 n) : Int) = n % 2 ^ 64) ∧
      (toInt32 L (.int n) = toInt32 L (.int64 n) ∧ intRange 32 (toInt32 L (.int n)) ∧
        (toInt32 L (.int n) - n) % 2 ^ 32 = 0) ∧
      toUint16 L (.int 70000) = 4464 ∧ toUint64 L (.int (-1)) = 2 ^ 64 - 1 ∧
      toInt32 L (.int 2147483648) = -2147483648 := by
  have hU : ∀ w : Nat, ((wrapU w n : Nat) : Int) = n % 2 ^ w := by
    intro w
    unfold wrapU
    exact Int.toNat_of_nonneg (Int.emod_nonneg _ (by positivity))
  refine ⟨⟨hU 16, hU 16⟩, ⟨hU 32, hU 32⟩, ⟨hU 64, hU 64⟩, ⟨rfl, ?_, ?_⟩,
    (show wrapU 16 70000 = 4464 by decide), (show wrapU 64 (-1) = 2 ^ 64 - 1 by decide),
    (show wrapS 32 2147483648 = -2147483648 by decide)⟩
  · simp only [toInt32, intRange, wrapS]
    norm_num
    omega
  · simp only [toInt32, wrapS]
    norm_num
    omega

theorem parseInts_eq (xs : List String) : parseInts xs = xs.filterMap pieceInt := by
  unfold parseInts
  congr 1
  funext t
  rw [← pieceInt_eq_atoi]
  by_cases ht : t = ""
  · subst ht
    decide
  · rw [if_neg ht]

/-- C38 (the integer list parser refines the string list parser): for every
string `s`, `splitAndTrimIntSlice(s)` is the sequence of the integers obtained
from the elements of `splitAndTrimStringSlice(s)`, in order, by base-10 integer
parsing, keeping the elements that parse; it is never longer than
`splitAndTrimStringSlice(s)`. -/
theorem splitAndTrimIntSlice_refines (s : String) :
    ∃ xs, splitAndTrimStringSlice s = some xs ∧
      splitAndTrimIntSlice s = some (parseInts xs) ∧ (parseInts xs).length ≤ xs.length := by
  refine ⟨_, splitAndTrimStringSlice_eq s, ?_, ?_⟩
  · rw [splitAndTrimIntSlice_eq, parseInts_eq]
    congr 1
    induction (strings_Split s ',').map strings_TrimSpace with
    | nil => rfl
    | cons t ts ih =>
      by_cases ht : t = ""
      · subst ht
        have h0 : pieceInt "" = none := by decide
        simp [List.filterMap_cons, h0, ih]
      · simp only [List.filterMap_cons, List.filter_cons, bne_iff_ne, ne_eq, ht,
          not_false_eq_true, decide_True, ↓reduceIte, ih]
  · unfold parseInts
    exact List.length_filterMap_le _ _

/-- C39 (textual round trip of scalars): for every int `n`,
`toInt(toString(n)) = n` and `toInt64(toString(int64 n)) = n`, and for every
bool `b`, `toBool(toString(b)) = b`; so `GetInt` and `GetBool` read the same
value from a tree leaf and from an environment override holding the text of
that leaf. -/
theorem scalar_text_round_trip (L : Lib) :
    (∀ n, intRange 64 n → toInt L (.str (toString L (.int n))) = n) ∧
      (∀ n, intRange 64 n → toInt64 L (.str (toString L (.int64 n))) = n) ∧
      (∀ b, toBool (.str (toString L (.bool b))) = b) ∧
      (∀ (σ : State) (k : String) (n : Int), intRange 64 n →
        (getEnvValue L σ.env k = some (toString L (.int n)) → GetInt L σ k = n) ∧
        (getEnvValue L σ.env k = none → getFromMap σ.configData k = some (.int n) →
          GetInt L σ k = n)) ∧
      (∀ (σ : State) (k : String) (b : Bool),
        (getEnvValue L σ.env k = some (toString L (.bool b)) → GetBool L σ k = b) ∧
        (getEnvValue L σ.env k = none → getFromMap σ.configData k = some (.bool b) →
          GetBool L σ k = b)) := by
  have h1 : ∀ n, intRange 64 n → toInt L (.str (toString L (.int n))) = n := by
    intro n hn
    have h := (strconv_Atoi_ok_iff (strconv_FormatInt n) n).2 ⟨decimalValue_FormatInt n, hn⟩
    simp [toInt, toString, h]
  have h3 : ∀ b, toBool (.str (toString L (.bool b))) = b := by
    intro b
    cases b
    · exact (show toBool (.str "false") = false by decide)
    · exact (show toBool (.str "true") = true by decide)
  refine ⟨h1, ?_, h3, ?_, ?_⟩
  · intro n hn
    have h := (strconv_ParseInt_ok_iff (strconv_FormatInt n) 64 n (by decide) (by decide)).2
      ⟨decimalValue_FormatInt n, hn⟩
    simp [toInt64, toString, h]
  · intro σ k n hn
    refine ⟨fun he => ?_, fun he ht => ?_⟩
    · simp only [GetInt, he]
      exact h1 n hn
    · simp [GetInt, he, ht, toInt]
  · intro σ k b
    refine ⟨fun he => ?_, fun he ht => ?_⟩
    · simp only [GetBool, he]
      exact h3 b
    · simp [GetBool, he, ht, toBool]

theorem scalar_text_round_trip_witness :
    toInt sampleLib (.str (toString sampleLib (.int (-42)))) = -42 ∧
      GetInt sampleLib ⟨some [], [("PORT", "8080")]⟩ "port" = 8080 :=
  ⟨(scalar_text_round_trip sampleLib).1 (-42) (by decide),
    ((scalar_text_round_trip sampleLib).2.2.2.1 ⟨some [], [("PORT", "8080")]⟩ "port" 8080
      (by decide)).1 (by decide)⟩

/-- C40 (a present but empty override): when the environment holds the
variable of `k` with the empty string as value, `IsSet(k)` is true,
`GetStringOr(k, d)` is the empty string, `GetIntOr(k, d)` is 0 and
`GetBoolOr(k, d)` is false for every default `d` and every tree,
`GetStringPtr(k)` is not nil and points to the empty string, and
`GetStringSlice(k)` is the allocated empty sequence. -/
theorem empty_override_is_set (L : Lib) (σ : State) (k : String)
    (h : os_LookupEnv σ.env (overrideName L k) = some "") :
    IsSet L σ k = true ∧ (∀ d, GetStringOr L σ k d = "") ∧ (∀ d, GetIntOr L σ k d = 0) ∧
      (∀ d, GetBoolOr L σ k d = false) ∧ GetStringPtr L σ k = some "" ∧
      GetStringPtr L σ k ≠ none ∧ GetStringSlice L σ k = some [] := by
  have he : getEnvValue L σ.env k = some "" := by
    unfold getEnvValue
    rw [envKey_eq_overrideName]
    exact h
  have hset : IsSet L σ k = true := by simp [IsSet, he]
  have h0 : (strconv_Atoi "").1 = 0 := by decide
  have hb : (strconv_ParseBool "").1 = false := by decide
  have hs : splitAndTrimStringSlice "" = some [] := by decide
  refine ⟨hset, ?_, ?_, ?_, ?_, ?_, ?_⟩
  · intro d
    simp [GetStringOr, hset, GetString, he]
  · intro d
    simp [GetIntOr, hset, GetInt, he, toInt, h0]
  · intro d
    simp [GetBoolOr, hset, GetBool, he, toBool, hb]
  · simp [GetStringPtr, hset, GetString, he]
  · simp [GetStringPtr, hset]
  · simp [GetStringSlice, he, hs]

theorem empty_override_is_set_witness :
    IsSet sampleLib ⟨some [("db", .map (some [("port", .int 5432)]))], [("DB_PORT", "")]⟩
        "db.port" = true ∧
      GetIntOr sampleLib ⟨some [("db", .map (some [("port", .int 5432)]))], [("DB_PORT", "")]⟩
        "db.port" 7 = 0 :=
  ⟨(empty_override_is_set sampleLib
      ⟨some [("db", .map (some [("port", .int 5432)]))], [("DB_PORT", "")]⟩ "db.port"
      (by decide)).1,
    (empty_override_is_set sampleLib
      ⟨some [("db", .map (some [("port", .int 5432)]))], [("DB_PORT", "")]⟩ "db.port"
      (by decide)).2.2.1 7⟩

/-! ## Claims on the env file -/

theorem strings_Index_none (sep : Char) (cs : List Char) :
    strings_Index sep cs = none ↔ sep ∉ cs := by
  induction cs with
  | nil => simp [strings_Index]
  | cons c cs ih =>
    by_cases hc : c = sep
    · simp [strings_Index, hc]
    · have hc' : ¬ sep = c := fun e => hc e.symm
      simp [strings_Index, hc, hc', ih]

theorem strings_Index_some (sep : Char) (cs : List Char) :
    ∀ i, strings_Index sep cs = some i →
      cs.take i = cs.takeWhile (fun c => c != sep) ∧
        cs.drop (i + 1) = (cs.dropWhile fun c => c != sep).drop 1 := by
  induction cs with
  | nil => intro i h; simp [strings_Index] at h
  | cons c cs ih =>
    intro i h
    by_cases hc : c = sep
    · simp only [strings_Index, hc, ↓reduceIte, Option.some.injEq] at h
      subst h
      simp [hc]
    · simp only [strings_Index, hc, ↓reduceIte, Option.map_eq_some'] at h
      obtain ⟨j, hj, rfl⟩ := h
      obtain ⟨h1, h2⟩ := ih j hj
      simp [hc, h1, h2]

theorem lookup_envSet_self (env : Env) (k v : String) : (envSet env k v).lookup k = some v := by
  induction env with
  | nil => simp [envSet, List.lookup]
  | cons e rest ih =>
    obtain ⟨k', v'⟩ := e
    by_cases hk : k' = k
    · subst hk
      simp [envSet, List.lookup]
    · have hb : (k' == k) = false := by simpa using hk
      have hb' : (k == k') = false := by simpa using fun e => hk e.symm
      simp [envSet, hb, List.lookup, hb', ih]

theorem lookup_envSet_other (env : Env) (k n v : String) (h : n ≠ k) :
    (envSet env k v).lookup n = env.lookup n := by
  induction env with
  | nil =>
    have hb : (n == k) = false := by simpa using h
    simp [envSet, List.lookup, hb]
  | cons e rest ih =>
    obtain ⟨k', v'⟩ := e
    by_cases hk : k' = k
    · subst hk
      have hb : (n == k') = false := by simpa using h
      simp [envSet, List.lookup, hb]
    · have hb : (k' == k) = false := by simpa using hk
      simp only [envSet, hb, Bool.false_eq_true, ↓reduceIte, List.lookup]
      split
      · rfl
      · exact ih

theorem goLen_ge_two_iff (v : String) (q : Char) (hq : q.utf8Size = 1)
    (h : v.data.head? = some q) : goLen v ≥ 2 ↔ v.data.length ≥ 2 := by
  constructor
  · intro hg
    obtain ⟨l⟩ := v
    cases l with
    | nil => simp at h
    | cons c cs =>
      cases cs with
      | nil =>
        simp only [List.head?_cons, Option.some.injEq] at h
        subst h
        simp [goLen, String.utf8ByteSize, String.utf8ByteSize.go, hq] at hg
      | cons d ds => simp
  · intro hl
    exact le_trans hl (data_length_le_goLen v)

theorem unquote_eq (v : String) :
    (if goLen v ≥ 2 ∧
        ((v.data.head? = some dquote ∧ v.data.getLast? = some dquote) ∨
          (v.data.head? = some squote ∧ v.data.getLast? = some squote)) then
      String.mk (v.data.drop 1).dropLast
    else v) = unquote v := by
  unfold unquote
  by_cases hd : v.data.head? = some dquote
  · have e := goLen_ge_two_iff v dquote (by decide) hd
    simp only [e]
  · by_cases hs : v.data.head? = some squote
    · have e := goLen_ge_two_iff v squote (by decide) hs
      simp only [e]
    · simp [hd, hs]

/-- The body of the loop of `loadDotenv` in the claim's words. -/
theorem loadDotenvLine_eq (env : Env) (text : String) :
    loadDotenvLine env text =
      if lineSkipped text then env
      else match os_Setenv env (lineName text) (lineValue text) with
        | some env' => env'
        | none => env := by
  unfold loadDotenvLine lineSkipped
  simp only
  by_cases h1 : strings_TrimSpace text = "" ∨ (strings_TrimSpace text).data.head? = some '#'
  · rw [if_pos h1, if_pos]
    rcases h1 with h | h
    · exact Or.inl h
    · exact Or.inr (Or.inl h)
  · rw [if_neg h1]
    cases hidx : strings_Index '=' (strings_TrimSpace text).data with
    | none =>
      have := (strings_Index_none _ _).1 hidx
      rw [if_pos (Or.inr (Or.inr this))]
    | some idx =>
      have hmem : ¬ '=' ∉ (strings_TrimSpace text).data := by
        intro hn
        rw [(strings_Index_none _ _).2 hn] at hidx
        cases hidx
      have hns : ¬ (strings_TrimSpace text = "" ∨
          (strings_TrimSpace text).data.head? = some '#' ∨
            '=' ∉ (strings_TrimSpace text).data) := by
        rintro (h | h | h)
        · exact h1 (Or.inl h)
        · exact h1 (Or.inr h)
        · exact hmem h
      rw [if_neg hns]
      obtain ⟨ht, hd⟩ := strings_Index_some _ _ idx hidx
      simp only [ht, hd, unquote_eq]
      rfl

theorem lineName_no_eq (text : String) : '=' ∉ (lineName text).data := by
  intro h
  have h1 := trimSpace_subset _ _ h
  simp only [textBefore] at h1
  have := List.mem_takeWhile_imp h1
  simp at this

/-- C35 (env-file line parsing), the claim fails: the line `=x` is not empty,
does not start with `#` and holds `=`, and the line `= "a b"` likewise, yet
nothing is set for them, the name before the `=` being empty. -/
theorem loadDotenvLine_empty_name :
    ¬ lineSkipped "=x" ∧ lineName "=x" = "" ∧ lineValue "=x" = "x" ∧
      loadDotenvLine [] "=x" = [] ∧
      loadDotenv [("A", "1")] ["=x", " = y"] = [("A", "1")] := by
  refine ⟨by decide, by decide, by decide, by decide, by decide⟩

/-- C35 as amended: for every line the scanner yields, nothing is set when the
trimmed line is empty, starts with `#` or holds no `=`, and also when the name
is empty or the name or the value holds a NUL byte; otherwise exactly one
variable is set, whose name is the trimmed text before the first `=` and whose
value is the trimmed text after the first `=` with one layer of surrounding
quotes removed when the value has at least two characters and begins and ends
with the same quote character; the lines are processed in order. -/
theorem loadDotenvLine_spec (env : Env) (text : String) :
    (lineSkipped text → loadDotenvLine env text = env) ∧
      (¬ lineSkipped text →
        (lineName text = "" ∨ nul ∈ (lineName text).data ∨ nul ∈ (lineValue text).data) →
        loadDotenvLine env text = env) ∧
      (¬ lineSkipped text → lineName text ≠ "" → nul ∉ (lineName text).data →
        nul ∉ (lineValue text).data →
        os_LookupEnv (loadDotenvLine env text) (lineName text) = some (lineValue text) ∧
          ∀ n, n ≠ lineName text →
            os_LookupEnv (loadDotenvLine env text) n = os_LookupEnv env n) ∧
      (∀ rest, loadDotenv env (text :: rest) = loadDotenv (loadDotenvLine env text) rest) := by
  refine ⟨?_, ?_, ?_, fun _ => rfl⟩
  · intro h
    rw [loadDotenvLine_eq, if_pos h]
  · intro h hbad
    rw [loadDotenvLine_eq, if_neg h]
    have : os_Setenv env (lineName text) (lineValue text) = none := by
      unfold os_Setenv
      rw [if_pos]
      rcases hbad with hb | hb | hb
      · exact Or.inl hb
      · exact Or.inr (Or.inr (Or.inl hb))
      · exact Or.inr (Or.inr (Or.inr hb))
    rw [this]
  · intro h hne hn1 hn2
    rw [loadDotenvLine_eq, if_neg h]
    have : os_Setenv env (lineName text) (lineValue text) =
        some (envSet env (lineName text) (lineValue text)) := by
      unfold os_Setenv
      rw [if_neg]
      rintro (hb | hb | hb | hb)
      · exact hne hb
      · exact lineName_no_eq text hb
      · exact hn1 hb
      · exact hn2 hb
    rw [this]
    exact ⟨lookup_envSet_self _ _ _, fun n hn => lookup_envSet_other _ _ _ _ hn⟩

theorem loadDotenvLine_spec_witness :
    loadDotenvLine [] "# a comment" = [] ∧
      os_LookupEnv (loadDotenvLine [] "  KEY = a=b  ") "KEY" = some "a=b" ∧
      lineName "  KEY = a=b  " = "KEY" ∧ lineValue "  KEY = a=b  " = "a=b" ∧
      lineValue "K='single quoted'" = "single quoted" ∧
      lineValue ("K=" ++ String.mk [dquote, 'a', squote]) = String.mk [dquote, 'a', squote] ∧
      lineValue ("K=" ++ String.mk [dquote]) = String.mk [dquote] :=
  ⟨(loadDotenvLine_spec [] "# a comment").1 (by decide),
    ((loadDotenvLine_spec [] "  KEY = a=b  ").2.2.1 (by decide) (by decide) (by decide)
      (by decide)).1.trans (by decide),
    by decide, by decide, by decide, by decide, by decide⟩

/-! ## Claims on the lock -/

/-- The two goroutines hold the lock compatibly: a writer inside is alone. -/
theorem acquire_compatible (mine other : Held) (s : Step) (mine' : Held)
    (hc : (mine = .writing → other = .nothing) ∧ (other = .writing → mine = .nothing))
    (h : acquire mine other s = some mine') :
    (mine' = .writing → other = .nothing) ∧ (other = .writing → mine' = .nothing) := by
  cases s <;> cases mine <;> cases other <;> simp [acquire] at h <;> subst h <;> simp at hc ⊢

theorem disciplined_step (held held' other : Held) (s : Step) (rest : List Step)
    (hd : disciplined held (s :: rest) = true) (h : acquire held other s = some held') :
    disciplined held' rest = true ∧ (s = .readTree → held ≠ .nothing) := by
  cases s <;> cases held <;> cases other <;>
    simp [disciplined, acquire] at hd h ⊢ <;> (subst h; exact hd)

/-- A call that keeps the lock discipline never reads the tree while a writing
call is inside the write lock, whatever the writing call and the
interleaving. -/
theorem disciplined_no_overlap (turns : List Bool) :
    ∀ (hR hW : Held) (reader writer : List Step),
      ((hR = .writing → hW = .nothing) ∧ (hW = .writing → hR = .nothing)) →
      disciplined hR reader = true → overlaps hR hW reader writer turns ≠ some true := by
  induction turns with
  | nil => intro hR hW reader writer _ _; simp [overlaps]
  | cons t turns ih =>
    intro hR hW reader writer hc hd
    cases t with
    | true =>
      cases reader with
      | nil => simp [overlaps]
      | cons s reader' =>
        simp only [overlaps]
        cases ha : acquire hR hW s with
        | none => simp
        | some hR' =>
          obtain ⟨hd', hread⟩ := disciplined_step hR hR' hW s reader' hd ha
          have hc' := acquire_compatible hR hW s hR' hc ha
          simp only
          split
          · rename_i hrace
            exact absurd (hc.2 hrace.2) (hread hrace.1)
          · exact ih hR' hW reader' writer hc' hd'
    | false =>
      cases writer with
      | nil => cases reader <;> simp [overlaps]
      | cons s writer' =>
        have e : overlaps hR hW reader (s :: writer') (false :: turns) =
            match acquire hW hR s with
            | none => none
            | some hW' => overlaps hR hW' reader writer' turns := by
          cases reader <;> simp [overlaps]
        rw [e]
        cases ha : acquire hW hR s with
        | none => simp
        | some hW' =>
          have hc' := acquire_compatible hW hR s hW' ⟨hc.2, hc.1⟩ ha
          exact ih hR hW' reader writer' ⟨hc'.2, hc'.1⟩ hd

/-- C33 (store access is serialized by one lock), the claim fails for
`UnmarshalKey`.  `getFromMap`, `IsSet`, `AllSettings` and `Unmarshal` read the
tree under the read lock, `Set`, `Reset` and `Init` assign it under the write
lock, and no interleaving lets one of these readers read the tree while a
writer is inside the write lock.  `UnmarshalKey` walks the mapping it found
after `getFromMap` has released the lock: its statements do not keep the
discipline, and in the interleaving given its walk runs between the two
assignments of `Set("db.a.b", 1)`.  On the tree holding `host` under `db`, that
walk exports `host` and an empty mapping `a`: neither the mapping before the
write nor the mapping after it. -/
theorem UnmarshalKey_walks_unlocked (L : Lib) :
    (disciplined .nothing getFromMap_steps = true ∧
        (∀ b, disciplined .nothing (IsSet_steps b) = true) ∧
        disciplined .nothing AllSettings_steps = true ∧
        disciplined .nothing Unmarshal_steps = true ∧
        (∀ n, disciplined .nothing (Set_steps n) = true) ∧
        disciplined .nothing Reset_steps = true ∧
        disciplined .nothing Init_steps = true) ∧
      (∀ writer turns,
        overlaps .nothing .nothing getFromMap_steps writer turns ≠ some true ∧
        (∀ b, overlaps .nothing .nothing (IsSet_steps b) writer turns ≠ some true) ∧
        overlaps .nothing .nothing AllSettings_steps writer turns ≠ some true ∧
        overlaps .nothing .nothing Unmarshal_steps writer turns ≠ some true) ∧
      disciplined .nothing (UnmarshalKey_steps true true) = false ∧
      overlaps .nothing .nothing (UnmarshalKey_steps true true) (Set_steps 2)
        [true, true, true, true, false, false, false, true] = some true ∧
      loadEntry [.table [("db", .mapAt 1)], .table [("host", .direct (.str "h"))]]
        (.mapAt 0) "db" = some (.mapAt 1) ∧
      storeEntry ([.table [("db", .mapAt 1)], .table [("host", .direct (.str "h"))]] ++
          [.table []]) 1 "a" (.mapAt 2) =
        [.table [("db", .mapAt 1)], .table [("host", .direct (.str "h")), ("a", .mapAt 2)],
          .table []] ∧
      walkExport L []
          [.table [("db", .mapAt 1)], .table [("host", .direct (.str "h")), ("a", .mapAt 2)],
            .table []] (.mapAt 1) "db" = .map (some [("host", .str "h"), ("a", .map (some []))]) ∧
      walkExport L []
          [.table [("db", .mapAt 1)], .table [("host", .direct (.str "h"))]] (.mapAt 1) "db" = .map (some [("host", .str "h")]) ∧
      walkExport L []
          (storeEntry [.table [("db", .mapAt 1)],
            .table [("host", .direct (.str "h")), ("a", .mapAt 2)], .table []]
            2 "b" (.direct (.int 1))) (.mapAt 1) "db" =
        .map (some [("host", .str "h"), ("a", .map (some [("b", .int 1)]))]) := by
  have hset : ∀ n h, h = Held.writing →
      disciplined h (List.replicate n Step.writeTree ++ [Step.wUnlock]) = true := by
    intro n h hh
    subst hh
    induction n with
    | zero => rfl
    | succ n ih => simpa [List.replicate_succ, disciplined] using ih
  have hSet : ∀ n, disciplined .nothing (Set_steps n) = true := by
    intro n
    have := hset n .writing rfl
    simpa [Set_steps, setInMap_steps, disciplined] using this
  have hIs : ∀ b, disciplined .nothing (IsSet_steps b) = true := by
    intro b
    cases b <;> rfl
  have compat : (Held.nothing = Held.writing → Held.nothing = Held.nothing) ∧
      (Held.nothing = Held.writing → Held.nothing = Held.nothing) := ⟨fun _ => rfl, fun _ => rfl⟩
  refine ⟨⟨rfl, hIs, rfl, rfl, hSet, rfl, rfl⟩, ?_, rfl, rfl, rfl, rfl, ?_, ?_, ?_⟩
  · intro writer turns
    exact ⟨disciplined_no_overlap turns _ _ _ writer compat rfl,
      fun b => disciplined_no_overlap turns _ _ _ writer compat (hIs b),
      disciplined_no_overlap turns _ _ _ writer compat rfl,
      disciplined_no_overlap turns _ _ _ writer compat rfl⟩
  · simp [walkExport, applyEnvOverridesRef, rangeEntries, getEnvValue, os_LookupEnv, reify]
  · simp [walkExport, applyEnvOverridesRef, rangeEntries, getEnvValue, os_LookupEnv, reify]
  · simp [walkExport, applyEnvOverridesRef, rangeEntries, getEnvValue, os_LookupEnv, reify,
      storeEntry, entrySet]

/-! ## Lemmas on the heap -/

theorem lookup_entrySet_self (es : List (String × RVal)) (k : String) (x : RVal) :
    (entrySet es k x).lookup k = some x := by
  induction es with
  | nil => simp [entrySet, List.lookup]
  | cons e rest ih =>
    obtain ⟨k', x'⟩ := e
    by_cases hk : k' = k
    · subst hk
      simp [entrySet, List.lookup]
    · have hb : (k' == k) = false := by simpa using hk
      have hb' : (k == k') = false := by simpa using fun e => hk e.symm
      simp [entrySet, hb, List.lookup, hb', ih]

theorem lookup_entrySet_other (es : List (String × RVal)) (k n : String) (x : RVal)
    (h : n ≠ k) : (entrySet es k x).lookup n = es.lookup n := by
  induction es with
  | nil =>
    have hb : (n == k) = false := by simpa using h
    simp [entrySet, List.lookup, hb]
  | cons e rest ih =>
    obtain ⟨k', x'⟩ := e
    by_cases hk : k' = k
    · subst hk
      have hb : (n == k') = false := by simpa using h
      simp [entrySet, List.lookup, hb]
    · have hb : (k' == k) = false := by simpa using hk
      simp only [entrySet, hb, Bool.false_eq_true, ↓reduceIte, List.lookup]
      split
      · rfl
      · exact ih

theorem loadEntry_eq (h : Heap) (b : Nat) (k : String) :
    loadEntry h (.mapAt b) k =
      match h.get? b with
      | some (.table es) => es.lookup k
      | _ => none := by
  simp only [loadEntry, rangeEntries]
  cases hg : h.get? b with
  | none => simp
  | some o => cases o <;> simp

theorem isTable_lt (h : Heap) (b : Nat) (hb : isTable h b) : b < h.length := by
  obtain ⟨es, he⟩ := hb
  by_contra hlt
  rw [List.get?_eq_none.2 (by omega)] at he
  cases he

theorem isTable_of_loadEntry (h : Heap) (b : Nat) (k : String) (x : RVal)
    (hx : loadEntry h (.mapAt b) k = some x) : isTable h b := by
  rw [loadEntry_eq] at hx
  cases hg : h.get? b with
  | none => rw [hg] at hx; cases hx
  | some o =>
    cases o with
    | array es => rw [hg] at hx; cases hx
    | table es => exact ⟨es, hg⟩

theorem get?_append_one (h : Heap) (o : Obj) (b : Nat) (hb : b < h.length) :
    (h ++ [o]).get? b = h.get? b := by
  simp only [List.get?_eq_getElem?]
  exact List.getElem?_append_left hb

theorem get?_append_new (h : Heap) (o : Obj) : (h ++ [o]).get? h.length = some o := by
  simp only [List.get?_eq_getElem?]
  simp

theorem loadEntry_append (h : Heap) (o : Obj) (b : Nat) (k : String) (hb : b < h.length) :
    loadEntry (h ++ [o]) (.mapAt b) k = loadEntry h (.mapAt b) k := by
  rw [loadEntry_eq, loadEntry_eq, get?_append_one h o b hb]

theorem loadEntry_append_new (h : Heap) (k : String) :
    loadEntry (h ++ [.table []]) (.mapAt h.length) k = none := by
  rw [loadEntry_eq, get?_append_new]
  rfl

theorem storeEntry_length (h : Heap) (a : Nat) (k : String) (x : RVal) :
    (storeEntry h a k x).length = h.length := by
  unfold storeEntry
  split <;> simp

theorem storeEntry_get?_other (h : Heap) (a b : Nat) (k : String) (x : RVal) (hab : b ≠ a) :
    (storeEntry h a k x).get? b = h.get? b := by
  unfold storeEntry
  split
  · simp only [List.get?_eq_getElem?]
    exact List.getElem?_set_ne (Ne.symm hab)
  · rfl

theorem storeEntry_get?_self (h : Heap) (a : Nat) (k : String) (x : RVal)
    (es : List (String × RVal)) (he : h.get? a = some (.table es)) :
    (storeEntry h a k x).get? a = some (.table (entrySet es k x)) := by
  have hlt : a < h.length := isTable_lt h a ⟨es, he⟩
  unfold storeEntry
  rw [he]
  simp only [List.get?_eq_getElem?]
  rw [List.getElem?_set_self hlt]

theorem storeEntry_isTable (h : Heap) (a b : Nat) (k : String) (x : RVal) (hb : isTable h b) :
    isTable (storeEntry h a k x) b := by
  by_cases hab : b = a
  · subst hab
    obtain ⟨es, he⟩ := hb
    exact ⟨entrySet es k x, storeEntry_get?_self h b k x es he⟩
  · rw [isTable, storeEntry_get?_other h a b k x hab]
    exact hb

theorem loadEntry_storeEntry (h : Heap) (a b : Nat) (k k' : String) (x : RVal)
    (ha : isTable h a) :
    loadEntry (storeEntry h a k x) (.mapAt b) k' =
      if b = a ∧ k' = k then some x else loadEntry h (.mapAt b) k' := by
  by_cases hab : b = a
  · subst hab
    obtain ⟨es, he⟩ := ha
    rw [loadEntry_eq, loadEntry_eq, storeEntry_get?_self h b k x es he, he]
    by_cases hk : k' = k
    · subst hk
      simp [lookup_entrySet_self]
    · simp [hk, lookup_entrySet_other es k k' x hk]
  · rw [loadEntry_eq, loadEntry_eq, storeEntry_get?_other h a b k x hab]
    simp [hab]

theorem getLoopRef_cons (h : Heap) (a : Nat) (k : String) (rest : List String) :
    getLoopRef h (.mapAt a) (k :: rest) =
      (loadEntry h (.mapAt a) k).bind fun x => getLoopRef h x rest := by
  rw [getLoopRef]
  cases loadEntry h (.mapAt a) k <;> rfl

theorem getLoopRef_leaf (h : Heap) (r : RVal) (hr : ∀ b, r ≠ .mapAt b) (k : String)
    (rest : List String) : getLoopRef h r (k :: rest) = none := by
  cases r with
  | mapAt b => exact absurd rfl (hr b)
  | _ => rfl

theorem getLoopRef_append (h : Heap) (pre rest : List String) :
    ∀ r : RVal,
      getLoopRef h r (pre ++ rest) = (getLoopRef h r pre).bind fun x => getLoopRef h x rest := by
  induction pre with
  | nil => intro r; simp [getLoopRef]
  | cons k pre ih =>
    intro r
    cases r with
    | mapAt a =>
      simp only [List.cons_append, getLoopRef_cons]
      cases loadEntry h (.mapAt a) k with
      | none => rfl
      | some x => simp [ih]
    | _ => simp [getLoopRef]

/-- A walk reads the same in two heaps that agree on the entries it reads. -/
theorem getLoopRef_congr (h h' : Heap) (q : List String) :
    ∀ r : RVal,
      (∀ pre k b, (pre ++ [k]) <+: q → getLoopRef h r pre = some (.mapAt b) →
        loadEntry h' (.mapAt b) k = loadEntry h (.mapAt b) k) →
      getLoopRef h' r q = getLoopRef h r q := by
  induction q with
  | nil => intro r _; rfl
  | cons k q ih =>
    intro r hcells
    cases r with
    | mapAt a =>
      rw [getLoopRef_cons, getLoopRef_cons, hcells [] k a (by simp) rfl]
      cases hx : loadEntry h (.mapAt a) k with
      | none => rfl
      | some x =>
        simp only [Option.some_bind]
        apply ih
        intro pre k' b hpre hw
        apply hcells (k :: pre) k' b
        · simpa using hpre
        · rw [getLoopRef_cons, hx]
          exact hw
    | _ => rfl

/-! ## The loop of the setter on the heap -/

theorem setLoopRef_leaf (h : Heap) (r : RVal) (hr : ∀ b, r ≠ .mapAt b) (k : String)
    (rest : List String) (v : RVal) : setLoopRef h r (k :: rest) v = none := by
  cases rest with
  | nil =>
    cases r with
    | mapAt b => exact absurd rfl (hr b)
    | _ => rfl
  | cons p2 rest =>
    cases r with
    | mapAt b => exact absurd rfl (hr b)
    | _ => rfl

/-- One turn of the loop of `setInMap` on a path of at least two segments: it
goes on in the map held under the first segment, panics later on a nil map
held there, or goes on in a new empty map put there. -/
theorem setLoopRef_step (h : Heap) (a : Nat) (part p2 : String) (rest : List String)
    (ha : isTable h a) :
    (∃ b, loadEntry h (.mapAt a) part = some (.mapAt b) ∧
        ∀ v, setLoopRef h (.mapAt a) (part :: p2 :: rest) v =
          setLoopRef h (.mapAt b) (p2 :: rest) v) ∨
      (loadEntry h (.mapAt a) part = some .nilMap ∧
        ∀ v, setLoopRef h (.mapAt a) (part :: p2 :: rest) v = none) ∨
      ((∀ x, loadEntry h (.mapAt a) part = some x → (∀ b, x ≠ .mapAt b) ∧ x ≠ .nilMap) ∧
        ∀ v, setLoopRef h (.mapAt a) (part :: p2 :: rest) v =
          setLoopRef (storeEntry (h ++ [.table []]) a part (.mapAt h.length))
            (.mapAt h.length) (p2 :: rest) v) := by
  have halt : a < h.length := isTable_lt h a ha
  have ha' : isTable (h ++ [.table []]) a := by
    obtain ⟨es, he⟩ := ha
    exact ⟨es, by rw [get?_append_one h _ a halt]; exact he⟩
  cases hl : loadEntry h (.mapAt a) part with
  | none =>
    refine Or.inr (Or.inr ⟨fun x hx => (by cases hx), fun v => ?_⟩)
    simp only [setLoopRef, hl, Option.isNone_none, ↓reduceIte]
    rw [loadEntry_storeEntry _ _ _ _ _ _ ha']
    simp
  | some x =>
    cases x with
    | mapAt b =>
      refine Or.inl ⟨b, rfl, fun v => ?_⟩
      simp [setLoopRef, hl]
    | nilMap =>
      refine Or.inr (Or.inl ⟨rfl, fun v => ?_⟩)
      simp only [setLoopRef, hl, Option.isNone_some, Bool.false_eq_true, ↓reduceIte]
      exact setLoopRef_leaf h .nilMap (fun b e => by cases e) p2 rest v
    | direct d =>
      refine Or.inr (Or.inr ⟨fun x hx => ?_, fun v => ?_⟩)
      · cases hx
        exact ⟨fun b e => (by cases e), fun e => (by cases e)⟩
      · simp [setLoopRef, hl]
    | sliceAt s =>
      refine Or.inr (Or.inr ⟨fun x hx => ?_, fun v => ?_⟩)
      · cases hx
        exact ⟨fun b e => (by cases e), fun e => (by cases e)⟩
      · simp [setLoopRef, hl]

/-- The heap after a new empty map has been put under `part` in the table at
`a`: its tables and its entries. -/
theorem fresh_facts (h : Heap) (a : Nat) (part : String) (ha : isTable h a) :
    (storeEntry (h ++ [.table []]) a part (.mapAt h.length)).length = h.length + 1 ∧
      (∀ b, isTable h b → isTable (storeEntry (h ++ [.table []]) a part (.mapAt h.length)) b) ∧
      isTable (storeEntry (h ++ [.table []]) a part (.mapAt h.length)) h.length ∧
      (∀ k, loadEntry (storeEntry (h ++ [.table []]) a part (.mapAt h.length))
        (.mapAt h.length) k = none) ∧
      (∀ b k, b < h.length →
        loadEntry (storeEntry (h ++ [.table []]) a part (.mapAt h.length)) (.mapAt b) k =
          if b = a ∧ k = part then some (.mapAt h.length) else loadEntry h (.mapAt b) k) := by
  have halt : a < h.length := isTable_lt h a ha
  have app : ∀ b, isTable h b → isTable (h ++ [.table []]) b := by
    intro b hb
    obtain ⟨es, he⟩ := hb
    exact ⟨es, by rw [get?_append_one h _ b (isTable_lt h b ⟨es, he⟩)]; exact he⟩
  refine ⟨by simp [storeEntry_length], fun b hb => storeEntry_isTable _ _ _ _ _ (app b hb),
    storeEntry_isTable _ _ _ _ _ ⟨[], get?_append_new h _⟩, ?_, ?_⟩
  · intro k
    rw [loadEntry_storeEntry _ _ _ _ _ _ (app a ha)]
    have : ¬ (h.length = a ∧ k = part) := fun e => by omega
    rw [if_neg this]
    exact loadEntry_append_new h k
  · intro b k hb
    rw [loadEntry_storeEntry _ _ _ _ _ _ (app a ha), loadEntry_append h _ b k hb]

theorem getLoopRef_of_empty (h : Heap) (f : Nat) (hf : ∀ k, loadEntry h (.mapAt f) k = none)
    (k : String) (q : List String) : getLoopRef h (.mapAt f) (k :: q) = none := by
  rw [getLoopRef_cons, hf k]
  rfl

theorem getLoopRef_child (h : Heap) (a : Nat) (k : String) (x : RVal)
    (hx : loadEntry h (.mapAt a) k = some x) (q : List String) :
    getLoopRef h (.mapAt a) (k :: q) = getLoopRef h x q := by
  rw [getLoopRef_cons, hx]
  rfl

theorem wellFormedFrom_child (h : Heap) (a b : Nat) (k : String)
    (hw : wellFormedFrom h (.mapAt a)) (hx : loadEntry h (.mapAt a) k = some (.mapAt b)) :
    isTable h b ∧ wellFormedFrom h (.mapAt b) := by
  refine ⟨hw [k] b (by rw [getLoopRef_child h a k _ hx]; rfl), ?_⟩
  intro q c hq
  exact hw (k :: q) c (by rw [getLoopRef_child h a k _ hx]; exact hq)

theorem unsharedFrom_child (h : Heap) (a b : Nat) (k : String)
    (hu : unsharedFrom h (.mapAt a)) (hx : loadEntry h (.mapAt a) k = some (.mapAt b)) :
    unsharedFrom h (.mapAt b) := by
  intro q1 q2 c h1 h2
  have := hu (k :: q1) (k :: q2) c (by rw [getLoopRef_child h a k _ hx]; exact h1)
    (by rw [getLoopRef_child h a k _ hx]; exact h2)
  simpa using this

theorem fresh_store (h : Heap) (f : Nat) (hf : isTable h f)
    (he : ∀ k, loadEntry h (.mapAt f) k = none) :
    wellFormedFrom h (.mapAt f) ∧ unsharedFrom h (.mapAt f) ∧
      ∀ q b, getLoopRef h (.mapAt f) q = some (.mapAt b) → q = [] ∧ b = f := by
  have key : ∀ q b, getLoopRef h (.mapAt f) q = some (.mapAt b) → q = [] ∧ b = f := by
    intro q b hq
    cases q with
    | nil =>
      simp only [getLoopRef, Option.some.injEq, RVal.mapAt.injEq] at hq
      exact ⟨rfl, hq.symm⟩
    | cons k q =>
      rw [getLoopRef_of_empty h f he] at hq
      cases hq
  refine ⟨?_, ?_, key⟩
  · intro q b hq
    rw [(key q b hq).2]
    exact hf
  · intro q1 q2 b h1 h2
    rw [(key q1 b h1).1, (key q2 b h2).1]

/-- The loop of `setInMap` keeps the tables of the heap and changes only
entries of the tables it passes through, under the segment it takes there. -/
theorem setLoopRef_writes (p : List String) :
    ∀ (h h' : Heap) (a : Nat) (value : RVal), isTable h a → wellFormedFrom h (.mapAt a) →
      setLoopRef h (.mapAt a) p value = some h' →
      h.length ≤ h'.length ∧ (∀ b, isTable h b → isTable h' b) ∧
        ∀ b k, b < h.length → loadEntry h' (.mapAt b) k ≠ loadEntry h (.mapAt b) k →
          ∃ pre, (pre ++ [k]) <+: p ∧ getLoopRef h (.mapAt a) pre = some (.mapAt b) := by
  induction p with
  | nil =>
    intro h h' a value _ _ hs
    simp only [setLoopRef, Option.some.injEq] at hs
    subst hs
    exact ⟨le_refl _, fun b hb => hb, fun b k _ hne => absurd rfl hne⟩
  | cons part rest ih =>
    intro h h' a value ha hw hs
    cases rest with
    | nil =>
      simp only [setLoopRef, Option.some.injEq] at hs
      subst hs
      refine ⟨by rw [storeEntry_length], fun b hb => storeEntry_isTable _ _ _ _ _ hb, ?_⟩
      intro b k _ hne
      rw [loadEntry_storeEntry _ _ _ _ _ _ ha] at hne
      by_cases hc : b = a ∧ k = part
      · obtain ⟨rfl, rfl⟩ := hc
        exact ⟨[], by simp, rfl⟩
      · rw [if_neg hc] at hne
        exact absurd rfl hne
    | cons p2 rest2 =>
      rcases setLoopRef_step h a part p2 rest2 ha with ⟨c, hl, e⟩ | ⟨-, e⟩ | ⟨-, e⟩
      · rw [e value] at hs
        obtain ⟨hc, hwc⟩ := wellFormedFrom_child h a c part hw hl
        obtain ⟨h1, h2, h3⟩ := ih h h' c value hc hwc hs
        refine ⟨h1, h2, ?_⟩
        intro b k hb hne
        obtain ⟨pre, hp, hg⟩ := h3 b k hb hne
        refine ⟨part :: pre, ?_, ?_⟩
        · simpa using hp
        · rw [getLoopRef_child h a part _ hl]
          exact hg
      · rw [e value] at hs
        cases hs
      · rw [e value] at hs
        obtain ⟨f1, f2, f3, f4, f5⟩ := fresh_facts h a part ha
        obtain ⟨fw, -, fk⟩ := fresh_store _ h.length f3 f4
        obtain ⟨h1, h2, h3⟩ := ih _ h' h.length value f3 fw hs
        refine ⟨by omega, fun b hb => h2 b (f2 b hb), ?_⟩
        intro b k hb hne
        by_cases hc : loadEntry h' (.mapAt b) k =
            loadEntry (storeEntry (h ++ [.table []]) a part (.mapAt h.length)) (.mapAt b) k
        · rw [hc, f5 b k hb] at hne
          by_cases hc2 : b = a ∧ k = part
          · obtain ⟨rfl, rfl⟩ := hc2
            exact ⟨[], by simp, rfl⟩
          · rw [if_neg hc2] at hne
            exact absurd rfl hne
        · obtain ⟨pre, -, hg⟩ := h3 b k (by omega) hc
          have := (fk pre b hg).2
          omega

/-- What the loop of `setInMap` leaves on a store without sharing: the written
path holds the value, every proper prefix of it holds a table (the one it held
before, or a new one), no table is held by two prefixes, and a path that
neither continues the written path nor is continued by it resolves as it did
before. -/
theorem setLoopRef_effect (p : List String) :
    ∀ (h h' : Heap) (a : Nat) (value : RVal), p ≠ [] → isTable h a →
      wellFormedFrom h (.mapAt a) → unsharedFrom h (.mapAt a) →
      setLoopRef h (.mapAt a) p value = some h' →
      getLoopRef h' (.mapAt a) p = some value ∧
        (∀ pre rest, p = pre ++ rest → rest ≠ [] →
          ∃ b, getLoopRef h' (.mapAt a) pre = some (.mapAt b) ∧ isTable h' b ∧
            (b < h.length → getLoopRef h (.mapAt a) pre = some (.mapAt b))) ∧
        (∀ pre1 rest1 pre2 rest2 b, p = pre1 ++ rest1 → rest1 ≠ [] → p = pre2 ++ rest2 →
          rest2 ≠ [] → getLoopRef h' (.mapAt a) pre1 = some (.mapAt b) →
          getLoopRef h' (.mapAt a) pre2 = some (.mapAt b) → pre1 = pre2) ∧
        (∀ q, ¬ p <+: q → ¬ q <+: p →
          getLoopRef h' (.mapAt a) q = getLoopRef h (.mapAt a) q) := by
  induction p with
  | nil => intro h h' a value hne; exact absurd rfl hne
  | cons part rest ih =>
    intro h h' a value _ ha hw hu hs
    have halt : a < h.length := isTable_lt h a ha
    have hW := setLoopRef_writes (part :: rest) h h' a value ha hw hs
    have hoff : ∀ k q, k ≠ part →
        getLoopRef h' (.mapAt a) (k :: q) = getLoopRef h (.mapAt a) (k :: q) := by
      intro k q hk
      have hcell : loadEntry h' (.mapAt a) k = loadEntry h (.mapAt a) k := by
        by_contra hne
        obtain ⟨pre0, hp0, hg0⟩ := hW.2.2 a k halt hne
        have e0 := hu pre0 [] a hg0 rfl
        subst e0
        simp only [List.nil_append, List.cons_prefix_cons] at hp0
        exact hk hp0.1
      rw [getLoopRef_cons, getLoopRef_cons, hcell]
      cases hx : loadEntry h (.mapAt a) k with
      | none => rfl
      | some x =>
        simp only [Option.some_bind]
        apply getLoopRef_congr
        intro pre k' b _ hg
        have hgb : getLoopRef h (.mapAt a) (k :: pre) = some (.mapAt b) := by
          rw [getLoopRef_child h a k x hx]
          exact hg
        have hb := isTable_lt h b (hw _ b hgb)
        by_contra hne
        obtain ⟨pre0, hp0, hg0⟩ := hW.2.2 b k' hb hne
        have e0 := hu pre0 (k :: pre) b hg0 hgb
        subst e0
        simp only [List.cons_append, List.cons_prefix_cons] at hp0
        exact hk hp0.1
    have hroot : ∃ b, getLoopRef h' (.mapAt a) [] = some (.mapAt b) ∧ isTable h' b ∧
        (b < h.length → getLoopRef h (.mapAt a) [] = some (.mapAt b)) :=
      ⟨a, rfl, hW.2.1 a ha, fun _ => rfl⟩
    cases rest with
    | nil =>
      simp only [setLoopRef, Option.some.injEq] at hs
      subst hs
      refine ⟨?_, ?_, ?_, ?_⟩
      · rw [getLoopRef_cons, loadEntry_storeEntry _ _ _ _ _ _ ha]
        simp [getLoopRef]
      · intro pre rest' hp hrest
        rcases List.cons_eq_append_iff.1 hp with ⟨rfl, -⟩ | ⟨pre', rfl, hp'⟩
        · exact hroot
        · have := List.nil_eq_append_iff.1 hp'
          exact absurd this.2 hrest
      · intro pre1 rest1 pre2 rest2 b hp1 hr1 hp2 hr2 _ _
        rcases List.cons_eq_append_iff.1 hp1 with ⟨rfl, -⟩ | ⟨pre', rfl, hp'⟩
        · rcases List.cons_eq_append_iff.1 hp2 with ⟨rfl, -⟩ | ⟨pre'', rfl, hp''⟩
          · rfl
          · exact absurd (List.nil_eq_append_iff.1 hp'').2 hr2
        · exact absurd (List.nil_eq_append_iff.1 hp').2 hr1
      · intro q h1 h2
        cases q with
        | nil => exact absurd List.nil_prefix h2
        | cons k q' =>
          apply hoff
          rintro rfl
          exact h1 (by simp)
    | cons p2 rest2 =>
      rcases setLoopRef_step h a part p2 rest2 ha with ⟨c, hl, e⟩ | ⟨-, e⟩ | ⟨hold, e⟩
      · -- the entry holds a map
        rw [e value] at hs
        obtain ⟨hc, hwc⟩ := wellFormedFrom_child h a c part hw hl
        have huc := unsharedFrom_child h a c part hu hl
        obtain ⟨hit, hpre, hdis, hfr⟩ := ih h h' c value (by simp) hc hwc huc hs
        have hWc := setLoopRef_writes (p2 :: rest2) h h' c value hc hwc hs
        have hcell : loadEntry h' (.mapAt a) part = some (.mapAt c) := by
          rw [← hl]
          by_contra hne
          obtain ⟨pre0, -, hg0⟩ := hWc.2.2 a part halt hne
          have e0 := hu (part :: pre0) [] a (by rw [getLoopRef_child h a part _ hl]; exact hg0) rfl
          cases e0
        have hsub : ∀ pre' b, getLoopRef h' (.mapAt c) pre' = some (.mapAt b) →
            (b < h.length → getLoopRef h (.mapAt c) pre' = some (.mapAt b)) →
            b ≠ a := by
          intro pre' b hg hold' hb
          subst hb
          have := hold' halt
          have e0 := hu (part :: pre') [] b (by rw [getLoopRef_child h b part _ hl]; exact this) rfl
          cases e0
        refine ⟨?_, ?_, ?_, ?_⟩
        · rw [getLoopRef_child h' a part _ hcell]
          exact hit
        · intro pre rest' hp hrest
          rcases List.cons_eq_append_iff.1 hp with ⟨rfl, -⟩ | ⟨pre', rfl, hp'⟩
          · exact hroot
          · obtain ⟨b, hb1, hb2, hb3⟩ := hpre pre' rest' hp' hrest
            refine ⟨b, ?_, hb2, fun hlt => ?_⟩
            · rw [getLoopRef_child h' a part _ hcell]
              exact hb1
            · rw [getLoopRef_child h a part _ hl]
              exact hb3 hlt
        · intro pre1 rest1 pre2 rest2' b hp1 hr1 hp2 hr2 hg1 hg2
          rcases List.cons_eq_append_iff.1 hp1 with ⟨rfl, -⟩ | ⟨pre1', rfl, hp1'⟩
          · rcases List.cons_eq_append_iff.1 hp2 with ⟨rfl, -⟩ | ⟨pre2', rfl, hp2'⟩
            · rfl
            · simp only [getLoopRef, Option.some.injEq, RVal.mapAt.injEq] at hg1
              subst hg1
              rw [getLoopRef_child h' a part _ hcell] at hg2
              obtain ⟨b, hb1, -, hb3⟩ := hpre pre2' rest2' hp2' hr2
              rw [hg2] at hb1
              simp only [Option.some.injEq, RVal.mapAt.injEq] at hb1
              subst hb1
              exact absurd rfl (hsub pre2' a hg2 hb3)
          · rcases List.cons_eq_append_iff.1 hp2 with ⟨rfl, -⟩ | ⟨pre2', rfl, hp2'⟩
            · simp only [getLoopRef, Option.some.injEq, RVal.mapAt.injEq] at hg2
              subst hg2
              rw [getLoopRef_child h' a part _ hcell] at hg1
              obtain ⟨b, hb1, -, hb3⟩ := hpre pre1' rest1 hp1' hr1
              rw [hg1] at hb1
              simp only [Option.some.injEq, RVal.mapAt.injEq] at hb1
              subst hb1
              exact absurd rfl (hsub pre1' a hg1 hb3)
            · rw [getLoopRef_child h' a part _ hcell] at hg1 hg2
              rw [hdis pre1' rest1 pre2' rest2' b hp1' hr1 hp2' hr2 hg1 hg2]
        · intro q h1 h2
          cases q with
          | nil => exact absurd List.nil_prefix h2
          | cons k q' =>
            by_cases hk : k = part
            · subst hk
              rw [getLoopRef_child h' a k _ hcell, getLoopRef_child h a k _ hl]
              apply hfr
              · exact fun hh => h1 (List.cons_prefix_cons.2 ⟨rfl, hh⟩)
              · exact fun hh => h2 (List.cons_prefix_cons.2 ⟨rfl, hh⟩)
            · exact hoff k q' hk
      · rw [e value] at hs
        cases hs
      · -- a new map is put under the segment
        rw [e value] at hs
        obtain ⟨f1, f2, f3, f4, f5⟩ := fresh_facts h a part ha
        obtain ⟨fw, fu, fk⟩ := fresh_store _ h.length f3 f4
        obtain ⟨hit, hpre, hdis, hfr⟩ := ih _ h' h.length value (by simp) f3 fw fu hs
        have hW1 := setLoopRef_writes (p2 :: rest2) _ h' h.length value f3 fw hs
        have hcell : loadEntry h' (.mapAt a) part = some (.mapAt h.length) := by
          have h1c := f5 a part halt
          rw [if_pos ⟨rfl, rfl⟩] at h1c
          rw [← h1c]
          by_contra hne
          obtain ⟨pre0, -, hg0⟩ := hW1.2.2 a part (by omega) hne
          have := (fk pre0 a hg0).2
          omega
        have hsub : ∀ pre' rest' b, p2 :: rest2 = pre' ++ rest' → rest' ≠ [] →
            getLoopRef h' (.mapAt h.length) pre' = some (.mapAt b) → h.length ≤ b := by
          intro pre' rest' b hp' hrest hg
          obtain ⟨b', hb1, -, hb3⟩ := hpre pre' rest' hp' hrest
          rw [hg] at hb1
          simp only [Option.some.injEq, RVal.mapAt.injEq] at hb1
          subst hb1
          by_contra hlt
          have := (fk pre' b (hb3 (by omega))).2
          omega
        refine ⟨?_, ?_, ?_, ?_⟩
        · rw [getLoopRef_child h' a part _ hcell]
          exact hit
        · intro pre rest' hp hrest
          rcases List.cons_eq_append_iff.1 hp with ⟨rfl, -⟩ | ⟨pre', rfl, hp'⟩
          · exact hroot
          · obtain ⟨b, hb1, hb2, -⟩ := hpre pre' rest' hp' hrest
            refine ⟨b, ?_, hb2, fun hlt => ?_⟩
            · rw [getLoopRef_child h' a part _ hcell]
              exact hb1
            · have := hsub pre' rest' b hp' hrest hb1
              omega
        · intro pre1 rest1 pre2 rest2' b hp1 hr1 hp2 hr2 hg1 hg2
          rcases List.cons_eq_append_iff.1 hp1 with ⟨rfl, -⟩ | ⟨pre1', rfl, hp1'⟩
          · rcases List.cons_eq_append_iff.1 hp2 with ⟨rfl, -⟩ | ⟨pre2', rfl, hp2'⟩
            · rfl
            · simp only [getLoopRef, Option.some.injEq, RVal.mapAt.injEq] at hg1
              subst hg1
              rw [getLoopRef_child h' a part _ hcell] at hg2
              have := hsub pre2' rest2' a hp2' hr2 hg2
              omega
          · rcases List.cons_eq_append_iff.1 hp2 with ⟨rfl, -⟩ | ⟨pre2', rfl, hp2'⟩
            · simp only [getLoopRef, Option.some.injEq, RVal.mapAt.injEq] at hg2
              subst hg2
              rw [getLoopRef_child h' a part _ hcell] at hg1
              have := hsub pre1' rest1 a hp1' hr1 hg1
              omega
            · rw [getLoopRef_child h' a part _ hcell] at hg1 hg2
              rw [hdis pre1' rest1 pre2' rest2' b hp1' hr1 hp2' hr2 hg1 hg2]
        · intro q h1 h2
          cases q with
          | nil => exact absurd List.nil_prefix h2
          | cons k q' =>
            by_cases hk : k = part
            · subst hk
              have hq' : q' ≠ [] := by
                rintro rfl
                exact h2 (by simp)
              obtain ⟨k', q'', rfl⟩ := List.exists_cons_of_ne_nil hq'
              rw [getLoopRef_child h' a k _ hcell,
                hfr (k' :: q'') (fun hh => h1 (List.cons_prefix_cons.2 ⟨rfl, hh⟩))
                  (fun hh => h2 (List.cons_prefix_cons.2 ⟨rfl, hh⟩)),
                getLoopRef_of_empty _ _ f4, getLoopRef_cons]
              cases hx : loadEntry h (.mapAt a) k with
              | none => rfl
              | some x =>
                simp only [Option.some_bind]
                exact (getLoopRef_leaf h x (hold x hx).1 k' q'').symm
            · exact hoff k q' hk

/-- A table that a proper prefix of the written path holds is still held there
after the loop of `setInMap`. -/
theorem setLoopRef_keeps_prefix (p : List String) :
    ∀ (h h' : Heap) (a : Nat) (value : RVal), isTable h a →
      wellFormedFrom h (.mapAt a) → unsharedFrom h (.mapAt a) →
      setLoopRef h (.mapAt a) p value = some h' →
      ∀ pre rest b, p = pre ++ rest → rest ≠ [] →
        getLoopRef h (.mapAt a) pre = some (.mapAt b) →
        getLoopRef h' (.mapAt a) pre = some (.mapAt b) := by
  induction p with
  | nil =>
    intro h h' a value _ _ _ _ pre rest b hp hrest
    exact absurd (List.nil_eq_append_iff.1 hp).2 hrest
  | cons part rest0 ih =>
    intro h h' a value ha hw hu hs pre rest b hp hrest hg
    have halt : a < h.length := isTable_lt h a ha
    rcases List.cons_eq_append_iff.1 hp with ⟨rfl, -⟩ | ⟨pre', rfl, hp'⟩
    · exact hg
    · cases rest0 with
      | nil => exact absurd (List.nil_eq_append_iff.1 hp').2 hrest
      | cons p2 rest2 =>
        rcases setLoopRef_step h a part p2 rest2 ha with ⟨c, hl, e⟩ | ⟨-, e⟩ | ⟨hold, e⟩
        · rw [e value] at hs
          obtain ⟨hc, hwc⟩ := wellFormedFrom_child h a c part hw hl
          have huc := unsharedFrom_child h a c part hu hl
          have hWc := setLoopRef_writes (p2 :: rest2) h h' c value hc hwc hs
          have hcell : loadEntry h' (.mapAt a) part = some (.mapAt c) := by
            rw [← hl]
            by_contra hne
            obtain ⟨pre0, -, hg0⟩ := hWc.2.2 a part halt hne
            have e0 := hu (part :: pre0) [] a
              (by rw [getLoopRef_child h a part _ hl]; exact hg0) rfl
            cases e0
          rw [getLoopRef_child h a part _ hl] at hg
          rw [getLoopRef_child h' a part _ hcell]
          exact ih h h' c value hc hwc huc hs pre' rest b hp' hrest hg
        · rw [e value] at hs
          cases hs
        · rw [getLoopRef_cons] at hg
          cases hx : loadEntry h (.mapAt a) part with
          | none =>
            rw [hx] at hg
            cases hg
          | some x =>
            rw [hx] at hg
            simp only [Option.some_bind] at hg
            cases pre' with
            | nil =>
              simp only [getLoopRef, Option.some.injEq] at hg
              exact absurd hg ((hold x hx).1 b)
            | cons k pre'' =>
              rw [getLoopRef_leaf h x (hold x hx).1] at hg
              cases hg

/-- The loop of `setInMap` leaves every path from a value as it was when no
table reached from the value is one the loop passes through. -/
theorem setLoopRef_off_path (p : List String) (h h' : Heap) (a : Nat) (value x : RVal)
    (ha : isTable h a) (hw : wellFormedFrom h (.mapAt a))
    (hs : setLoopRef h (.mapAt a) p value = some h') (hx : wellFormedFrom h x)
    (hoff : ∀ pre c, getLoopRef h x pre = some (.mapAt c) →
      ∀ pre2 k, (pre2 ++ [k]) <+: p → getLoopRef h (.mapAt a) pre2 ≠ some (.mapAt c))
    (q : List String) : getLoopRef h' x q = getLoopRef h x q := by
  apply getLoopRef_congr
  intro pre k b _ hg
  by_contra hne
  obtain ⟨pre2, hp2, hg2⟩ :=
    (setLoopRef_writes p h h' a value ha hw hs).2.2 b k (isTable_lt h b (hx pre b hg)) hne
  exact hoff pre b hg pre2 k hp2 hg2

/-- When the loop of `setInMap` leaves a store without sharing, every path
from a value held at or below the written path resolves as it did before. -/
theorem setLoopRef_keeps_below (p : List String) (h h' : Heap) (a : Nat) (value : RVal)
    (ha : isTable h a) (hw : wellFormedFrom h (.mapAt a)) (hu : unsharedFrom h (.mapAt a))
    (hs : setLoopRef h (.mapAt a) p value = some h') (hu' : unsharedFrom h' (.mapAt a))
    (q : List String) :
    ∀ (x : RVal) (pos : List String), p.length ≤ pos.length →
      getLoopRef h' (.mapAt a) pos = some x → wellFormedFrom h x →
      getLoopRef h' x q = getLoopRef h x q := by
  induction q with
  | nil => intro x pos _ _ _; rfl
  | cons k q' ih =>
    intro x pos hlen hpos hx
    by_cases hm : ∃ b, x = .mapAt b
    · obtain ⟨b, rfl⟩ := hm
      have hb : isTable h b := hx [] b rfl
      have hcell : loadEntry h' (.mapAt b) k = loadEntry h (.mapAt b) k := by
        by_contra hne
        obtain ⟨pre2, hp2, hg2⟩ :=
          (setLoopRef_writes p h h' a value ha hw hs).2.2 b k (isTable_lt h b hb) hne
        obtain ⟨t, ht⟩ := hp2
        have hg2' := setLoopRef_keeps_prefix p h h' a value ha hw hu hs pre2 (k :: t) b
          (by rw [← ht]; simp) (by simp) hg2
        have e0 := hu' pre2 pos b hg2' hpos
        subst e0
        have : (pre2 ++ [k] ++ t).length = p.length := by rw [ht]
        simp only [List.length_append, List.length_singleton] at this
        omega
      rw [getLoopRef_cons, getLoopRef_cons, hcell]
      cases hy : loadEntry h (.mapAt b) k with
      | none => rfl
      | some y =>
        simp only [Option.some_bind]
        apply ih y (pos ++ [k])
        · simp only [List.length_append, List.length_singleton]
          omega
        · rw [getLoopRef_append, hpos]
          simp only [Option.some_bind]
          rw [getLoopRef_cons, hcell, hy]
          rfl
        · intro q c hq
          exact hx (k :: q) c (by rw [getLoopRef_child h b k y hy]; exact hq)
    · have hm' : ∀ b, x ≠ .mapAt b := fun b hb => hm ⟨b, hb⟩
      rw [getLoopRef_leaf h' x hm', getLoopRef_leaf h x hm']

/-- A value whose maps are tables of the heap resolves every path alike after
a new object has been added to the heap. -/
theorem getLoopRef_append_obj (h : Heap) (o : Obj) (x : RVal) (hx : wellFormedFrom h x)
    (q : List String) : getLoopRef (h ++ [o]) x q = getLoopRef h x q := by
  apply getLoopRef_congr
  intro pre k b _ hg
  exact loadEntry_append h o b k (isTable_lt h b (hx pre b hg))

/-- A value that holds no map of the store leaves the store without sharing. -/
theorem setLoopRef_keeps_unshared (p : List String) (h h' : Heap) (a : Nat) (value : RVal)
    (hne : p ≠ []) (ha : isTable h a) (hw : wellFormedFrom h (.mapAt a))
    (hu : unsharedFrom h (.mapAt a)) (hvw : wellFormedFrom h value)
    (hvu : unsharedFrom h value)
    (hvd : ∀ q1 q2 c, getLoopRef h (.mapAt a) q1 = some (.mapAt c) →
      getLoopRef h value q2 = some (.mapAt c) → False)
    (hs : setLoopRef h (.mapAt a) p value = some h') :
    isTable h' a ∧ wellFormedFrom h' (.mapAt a) ∧ unsharedFrom h' (.mapAt a) := by
  obtain ⟨hit, hpre, hdis, hfr⟩ := setLoopRef_effect p h h' a value hne ha hw hu hs
  obtain ⟨-, htab, -⟩ := setLoopRef_writes p h h' a value ha hw hs
  have sv : ∀ q, getLoopRef h' value q = getLoopRef h value q :=
    setLoopRef_off_path p h h' a value value ha hw hs hvw
      (fun pre c hg pre2 _ _ hat => hvd pre2 pre c hat hg)
  -- a path that reaches a table after the call is a proper prefix of the written path,
  -- continues it, or is unrelated to it
  have cls : ∀ q b, getLoopRef h' (.mapAt a) q = some (.mapAt b) →
      (∃ rest, p = q ++ rest ∧ rest ≠ []) ∨
        (∃ r, q = p ++ r ∧ getLoopRef h value r = some (.mapAt b)) ∨
        (¬ p <+: q ∧ ¬ q <+: p ∧ getLoopRef h (.mapAt a) q = some (.mapAt b)) := by
    intro q b hq
    by_cases h1 : p <+: q
    · obtain ⟨r, rfl⟩ := h1
      rw [getLoopRef_append, hit] at hq
      simp only [Option.some_bind] at hq
      rw [sv r] at hq
      exact Or.inr (Or.inl ⟨r, rfl, hq⟩)
    · by_cases h2 : q <+: p
      · obtain ⟨rest, rfl⟩ := h2
        refine Or.inl ⟨rest, rfl, ?_⟩
        rintro rfl
        exact h1 (by simp)
      · exact Or.inr (Or.inr ⟨h1, h2, by rw [← hfr q h1 h2]; exact hq⟩)
  -- a table held at a proper prefix is a new table or was held there before
  have old : ∀ q rest b, p = q ++ rest → rest ≠ [] →
      getLoopRef h' (.mapAt a) q = some (.mapAt b) → b < h.length →
      getLoopRef h (.mapAt a) q = some (.mapAt b) := by
    intro q rest b hp hrest hq hlt
    obtain ⟨b', hb1, -, hb3⟩ := hpre q rest hp hrest
    rw [hq] at hb1
    simp only [Option.some.injEq, RVal.mapAt.injEq] at hb1
    subst hb1
    exact hb3 hlt
  have c12 : ∀ q1 q2 rest1 b, p = q1 ++ rest1 → rest1 ≠ [] →
      getLoopRef h' (.mapAt a) q1 = some (.mapAt b) → ¬ q2 <+: p →
      getLoopRef h (.mapAt a) q2 = some (.mapAt b) → False := by
    intro q1 q2 rest1 b hp1 hr1 hq1 n2 hold2
    have := hu q1 q2 b (old q1 rest1 b hp1 hr1 hq1 (isTable_lt h b (hw q2 b hold2))) hold2
    subst this
    exact n2 ⟨rest1, hp1.symm⟩
  have c13 : ∀ q1 rest1 r b, p = q1 ++ rest1 → rest1 ≠ [] →
      getLoopRef h' (.mapAt a) q1 = some (.mapAt b) →
      getLoopRef h value r = some (.mapAt b) → False := by
    intro q1 rest1 r b hp1 hr1 hq1 hv
    exact hvd q1 r b (old q1 rest1 b hp1 hr1 hq1 (isTable_lt h b (hvw r b hv))) hv
  refine ⟨htab a ha, ?_, ?_⟩
  · intro q b hq
    rcases cls q b hq with ⟨rest, hp, hrest⟩ | ⟨r, -, hv⟩ | ⟨-, -, hold⟩
    · obtain ⟨b', hb1, hb2, -⟩ := hpre q rest hp hrest
      rw [hq] at hb1
      simp only [Option.some.injEq, RVal.mapAt.injEq] at hb1
      rw [hb1]
      exact hb2
    · exact htab b (hvw r b hv)
    · exact htab b (hw q b hold)
  · intro q1 q2 b hq1 hq2
    rcases cls q1 b hq1 with ⟨rest1, hp1, hr1⟩ | ⟨r1, e1, hv1⟩ | ⟨-, n1, hold1⟩
    · rcases cls q2 b hq2 with ⟨rest2, hp2, hr2⟩ | ⟨r2, -, hv2⟩ | ⟨-, n2, hold2⟩
      · exact hdis q1 rest1 q2 rest2 b hp1 hr1 hp2 hr2 hq1 hq2
      · exact (c13 q1 rest1 r2 b hp1 hr1 hq1 hv2).elim
      · exact (c12 q1 q2 rest1 b hp1 hr1 hq1 n2 hold2).elim
    · rcases cls q2 b hq2 with ⟨rest2, hp2, hr2⟩ | ⟨r2, e2, hv2⟩ | ⟨-, -, hold2⟩
      · exact (c13 q2 rest2 r1 b hp2 hr2 hq2 hv1).elim
      · rw [e1, e2, hvu r1 r2 b hv1 hv2]
      · exact (hvd q2 r1 b hold2 hv1).elim
    · rcases cls q2 b hq2 with ⟨rest2, hp2, hr2⟩ | ⟨r2, -, hv2⟩ | ⟨-, -, hold2⟩
      · exact (c12 q2 q1 rest2 b hp2 hr2 hq2 n1 hold1).elim
      · exact (hvd q1 r2 b hold1 hv2).elim
      · exact hu q1 q2 b hold1 hold2

/-- The loop of `setInMap` returns exactly when no proper prefix of the path
holds a nil map. -/
theorem setLoopRef_isSome_iff (p : List String) :
    ∀ (h : Heap) (a : Nat) (value : RVal), p ≠ [] → isTable h a →
      wellFormedFrom h (.mapAt a) →
      ((∃ h', setLoopRef h (.mapAt a) p value = some h') ↔
        ∀ pre rest, p = pre ++ rest → rest ≠ [] →
          getLoopRef h (.mapAt a) pre ≠ some .nilMap) := by
  induction p with
  | nil => intro h a value hne; exact absurd rfl hne
  | cons part rest ih =>
    intro h a value _ ha hw
    cases rest with
    | nil =>
      constructor
      · intro _ pre rest' hp hrest
        rcases List.cons_eq_append_iff.1 hp with ⟨rfl, -⟩ | ⟨pre', rfl, hp'⟩
        · simp [getLoopRef]
        · exact absurd (List.nil_eq_append_iff.1 hp').2 hrest
      · intro _
        exact ⟨_, rfl⟩
    | cons p2 rest2 =>
      rcases setLoopRef_step h a part p2 rest2 ha with ⟨c, hl, e⟩ | ⟨hl, e⟩ | ⟨hold, e⟩
      · obtain ⟨hc, hwc⟩ := wellFormedFrom_child h a c part hw hl
        rw [e value, ih h c value (by simp) hc hwc]
        constructor
        · intro hcl pre rest' hp hrest
          rcases List.cons_eq_append_iff.1 hp with ⟨rfl, -⟩ | ⟨pre', rfl, hp'⟩
          · simp [getLoopRef]
          · rw [getLoopRef_child h a part _ hl]
            exact hcl pre' rest' hp' hrest
        · intro hcl pre' rest' hp' hrest
          have := hcl (part :: pre') rest' (by simp [hp']) hrest
          rw [getLoopRef_child h a part _ hl] at this
          exact this
      · rw [e value]
        constructor
        · rintro ⟨h', hh⟩
          cases hh
        · intro hcl
          have := hcl [part] (p2 :: rest2) rfl (by simp)
          rw [getLoopRef_child h a part _ hl] at this
          exact absurd rfl this
      · obtain ⟨f1, f2, f3, f4, f5⟩ := fresh_facts h a part ha
        obtain ⟨fw, -, fk⟩ := fresh_store _ h.length f3 f4
        rw [e value, ih _ h.length value (by simp) f3 fw]
        constructor
        · intro _ pre rest' hp hrest
          rcases List.cons_eq_append_iff.1 hp with ⟨rfl, -⟩ | ⟨pre', rfl, hp'⟩
          · simp [getLoopRef]
          · rw [getLoopRef_cons]
            cases hx : loadEntry h (.mapAt a) part with
            | none => simp
            | some x =>
              simp only [Option.some_bind]
              cases pre' with
              | nil =>
                simp only [getLoopRef, ne_eq, Option.some.injEq]
                exact (hold x hx).2
              | cons k pre'' =>
                rw [getLoopRef_leaf h x (hold x hx).1]
                simp
        · intro _ pre' rest' _ _
          cases pre' with
          | nil => simp [getLoopRef]
          | cons k pre'' =>
            rw [getLoopRef_of_empty _ _ f4]
            simp

/-- Whether a later write at `p2` returns is not changed by an earlier write at
a path `p1` that neither continues `p2` nor is continued by it. -/
theorem setLoopRef_isSome_after (p1 p2 : List String) (h12 : ¬ p1 <+: p2)
    (h21 : ¬ p2 <+: p1) (h h1 : Heap) (a : Nat) (v1 v2 : RVal) (ha : isTable h a)
    (hw : wellFormedFrom h (.mapAt a)) (hu : unsharedFrom h (.mapAt a))
    (hs : setLoopRef h (.mapAt a) p1 v1 = some h1) (ha1 : isTable h1 a)
    (hw1 : wellFormedFrom h1 (.mapAt a)) :
    (∃ r, setLoopRef h1 (.mapAt a) p2 v2 = some r) ↔
      ∃ r, setLoopRef h (.mapAt a) p2 v2 = some r := by
  have hne1 : p1 ≠ [] := by
    rintro rfl
    exact h12 List.nil_prefix
  have hne2 : p2 ≠ [] := by
    rintro rfl
    exact h21 List.nil_prefix
  obtain ⟨-, hpre, -, hfr⟩ := setLoopRef_effect p1 h h1 a v1 hne1 ha hw hu hs
  have hclear1 := (setLoopRef_isSome_iff p1 h a v1 hne1 ha hw).1 ⟨h1, hs⟩
  rw [setLoopRef_isSome_iff p2 h1 a v2 hne2 ha1 hw1, setLoopRef_isSome_iff p2 h a v2 hne2 ha hw]
  have key : ∀ pre rest, p2 = pre ++ rest → rest ≠ [] →
      (getLoopRef h1 (.mapAt a) pre ≠ some .nilMap ↔
        getLoopRef h (.mapAt a) pre ≠ some .nilMap) := by
    intro pre rest hp hrest
    have hpre2 : pre <+: p2 := ⟨rest, hp.symm⟩
    have hn1 : ¬ p1 <+: pre := fun hh => h12 (hh.trans hpre2)
    by_cases hpre1 : pre <+: p1
    · obtain ⟨rest1, hr1⟩ := hpre1
      have hrest1 : rest1 ≠ [] := by
        rintro rfl
        simp only [List.append_nil] at hr1
        subst hr1
        exact h12 hpre2
      obtain ⟨b, hb, -, -⟩ := hpre pre rest1 hr1.symm hrest1
      constructor
      · intro _
        exact hclear1 pre rest1 hr1.symm hrest1
      · intro _
        rw [hb]
        simp
    · rw [hfr pre hn1 hpre1]
  constructor
  · intro hh pre rest hp hrest
    exact (key pre rest hp hrest).1 (hh pre rest hp hrest)
  · intro hh pre rest hp hrest
    exact (key pre rest hp hrest).2 (hh pre rest hp hrest)

/-- Two writes at paths neither of which continues the other, each of which
alone leaves a store without sharing: below the first path both orders show
what the first value showed before the writes. -/
theorem setLoopRef_pair_below (p1 p2 : List String) (h12 : ¬ p1 <+: p2) (h21 : ¬ p2 <+: p1)
    (h a1 a b1 b : Heap) (r : Nat) (v1 v2 : RVal) (hr : isTable h r)
    (hw : wellFormedFrom h (.mapAt r)) (hu : unsharedFrom h (.mapAt r))
    (hv1 : wellFormedFrom h v1)
    (ta1 : isTable a1 r) (wa1 : wellFormedFrom a1 (.mapAt r)) (ua1 : unsharedFrom a1 (.mapAt r))
    (tb1 : isTable b1 r) (wb1 : wellFormedFrom b1 (.mapAt r)) (ub1 : unsharedFrom b1 (.mapAt r))
    (ha1 : setLoopRef h (.mapAt r) p1 v1 = some a1) (ha : setLoopRef a1 (.mapAt r) p2 v2 = some a)
    (hb1 : setLoopRef h (.mapAt r) p2 v2 = some b1)
    (hb : setLoopRef b1 (.mapAt r) p1 v1 = some b) (q : List String) :
    getLoopRef a (.mapAt r) (p1 ++ q) = getLoopRef h v1 q ∧
      getLoopRef b (.mapAt r) (p1 ++ q) = getLoopRef h v1 q := by
  have hne1 : p1 ≠ [] := by
    rintro rfl
    exact h12 List.nil_prefix
  have hne2 : p2 ≠ [] := by
    rintro rfl
    exact h21 List.nil_prefix
  obtain ⟨hit1, -, -, hfr1⟩ := setLoopRef_effect p1 h a1 r v1 hne1 hr hw hu ha1
  obtain ⟨-, -, -, hfr2⟩ := setLoopRef_effect p2 a1 a r v2 hne2 ta1 wa1 ua1 ha
  obtain ⟨-, hpre3, -, hfr3⟩ := setLoopRef_effect p2 h b1 r v2 hne2 hr hw hu hb1
  obtain ⟨hit4, -, -, -⟩ := setLoopRef_effect p1 b1 b r v1 hne1 tb1 wb1 ub1 hb
  have keep1 := setLoopRef_keeps_prefix p1 h a1 r v1 hr hw hu ha1
  -- below the first path the store after the first write shows the value as it was
  have s1 : ∀ q', getLoopRef a1 v1 q' = getLoopRef h v1 q' := fun q' =>
    setLoopRef_keeps_below p1 h a1 r v1 hr hw hu ha1 ua1 q' v1 p1 (le_refl _) hit1 hv1
  have at1 : ∀ pre c, getLoopRef h v1 pre = some (.mapAt c) →
      getLoopRef a1 (.mapAt r) (p1 ++ pre) = some (.mapAt c) := by
    intro pre c hg
    rw [getLoopRef_append, hit1]
    simp only [Option.some_bind]
    rw [s1 pre]
    exact hg
  -- a table held at a proper prefix of the first path before the writes is not below the value
  have clash : ∀ pre c pre1, getLoopRef h v1 pre = some (.mapAt c) →
      getLoopRef a1 (.mapAt r) pre1 = some (.mapAt c) → ¬ p1 <+: pre1 → False := by
    intro pre c pre1 hg hat hn
    have e0 := ua1 (p1 ++ pre) pre1 c (at1 pre c hg) hat
    exact hn ⟨pre, e0⟩
  have offX : ∀ pre c, getLoopRef h v1 pre = some (.mapAt c) →
      ∀ pre2 k, (pre2 ++ [k]) <+: p2 → getLoopRef h (.mapAt r) pre2 ≠ some (.mapAt c) := by
    intro pre c hg pre2 k hp2 hat
    have hpp2 : pre2 <+: p2 := (List.prefix_append pre2 [k]).trans hp2
    have hn : ¬ p1 <+: pre2 := fun hh => h12 (hh.trans hpp2)
    apply clash pre c pre2 hg _ hn
    by_cases hc : pre2 <+: p1
    · obtain ⟨rest, hrest⟩ := hc
      have hr0 : rest ≠ [] := by
        rintro rfl
        simp only [List.append_nil] at hrest
        subst hrest
        exact h12 hpp2
      exact keep1 pre2 rest c hrest.symm hr0 hat
    · rw [hfr1 pre2 hn hc]
      exact hat
  have sX : ∀ q', getLoopRef b1 v1 q' = getLoopRef h v1 q' :=
    setLoopRef_off_path p2 h b1 r v2 v1 hr hw hb1 hv1 offX
  have hWb1 := setLoopRef_writes p2 h b1 r v2 hr hw hb1
  have hv1b : wellFormedFrom b1 v1 := by
    intro q' c hq
    rw [sX q'] at hq
    exact hWb1.2.1 c (hv1 q' c hq)
  have offY : ∀ pre c, getLoopRef b1 v1 pre = some (.mapAt c) →
      ∀ pre1 k, (pre1 ++ [k]) <+: p1 → getLoopRef b1 (.mapAt r) pre1 ≠ some (.mapAt c) := by
    intro pre c hg pre1 k hp1 hat
    rw [sX pre] at hg
    have hc0 : c < h.length := isTable_lt h c (hv1 pre c hg)
    obtain ⟨t, ht⟩ := hp1
    have hpp1 : pre1 <+: p1 := ⟨[k] ++ t, by rw [← ht]; simp⟩
    have hn2 : ¬ p2 <+: pre1 := fun hh => h21 (hh.trans hpp1)
    have hold : getLoopRef h (.mapAt r) pre1 = some (.mapAt c) := by
      by_cases hc : pre1 <+: p2
      · obtain ⟨rest, hrest⟩ := hc
        have hr0 : rest ≠ [] := by
          rintro rfl
          simp only [List.append_nil] at hrest
          subst hrest
          exact h21 hpp1
        obtain ⟨b', hb1', -, hb3⟩ := hpre3 pre1 rest hrest.symm hr0
        rw [hat] at hb1'
        simp only [Option.some.injEq, RVal.mapAt.injEq] at hb1'
        subst hb1'
        exact hb3 hc0
      · rw [← hfr3 pre1 hn2 hc]
        exact hat
    have hin := keep1 pre1 (k :: t) c (by rw [← ht]; simp) (by simp) hold
    apply clash pre c pre1 hg hin
    rintro ⟨s, hs⟩
    have : (pre1 ++ [k] ++ t).length = p1.length := by rw [ht]
    rw [← hs] at this
    simp only [List.length_append, List.length_singleton] at this
    omega
  have sY : ∀ q', getLoopRef b v1 q' = getLoopRef b1 v1 q' :=
    setLoopRef_off_path p1 b1 b r v1 v1 tb1 wb1 hb hv1b offY
  constructor
  · rw [hfr2 (p1 ++ q)
      (fun hh => (List.prefix_or_prefix_of_prefix hh (List.prefix_append p1 q)).elim h21 h12)
      (fun hh => h12 ((List.prefix_append p1 q).trans hh)),
      getLoopRef_append, hit1]
    exact s1 q
  · rw [getLoopRef_append, hit4]
    simp only [Option.some_bind]
    rw [sY q, sX q]

/-- Two writes at paths neither of which continues the other, each of which
alone leaves a store without sharing, leave stores that show the same at
every path, whichever comes first. -/
theorem setLoopRef_commute (p1 p2 : List String) (h12 : ¬ p1 <+: p2)
    (h21 : ¬ p2 <+: p1) (h a1 a b1 b : Heap) (r : Nat) (v1 v2 : RVal) (hr : isTable h r)
    (hw : wellFormedFrom h (.mapAt r)) (hu : unsharedFrom h (.mapAt r))
    (hv1 : wellFormedFrom h v1) (hv2 : wellFormedFrom h v2)
    (ta1 : isTable a1 r) (wa1 : wellFormedFrom a1 (.mapAt r)) (ua1 : unsharedFrom a1 (.mapAt r))
    (tb1 : isTable b1 r) (wb1 : wellFormedFrom b1 (.mapAt r)) (ub1 : unsharedFrom b1 (.mapAt r))
    (ha1 : setLoopRef h (.mapAt r) p1 v1 = some a1) (ha : setLoopRef a1 (.mapAt r) p2 v2 = some a)
    (hb1 : setLoopRef h (.mapAt r) p2 v2 = some b1)
    (hb : setLoopRef b1 (.mapAt r) p1 v1 = some b) (q : List String) :
    (getLoopRef a (.mapAt r) q).map RVal.shape = (getLoopRef b (.mapAt r) q).map RVal.shape := by
  have hne1 : p1 ≠ [] := by
    rintro rfl
    exact h12 List.nil_prefix
  have hne2 : p2 ≠ [] := by
    rintro rfl
    exact h21 List.nil_prefix
  obtain ⟨-, hpre1, -, hfr1⟩ := setLoopRef_effect p1 h a1 r v1 hne1 hr hw hu ha1
  obtain ⟨-, hpre2, -, hfr2⟩ := setLoopRef_effect p2 a1 a r v2 hne2 ta1 wa1 ua1 ha
  obtain ⟨-, hpre3, -, hfr3⟩ := setLoopRef_effect p2 h b1 r v2 hne2 hr hw hu hb1
  obtain ⟨-, hpre4, -, hfr4⟩ := setLoopRef_effect p1 b1 b r v1 hne1 tb1 wb1 ub1 hb
  by_cases c1 : p1 <+: q
  · obtain ⟨q', rfl⟩ := c1
    obtain ⟨e1, e2⟩ := setLoopRef_pair_below p1 p2 h12 h21 h a1 a b1 b r v1 v2 hr hw hu hv1
      ta1 wa1 ua1 tb1 wb1 ub1 ha1 ha hb1 hb q'
    rw [e1, e2]
  · by_cases c2 : p2 <+: q
    · obtain ⟨q', rfl⟩ := c2
      obtain ⟨e1, e2⟩ := setLoopRef_pair_below p2 p1 h21 h12 h b1 b a1 a r v2 v1 hr hw hu hv2
        tb1 wb1 ub1 ta1 wa1 ua1 hb1 hb ha1 ha q'
      rw [e1, e2]
    · by_cases c3 : q <+: p1
      · obtain ⟨rest1, hr1⟩ := c3
        have hrest1 : rest1 ≠ [] := by
          rintro rfl
          exact c1 (by rw [← hr1]; simp)
        obtain ⟨x, hx, -, -⟩ := hpre4 q rest1 hr1.symm hrest1
        rw [hx]
        by_cases c4 : q <+: p2
        · obtain ⟨rest2, hr2⟩ := c4
          have hrest2 : rest2 ≠ [] := by
            rintro rfl
            exact c2 (by rw [← hr2]; simp)
          obtain ⟨y, hy, -, -⟩ := hpre2 q rest2 hr2.symm hrest2
          rw [hy]
          rfl
        · obtain ⟨y, hy, -, -⟩ := hpre1 q rest1 hr1.symm hrest1
          rw [hfr2 q c2 c4, hy]
          rfl
      · by_cases c4 : q <+: p2
        · obtain ⟨rest2, hr2⟩ := c4
          have hrest2 : rest2 ≠ [] := by
            rintro rfl
            exact c2 (by rw [← hr2]; simp)
          obtain ⟨y, hy, -, -⟩ := hpre2 q rest2 hr2.symm hrest2
          obtain ⟨x, hx, -, -⟩ := hpre3 q rest2 hr2.symm hrest2
          rw [hy, hfr4 q c1 c3, hx]
          rfl
        · rw [hfr2 q c2 c4, hfr1 q c1 c3, hfr4 q c1 c3, hfr3 q c2 c4]

/-- Two writes at one path, each of which alone leaves a store without
sharing, leave a store that shows at every path what the second write alone
leaves. -/
theorem setLoopRef_twice (p : List String) (hne : p ≠ []) (h a1 a b : Heap) (r : Nat)
    (w1 w2 : RVal) (hr : isTable h r) (hw : wellFormedFrom h (.mapAt r))
    (hu : unsharedFrom h (.mapAt r)) (hw2 : wellFormedFrom h w2)
    (ta1 : isTable a1 r) (wa1 : wellFormedFrom a1 (.mapAt r)) (ua1 : unsharedFrom a1 (.mapAt r))
    (ub : unsharedFrom b (.mapAt r))
    (ha1 : setLoopRef h (.mapAt r) p w1 = some a1) (ha : setLoopRef a1 (.mapAt r) p w2 = some a)
    (hb : setLoopRef h (.mapAt r) p w2 = some b) (q : List String) :
    (getLoopRef a (.mapAt r) q).map RVal.shape = (getLoopRef b (.mapAt r) q).map RVal.shape := by
  obtain ⟨-, hpre1, -, hfr1⟩ := setLoopRef_effect p h a1 r w1 hne hr hw hu ha1
  obtain ⟨hit2, hpre2, -, hfr2⟩ := setLoopRef_effect p a1 a r w2 hne ta1 wa1 ua1 ha
  obtain ⟨hit3, hpre3, -, hfr3⟩ := setLoopRef_effect p h b r w2 hne hr hw hu hb
  have keepB := setLoopRef_keeps_prefix p h b r w2 hr hw hu hb
  have sB : ∀ q', getLoopRef b w2 q' = getLoopRef h w2 q' := fun q' =>
    setLoopRef_keeps_below p h b r w2 hr hw hu hb ub q' w2 p (le_refl _) hit3 hw2
  have offX : ∀ pre c, getLoopRef h w2 pre = some (.mapAt c) →
      ∀ pre2 k, (pre2 ++ [k]) <+: p → getLoopRef h (.mapAt r) pre2 ≠ some (.mapAt c) := by
    intro pre c hg pre2 k hp2 hat
    obtain ⟨t, ht⟩ := hp2
    have hin := keepB pre2 (k :: t) c (by rw [← ht]; simp) (by simp) hat
    have hat2 : getLoopRef b (.mapAt r) (p ++ pre) = some (.mapAt c) := by
      rw [getLoopRef_append, hit3]
      simp only [Option.some_bind]
      rw [sB pre]
      exact hg
    have e0 := ub (p ++ pre) pre2 c hat2 hin
    have : (pre2 ++ [k] ++ t).length = p.length := by rw [ht]
    rw [← e0] at this
    simp only [List.length_append, List.length_singleton] at this
    omega
  have sX : ∀ q', getLoopRef a1 w2 q' = getLoopRef h w2 q' :=
    setLoopRef_off_path p h a1 r w1 w2 hr hw ha1 hw2 offX
  have hWa1 := setLoopRef_writes p h a1 r w1 hr hw ha1
  have hw2a : wellFormedFrom a1 w2 := by
    intro q' c hq
    rw [sX q'] at hq
    exact hWa1.2.1 c (hw2 q' c hq)
  have offY : ∀ pre c, getLoopRef a1 w2 pre = some (.mapAt c) →
      ∀ pre2 k, (pre2 ++ [k]) <+: p → getLoopRef a1 (.mapAt r) pre2 ≠ some (.mapAt c) := by
    intro pre c hg pre2 k hp2 hat
    rw [sX pre] at hg
    have hc0 : c < h.length := isTable_lt h c (hw2 pre c hg)
    obtain ⟨t, ht⟩ := hp2
    obtain ⟨b', hb1', -, hb3⟩ := hpre1 pre2 (k :: t) (by rw [← ht]; simp) (by simp)
    rw [hat] at hb1'
    simp only [Option.some.injEq, RVal.mapAt.injEq] at hb1'
    subst hb1'
    exact offX pre c hg pre2 k ⟨t, ht⟩ (hb3 hc0)
  have sY : ∀ q', getLoopRef a w2 q' = getLoopRef a1 w2 q' :=
    setLoopRef_off_path p a1 a r w2 w2 ta1 wa1 ha hw2a offY
  by_cases c1 : p <+: q
  · obtain ⟨q', rfl⟩ := c1
    rw [getLoopRef_append, hit2, getLoopRef_append, hit3]
    simp only [Option.some_bind]
    rw [sY q', sX q', sB q']
  · by_cases c2 : q <+: p
    · obtain ⟨rest, hrest⟩ := c2
      have hr0 : rest ≠ [] := by
        rintro rfl
        exact c1 (by rw [← hrest]; simp)
      obtain ⟨x, hx, -, -⟩ := hpre2 q rest hrest.symm hr0
      obtain ⟨y, hy, -, -⟩ := hpre3 q rest hrest.symm hr0
      rw [hx, hy]
      rfl
    · rw [hfr2 q c1 c2, hfr1 q c1 c2, hfr3 q c1 c2]

/-- The loop of `setInMap` leaves the backing arrays of the heap as they
are. -/
theorem setLoopRef_arrays (p : List String) :
    ∀ (h h' : Heap) (a : Nat) (value : RVal), isTable h a → wellFormedFrom h (.mapAt a) →
      setLoopRef h (.mapAt a) p value = some h' →
      ∀ b es, h.get? b = some (.array es) → h'.get? b = some (.array es) := by
  induction p with
  | nil =>
    intro h h' a value _ _ hs
    simp only [setLoopRef, Option.some.injEq] at hs
    subst hs
    exact fun b es hb => hb
  | cons part rest ih =>
    intro h h' a value ha hw hs b es hb
    have hba : b ≠ a := by
      rintro rfl
      obtain ⟨es', he'⟩ := ha
      rw [he'] at hb
      cases hb
    have hblt : b < h.length := by
      by_contra hlt
      rw [List.get?_eq_none.2 (by omega)] at hb
      cases hb
    cases rest with
    | nil =>
      simp only [setLoopRef, Option.some.injEq] at hs
      subst hs
      rw [storeEntry_get?_other h a b part value hba]
      exact hb
    | cons p2 rest2 =>
      rcases setLoopRef_step h a part p2 rest2 ha with ⟨c, hl, e⟩ | ⟨-, e⟩ | ⟨-, e⟩
      · rw [e value] at hs
        obtain ⟨hc, hwc⟩ := wellFormedFrom_child h a c part hw hl
        exact ih h h' c value hc hwc hs b es hb
      · rw [e value] at hs
        cases hs
      · rw [e value] at hs
        obtain ⟨f1, f2, f3, f4, f5⟩ := fresh_facts h a part ha
        obtain ⟨fw, -, -⟩ := fresh_store _ h.length f3 f4
        apply ih _ h' h.length value f3 fw hs b es
        rw [storeEntry_get?_other _ a b part _ hba, get?_append_one h _ b hblt]
        exact hb

/-! ## Claims on the frame of `Set` -/

theorem SetRef_eq_some (σ σ' : RState) (k : String) (v : RVal) :
    SetRef σ k v = some σ' ↔
      ∃ h', setLoopRef (allocRoot σ.heap σ.configData).1 (allocRoot σ.heap σ.configData).2
          (strings_Split k '.') v = some h' ∧
        σ' = ⟨h', (allocRoot σ.heap σ.configData).2, σ.env⟩ := by
  unfold SetRef setInMapRef
  simp only [Option.map_map, Option.map_eq_some', Function.comp]
  constructor
  · rintro ⟨h', hs, rfl⟩
    exact ⟨h', hs, rfl⟩
  · rintro ⟨h', hs, rfl⟩
    exact ⟨h', hs, rfl⟩

/-- The store after the first statement of `setInMap`: its root is a table,
it is without sharing, and it resolves every non-empty path as before. -/
theorem allocRoot_ok (σ : RState) (hσ : unsharedStore σ) :
    ∃ a0, (allocRoot σ.heap σ.configData).2 = .mapAt a0 ∧
      isTable (allocRoot σ.heap σ.configData).1 a0 ∧
      wellFormedFrom (allocRoot σ.heap σ.configData).1 (.mapAt a0) ∧
      unsharedFrom (allocRoot σ.heap σ.configData).1 (.mapAt a0) ∧
      ∀ k q, getLoopRef (allocRoot σ.heap σ.configData).1 (.mapAt a0) (k :: q) =
        getLoopRef σ.heap σ.configData (k :: q) := by
  obtain ⟨hroot, hw, hu⟩ := hσ
  rcases hroot with hr | ⟨a, hr⟩
  · rw [hr]
    have ht : isTable (σ.heap ++ [.table []]) σ.heap.length := ⟨[], get?_append_new _ _⟩
    obtain ⟨fw, fu, -⟩ := fresh_store _ σ.heap.length ht (loadEntry_append_new σ.heap)
    refine ⟨σ.heap.length, rfl, ht, fw, fu, fun k q => ?_⟩
    show getLoopRef (σ.heap ++ [.table []]) (.mapAt σ.heap.length) (k :: q) = _
    rw [getLoopRef_of_empty _ _ (loadEntry_append_new σ.heap)]
    rfl
  · rw [hr] at hw hu ⊢
    exact ⟨a, rfl, hw [] a rfl, hw, hu, fun k q => rfl⟩

/-- A value that is not a map holds no map of the store. -/
theorem detached_of_not_map (σ : RState) (v : RVal) (hv : ∀ c, v ≠ .mapAt c) :
    detached σ v := by
  have key : ∀ q c, getLoopRef σ.heap v q ≠ some (.mapAt c) := by
    intro q c hq
    cases q with
    | nil =>
      simp only [getLoopRef, Option.some.injEq] at hq
      exact hv c hq
    | cons k r =>
      rw [getLoopRef_leaf σ.heap v hv] at hq
      cases hq
  exact ⟨fun q c hq => absurd hq (key q c), fun q1 _ b hq _ => absurd hq (key q1 b),
    fun _ q2 c _ hq => key q2 c hq⟩

/-- A value that holds no map of the store holds none after the first
statement of `setInMap`. -/
theorem detached_allocRoot (σ : RState) (v : RVal) (hσ : unsharedStore σ) (hd : detached σ v)
    (a0 : Nat) (hr0 : (allocRoot σ.heap σ.configData).2 = .mapAt a0) :
    wellFormedFrom (allocRoot σ.heap σ.configData).1 v ∧
      unsharedFrom (allocRoot σ.heap σ.configData).1 v ∧
      ∀ q1 q2 c, getLoopRef (allocRoot σ.heap σ.configData).1 (.mapAt a0) q1 = some (.mapAt c) →
        getLoopRef (allocRoot σ.heap σ.configData).1 v q2 = some (.mapAt c) → False := by
  obtain ⟨dw, du, dd⟩ := hd
  rcases hσ.1 with hr | ⟨a, hr⟩
  · rw [hr] at hr0 ⊢
    have ea : a0 = σ.heap.length := by
      have : RVal.mapAt σ.heap.length = RVal.mapAt a0 := hr0
      simp only [RVal.mapAt.injEq] at this
      exact this.symm
    subst ea
    have e : ∀ q, getLoopRef (σ.heap ++ [Obj.table []]) v q = getLoopRef σ.heap v q :=
      getLoopRef_append_obj σ.heap _ v dw
    show wellFormedFrom (σ.heap ++ [Obj.table []]) v ∧
      unsharedFrom (σ.heap ++ [Obj.table []]) v ∧
      ∀ q1 q2 c, getLoopRef (σ.heap ++ [Obj.table []]) (.mapAt σ.heap.length) q1 =
          some (.mapAt c) →
        getLoopRef (σ.heap ++ [Obj.table []]) v q2 = some (.mapAt c) → False
    refine ⟨?_, ?_, ?_⟩
    · intro q c hq
      rw [e q] at hq
      obtain ⟨es, hes⟩ := dw q c hq
      exact ⟨es, by rw [get?_append_one σ.heap _ c (isTable_lt _ c ⟨es, hes⟩)]; exact hes⟩
    · intro q1 q2 b h1 h2
      rw [e q1] at h1
      rw [e q2] at h2
      exact du q1 q2 b h1 h2
    · intro q1 q2 c h1 h2
      rw [e q2] at h2
      have hc := isTable_lt _ c (dw q2 c h2)
      cases q1 with
      | nil =>
        simp only [getLoopRef, Option.some.injEq, RVal.mapAt.injEq] at h1
        omega
      | cons k q =>
        rw [getLoopRef_of_empty _ _ (loadEntry_append_new σ.heap)] at h1
        cases h1
  · rw [hr] at hr0 dd ⊢
    have ea : a = a0 := by
      have : RVal.mapAt a = RVal.mapAt a0 := hr0
      simp only [RVal.mapAt.injEq] at this
      exact this
    subst ea
    exact ⟨dw, du, dd⟩

/-- A `Set` of a value that holds no map of the store leaves a store without
sharing. -/
theorem SetRef_keeps_unshared (σ σ' : RState) (k : String) (v : RVal) (hσ : unsharedStore σ)
    (hv : detached σ v) (hs : SetRef σ k v = some σ') :
    unsharedStore σ' ∧ ∃ a0, σ'.configData = .mapAt a0 := by
  obtain ⟨a0, hr0, ht0, hw0, hu0, -⟩ := allocRoot_ok σ hσ
  obtain ⟨dw, du, dd⟩ := detached_allocRoot σ v hσ hv a0 hr0
  obtain ⟨h', hl, rfl⟩ := (SetRef_eq_some σ σ' k v).1 hs
  rw [hr0] at hl ⊢
  obtain ⟨-, hw', hu'⟩ := setLoopRef_keeps_unshared _ _ h' a0 v (strings_Split_ne_nil k '.')
    ht0 hw0 hu0 dw du dd hl
  exact ⟨⟨Or.inr ⟨a0, rfl⟩, hw', hu'⟩, a0, rfl⟩

theorem SetRef_isSome_iff (σ : RState) (k : String) (v : RVal) (hσ : unsharedStore σ) :
    (∃ σ', SetRef σ k v = some σ') ↔
      ∀ pre rest, strings_Split k '.' = pre ++ rest → rest ≠ [] → pre ≠ [] →
        getLoopRef σ.heap σ.configData pre ≠ some .nilMap := by
  obtain ⟨a0, hr0, ht0, hw0, hu0, hsame⟩ := allocRoot_ok σ hσ
  have e1 : (∃ σ', SetRef σ k v = some σ') ↔
      ∃ h', setLoopRef (allocRoot σ.heap σ.configData).1 (.mapAt a0)
        (strings_Split k '.') v = some h' := by
    constructor
    · rintro ⟨σ', hs⟩
      obtain ⟨h', hl, -⟩ := (SetRef_eq_some σ σ' k v).1 hs
      rw [hr0] at hl
      exact ⟨h', hl⟩
    · rintro ⟨h', hl⟩
      exact ⟨_, (SetRef_eq_some σ _ k v).2 ⟨h', by rw [hr0]; exact hl, rfl⟩⟩
  rw [e1, setLoopRef_isSome_iff _ _ a0 v (strings_Split_ne_nil k '.') ht0 hw0]
  constructor
  · intro hc pre rest hp hrest hpre
    obtain ⟨x, pre', rfl⟩ := List.exists_cons_of_ne_nil hpre
    rw [← hsame x pre']
    exact hc _ rest hp hrest
  · intro hc pre rest hp hrest
    cases pre with
    | nil => simp [getLoopRef]
    | cons x pre' =>
      rw [hsame x pre']
      exact hc _ rest hp hrest (by simp)

/-- C36 (Set changes only the written path) as amended: on a store in which no
map is held in two places, for keys `k` and `k'` neither of whose segment
lists is a prefix of the other and every value, `getFromMap(k')` returns after
`Set(k, v)` what it returned before, also when `Set` replaced an intermediate
node that was not a map by a new map; when the result is a map, every path
below it resolves as before, and the backing array of every slice is as
before; and `Set` returns when no nil map is held below the root. -/
theorem SetRef_frame (σ : RState) (k k' : String) (value : RVal) (hσ : unsharedStore σ)
    (hk : unrelatedKeys k k') :
    (∀ σ', SetRef σ k value = some σ' →
        getFromMapRef σ' k' = getFromMapRef σ k' ∧
          (∀ q, getLoopRef σ'.heap σ'.configData (strings_Split k' '.' ++ q) =
            getLoopRef σ.heap σ.configData (strings_Split k' '.' ++ q)) ∧
          (∀ b es, σ.heap.get? b = some (.array es) → σ'.heap.get? b = some (.array es)) ∧
          σ'.env = σ.env) ∧
      (noNilBelow σ → ∃ σ', SetRef σ k value = some σ') := by
  obtain ⟨a0, hr0, ht0, hw0, hu0, hsame⟩ := allocRoot_ok σ hσ
  constructor
  · intro σ' hs
    obtain ⟨h', hl, rfl⟩ := (SetRef_eq_some σ σ' k value).1 hs
    rw [hr0] at hl
    obtain ⟨-, -, -, hfr⟩ := setLoopRef_effect _ _ h' a0 value (strings_Split_ne_nil k '.')
      ht0 hw0 hu0 hl
    obtain ⟨x, q0, hq⟩ := List.exists_cons_of_ne_nil (strings_Split_ne_nil k' '.')
    have below : ∀ q, getLoopRef h' (allocRoot σ.heap σ.configData).2
        (strings_Split k' '.' ++ q) =
          getLoopRef σ.heap σ.configData (strings_Split k' '.' ++ q) := by
      intro q
      have n1 : ¬ strings_Split k '.' <+: strings_Split k' '.' ++ q := fun hh =>
        (List.prefix_or_prefix_of_prefix hh (List.prefix_append _ _)).elim hk.1 hk.2
      have n2 : ¬ strings_Split k' '.' ++ q <+: strings_Split k '.' := fun hh =>
        hk.2 ((List.prefix_append _ _).trans hh)
      rw [hr0, hfr _ n1 n2, hq, List.cons_append, hsame x (q0 ++ q)]
    refine ⟨?_, below, ?_, rfl⟩
    · have := below []
      simp only [List.append_nil] at this
      exact this
    · intro b es hb
      apply setLoopRef_arrays _ _ h' a0 value ht0 hw0 hl b es
      rcases hσ.1 with hr | ⟨a, hr⟩
      · rw [hr]
        show (σ.heap ++ [Obj.table []]).get? b = some (Obj.array es)
        rw [get?_append_one σ.heap _ b]
        · exact hb
        · by_contra hlt
          rw [List.get?_eq_none.2 (by omega)] at hb
          cases hb
      · rw [hr]
        exact hb
  · intro hn
    apply (SetRef_isSome_iff σ k value hσ).2
    intro pre rest _ _ hpre
    exact hn pre hpre

theorem runSetsRef_pair (σ A : RState) (k1 k2 : String) (v1 v2 : RVal) :
    runSetsRef σ [(k1, v1), (k2, v2)] = some A ↔
      ∃ σ1, SetRef σ k1 v1 = some σ1 ∧ SetRef σ1 k2 v2 = some A := by
  simp only [runSetsRef]
  cases h1 : SetRef σ k1 v1 with
  | none => simp
  | some σ1 =>
    cases h2 : SetRef σ1 k2 v2 with
    | none => simp [h2]
    | some σ2 => simp [h2]

/-- Two `Set` calls on a store without sharing, seen on the heap after the
first statement of `setInMap`. -/
theorem runSetsRef_pair_heap (σ A : RState) (k1 k2 : String) (v1 v2 : RVal) (a0 : Nat)
    (hr0 : (allocRoot σ.heap σ.configData).2 = .mapAt a0) :
    runSetsRef σ [(k1, v1), (k2, v2)] = some A ↔
      ∃ h1 hA, setLoopRef (allocRoot σ.heap σ.configData).1 (.mapAt a0)
          (strings_Split k1 '.') v1 = some h1 ∧
        setLoopRef h1 (.mapAt a0) (strings_Split k2 '.') v2 = some hA ∧
        A = ⟨hA, .mapAt a0, σ.env⟩ := by
  rw [runSetsRef_pair]
  constructor
  · rintro ⟨σ1, hs1, hs2⟩
    obtain ⟨h1, hl1, rfl⟩ := (SetRef_eq_some σ σ1 k1 v1).1 hs1
    obtain ⟨hA, hl2, rfl⟩ := (SetRef_eq_some _ A k2 v2).1 hs2
    rw [hr0] at hl1 hl2 ⊢
    exact ⟨h1, hA, hl1, hl2, rfl⟩
  · rintro ⟨h1, hA, hl1, hl2, rfl⟩
    refine ⟨⟨h1, .mapAt a0, σ.env⟩, (SetRef_eq_some σ _ k1 v1).2 ⟨h1, ?_, ?_⟩,
      (SetRef_eq_some _ _ k2 v2).2 ⟨hA, hl2, rfl⟩⟩
    · rw [hr0]
      exact hl1
    · rw [hr0]

/-- C37 (Sets of unrelated keys commute; the last write wins) as amended: on a
store in which no map is held in two places, for keys `k1` and `k2` neither of
whose segment lists is a prefix of the other and values that hold no map of
the store, `Set(k1, v1); Set(k2, v2)` returns exactly when `Set(k2, v2);
Set(k1, v1)` returns, the two stores are then deep-equal and no backing array
of a slice has changed, and both return when no nil map is held below the
root.  For one key, `Set(k, w1); Set(k, w2)` returns exactly when `Set(k, w2)`
alone returns, and the two stores are deep-equal.  Every value that is not a
map holds no map of the store. -/
theorem SetRef_commute (σ : RState) (k1 k2 : String) (v1 v2 : RVal) (hσ : unsharedStore σ)
    (hv1 : detached σ v1) (hv2 : detached σ v2) (hk : unrelatedKeys k1 k2) :
    ((∃ A, runSetsRef σ [(k1, v1), (k2, v2)] = some A) ↔
        ∃ B, runSetsRef σ [(k2, v2), (k1, v1)] = some B) ∧
      (∀ A B, runSetsRef σ [(k1, v1), (k2, v2)] = some A →
        runSetsRef σ [(k2, v2), (k1, v1)] = some B →
        sameStore A B ∧ A.env = B.env ∧
          ∀ b es, σ.heap.get? b = some (.array es) →
            A.heap.get? b = some (.array es) ∧ B.heap.get? b = some (.array es)) ∧
      (noNilBelow σ → ∃ A, runSetsRef σ [(k1, v1), (k2, v2)] = some A) ∧
      (∀ (k : String) (w1 w2 : RVal), detached σ w1 → detached σ w2 →
        ((∃ A, runSetsRef σ [(k, w1), (k, w2)] = some A) ↔ ∃ B, SetRef σ k w2 = some B) ∧
        ∀ A B, runSetsRef σ [(k, w1), (k, w2)] = some A → SetRef σ k w2 = some B →
          sameStore A B) ∧
      ∀ v : RVal, (∀ c, v ≠ .mapAt c) → detached σ v := by
  obtain ⟨a0, hr0, ht0, hw0, hu0, hsame⟩ := allocRoot_ok σ hσ
  have det := fun v hv => detached_allocRoot σ v hσ hv a0 hr0
  have keep : ∀ (k : String) (v : RVal) (h1 : Heap), detached σ v →
      setLoopRef (allocRoot σ.heap σ.configData).1 (.mapAt a0) (strings_Split k '.') v =
        some h1 →
      isTable h1 a0 ∧ wellFormedFrom h1 (.mapAt a0) ∧ unsharedFrom h1 (.mapAt a0) := by
    intro k v h1 hv hl
    obtain ⟨dw, du, dd⟩ := det v hv
    exact setLoopRef_keeps_unshared _ _ h1 a0 v (strings_Split_ne_nil k '.') ht0 hw0 hu0
      dw du dd hl
  have succ : ∀ (ka kb : String) (va vb : RVal), detached σ va → unrelatedKeys ka kb →
      ((∃ A, runSetsRef σ [(ka, va), (kb, vb)] = some A) ↔
        (∃ r, setLoopRef (allocRoot σ.heap σ.configData).1 (.mapAt a0)
            (strings_Split ka '.') va = some r) ∧
          ∃ r, setLoopRef (allocRoot σ.heap σ.configData).1 (.mapAt a0)
            (strings_Split kb '.') vb = some r) := by
    intro ka kb va vb hva hab
    constructor
    · rintro ⟨A, hA⟩
      obtain ⟨h1, hA', hl1, hl2, -⟩ := (runSetsRef_pair_heap σ A ka kb va vb a0 hr0).1 hA
      obtain ⟨t1, w1, -⟩ := keep ka va h1 hva hl1
      exact ⟨⟨h1, hl1⟩, (setLoopRef_isSome_after _ _ hab.1 hab.2 _ h1 a0 va vb ht0 hw0 hu0
        hl1 t1 w1).1 ⟨hA', hl2⟩⟩
    · rintro ⟨⟨h1, hl1⟩, hb⟩
      obtain ⟨t1, w1, -⟩ := keep ka va h1 hva hl1
      obtain ⟨hA', hl2⟩ := (setLoopRef_isSome_after _ _ hab.1 hab.2 _ h1 a0 va vb ht0 hw0
        hu0 hl1 t1 w1).2 hb
      exact ⟨_, (runSetsRef_pair_heap σ _ ka kb va vb a0 hr0).2 ⟨h1, hA', hl1, hl2, rfl⟩⟩
  have hk' : unrelatedKeys k2 k1 := ⟨hk.2, hk.1⟩
  refine ⟨?_, ?_, ?_, ?_, fun v hv => detached_of_not_map σ v hv⟩
  · rw [succ k1 k2 v1 v2 hv1 hk, succ k2 k1 v2 v1 hv2 hk']
    exact And.comm
  · intro A B hA hB
    obtain ⟨h1, hA', hl1, hl2, rfl⟩ := (runSetsRef_pair_heap σ A k1 k2 v1 v2 a0 hr0).1 hA
    obtain ⟨g1, hB', hm1, hm2, rfl⟩ := (runSetsRef_pair_heap σ B k2 k1 v2 v1 a0 hr0).1 hB
    obtain ⟨t1, w1, u1⟩ := keep k1 v1 h1 hv1 hl1
    obtain ⟨t2, w2, u2⟩ := keep k2 v2 g1 hv2 hm1
    refine ⟨fun q => setLoopRef_commute _ _ hk.1 hk.2 _ h1 hA' g1 hB' a0 v1 v2 ht0 hw0
      hu0 (det v1 hv1).1 (det v2 hv2).1 t1 w1 u1 t2 w2 u2 hl1 hl2 hm1 hm2 q, rfl, ?_⟩
    intro b es hb
    have hb0 : (allocRoot σ.heap σ.configData).1.get? b = some (.array es) := by
      rcases hσ.1 with hr | ⟨a, hr⟩
      · rw [hr]
        show (σ.heap ++ [Obj.table []]).get? b = some (Obj.array es)
        rw [get?_append_one σ.heap _ b]
        · exact hb
        · by_contra hlt
          rw [List.get?_eq_none.2 (by omega)] at hb
          cases hb
      · rw [hr]
        exact hb
    exact ⟨setLoopRef_arrays _ h1 hA' a0 v2 t1 w1 hl2 b es
        (setLoopRef_arrays _ _ h1 a0 v1 ht0 hw0 hl1 b es hb0),
      setLoopRef_arrays _ g1 hB' a0 v1 t2 w2 hm2 b es
        (setLoopRef_arrays _ _ g1 a0 v2 ht0 hw0 hm1 b es hb0)⟩
  · intro hn
    apply (succ k1 k2 v1 v2 hv1 hk).2
    have one : ∀ (k : String) (v : RVal),
        ∃ r, setLoopRef (allocRoot σ.heap σ.configData).1 (.mapAt a0)
          (strings_Split k '.') v = some r := by
      intro k v
      obtain ⟨σ', hs⟩ := (SetRef_isSome_iff σ k v hσ).2 (fun pre _ _ _ hpre => hn pre hpre)
      obtain ⟨h', hl, -⟩ := (SetRef_eq_some σ σ' k v).1 hs
      rw [hr0] at hl
      exact ⟨h', hl⟩
    exact ⟨one k1 v1, one k2 v2⟩
  · intro k w1 w2 hw1 hw2
    have hne := strings_Split_ne_nil k '.'
    have alone : ∀ B, SetRef σ k w2 = some B ↔
        ∃ hB, setLoopRef (allocRoot σ.heap σ.configData).1 (.mapAt a0)
          (strings_Split k '.') w2 = some hB ∧ B = ⟨hB, .mapAt a0, σ.env⟩ := by
      intro B
      rw [SetRef_eq_some, hr0]
    constructor
    · constructor
      · rintro ⟨A, hA⟩
        obtain ⟨h1, hA', hl1, -, -⟩ := (runSetsRef_pair_heap σ A k k w1 w2 a0 hr0).1 hA
        obtain ⟨hB, hlB⟩ := (setLoopRef_isSome_iff _ _ a0 w2 hne ht0 hw0).2
          ((setLoopRef_isSome_iff _ _ a0 w1 hne ht0 hw0).1 ⟨h1, hl1⟩)
        exact ⟨_, (alone _).2 ⟨hB, hlB, rfl⟩⟩
      · rintro ⟨B, hB⟩
        obtain ⟨hB', hlB, -⟩ := (alone B).1 hB
        obtain ⟨h1, hl1⟩ := (setLoopRef_isSome_iff _ _ a0 w1 hne ht0 hw0).2
          ((setLoopRef_isSome_iff _ _ a0 w2 hne ht0 hw0).1 ⟨hB', hlB⟩)
        obtain ⟨t1, wf1, -⟩ := keep k w1 h1 hw1 hl1
        obtain ⟨-, hpre, -, -⟩ := setLoopRef_effect _ _ h1 a0 w1 hne ht0 hw0 hu0 hl1
        obtain ⟨hA', hl2⟩ := (setLoopRef_isSome_iff _ h1 a0 w2 hne t1 wf1).2 (by
          intro pre rest hp hrest
          obtain ⟨b, hb, -, -⟩ := hpre pre rest hp hrest
          rw [hb]
          simp)
        exact ⟨_, (runSetsRef_pair_heap σ _ k k w1 w2 a0 hr0).2 ⟨h1, hA', hl1, hl2, rfl⟩⟩
    · intro A B hA hB q
      obtain ⟨h1, hA', hl1, hl2, rfl⟩ := (runSetsRef_pair_heap σ A k k w1 w2 a0 hr0).1 hA
      obtain ⟨hB', hlB, rfl⟩ := (alone B).1 hB
      obtain ⟨t1, wf1, u1⟩ := keep k w1 h1 hw1 hl1
      obtain ⟨-, -, uB⟩ := keep k w2 hB' hw2 hlB
      exact setLoopRef_twice _ hne _ h1 hA' hB' a0 w1 w2 ht0 hw0 hu0 (det w2 hw2).1
        t1 wf1 u1 uB hl1 hl2 hlB q

theorem mem_of_lookup (es : List (String × RVal)) (k : String) (x : RVal)
    (h : es.lookup k = some x) : (k, x) ∈ es := by
  induction es with
  | nil => simp [List.lookup] at h
  | cons e rest ih =>
    obtain ⟨k', x'⟩ := e
    simp only [List.lookup] at h
    split at h
    · rename_i heq
      have hk : k = k' := by simpa using heq
      simp only [Option.some.injEq] at h
      subst hk
      subst h
      exact List.mem_cons_self _ _
    · exact List.mem_cons_of_mem _ (ih h)

/-- From a table that holds no table, the empty path alone reaches a table. -/
theorem getLoopRef_flat (h : Heap) (a : Nat) (es : List (String × RVal))
    (he : h.get? a = some (.table es)) (hl : ∀ e ∈ es, ∀ b, e.2 ≠ .mapAt b) :
    ∀ q b, getLoopRef h (.mapAt a) q = some (.mapAt b) → q = [] ∧ b = a := by
  intro q b hq
  cases q with
  | nil =>
    simp only [getLoopRef, Option.some.injEq, RVal.mapAt.injEq] at hq
    exact ⟨rfl, hq.symm⟩
  | cons k q =>
    rw [getLoopRef_cons, loadEntry_eq, he] at hq
    cases hx : es.lookup k with
    | none => simp [hx] at hq
    | some x =>
      have hx' := hl _ (mem_of_lookup es k x hx)
      simp only [hx, Option.some_bind] at hq
      cases q with
      | nil =>
        simp only [getLoopRef, Option.some.injEq] at hq
        exact absurd hq (hx' b)
      | cons k' q' =>
        rw [getLoopRef_leaf h x hx'] at hq
        cases hq

/-- A store whose root table holds no table is without sharing. -/
theorem unsharedStore_flat (h : Heap) (a : Nat) (env : Env) (es : List (String × RVal))
    (he : h.get? a = some (.table es)) (hl : ∀ e ∈ es, ∀ b, e.2 ≠ .mapAt b) :
    unsharedStore ⟨h, .mapAt a, env⟩ := by
  have key := getLoopRef_flat h a es he hl
  refine ⟨Or.inr ⟨a, rfl⟩, ?_, ?_⟩
  · intro q b hq
    rw [(key q b hq).2]
    exact ⟨es, he⟩
  · intro q1 q2 b h1 h2
    rw [(key q1 b h1).1, (key q2 b h2).1]

/-- A map that holds no table and is not the root holds no map of a store
whose root table holds no table. -/
theorem detached_flat (h : Heap) (a c : Nat) (env : Env) (es fs : List (String × RVal))
    (he : h.get? a = some (.table es)) (hl : ∀ e ∈ es, ∀ b, e.2 ≠ .mapAt b)
    (hf : h.get? c = some (.table fs)) (hm : ∀ e ∈ fs, ∀ b, e.2 ≠ .mapAt b) (hac : a ≠ c) :
    detached ⟨h, .mapAt a, env⟩ (.mapAt c) := by
  have keya := getLoopRef_flat h a es he hl
  have keyc := getLoopRef_flat h c fs hf hm
  refine ⟨?_, ?_, ?_⟩
  · intro q b hq
    rw [(keyc q b hq).2]
    exact ⟨fs, hf⟩
  · intro q1 q2 b h1 h2
    rw [(keyc q1 b h1).1, (keyc q2 b h2).1]
  · intro q1 q2 b h1 h2
    exact hac ((keya q1 b h1).2.symm.trans (keyc q2 b h2).2)

/-- C36 (Set changes only the written path), the claim fails on a store that
holds one map under two keys.  After `Reset()`, `Set("a.x", 1)` and `Set("b",
GetStringMap("a"))` the keys `a` and `b` hold the same map object; the keys
`a.x` and `b.x` are unrelated, `getFromMap("b.x")` returns 1, and after
`Set("a.x", 2)` it returns 2. -/
theorem SetRef_shared_changes_other_key :
    ResetRef ⟨[], .nilMap, []⟩ = ⟨[.table []], .mapAt 0, []⟩ ∧
      SetRef ⟨[.table []], .mapAt 0, []⟩ "a.x" (.direct (.int 1)) =
        some ⟨[.table [("a", .mapAt 1)], .table [("x", .direct (.int 1))]], .mapAt 0, []⟩ ∧
      GetStringMapRef
          ⟨[.table [("a", .mapAt 1)], .table [("x", .direct (.int 1))]], .mapAt 0, []⟩ "a" =
        ([.table [("a", .mapAt 1)], .table [("x", .direct (.int 1))]], .mapAt 1) ∧
      SetRef ⟨[.table [("a", .mapAt 1)], .table [("x", .direct (.int 1))]], .mapAt 0, []⟩
          "b" (.mapAt 1) =
        some ⟨[.table [("a", .mapAt 1), ("b", .mapAt 1)], .table [("x", .direct (.int 1))]],
          .mapAt 0, []⟩ ∧
      unrelatedKeys "a.x" "b.x" ∧
      getFromMapRef
          ⟨[.table [("a", .mapAt 1), ("b", .mapAt 1)], .table [("x", .direct (.int 1))]],
            .mapAt 0, []⟩ "b.x" = some (.direct (.int 1)) ∧
      SetRef
          ⟨[.table [("a", .mapAt 1), ("b", .mapAt 1)], .table [("x", .direct (.int 1))]],
            .mapAt 0, []⟩ "a.x" (.direct (.int 2)) =
        some ⟨[.table [("a", .mapAt 1), ("b", .mapAt 1)], .table [("x", .direct (.int 2))]],
          .mapAt 0, []⟩ ∧
      getFromMapRef
          ⟨[.table [("a", .mapAt 1), ("b", .mapAt 1)], .table [("x", .direct (.int 2))]],
            .mapAt 0, []⟩ "b.x" = some (.direct (.int 2)) :=
  ⟨rfl, rfl, rfl, rfl, by decide, rfl, rfl, rfl⟩

theorem SetRef_frame_witness :
    SetRef ⟨[.table [("a", .direct (.int 5)), ("c", .direct (.int 7))]], .mapAt 0, []⟩ "a.b"
        (.direct (.int 1)) =
      some ⟨[.table [("a", .mapAt 1), ("c", .direct (.int 7))],
        .table [("b", .direct (.int 1))]], .mapAt 0, []⟩ ∧
      getFromMapRef ⟨[.table [("a", .mapAt 1), ("c", .direct (.int 7))],
          .table [("b", .direct (.int 1))]], .mapAt 0, []⟩ "c" =
        getFromMapRef ⟨[.table [("a", .direct (.int 5)), ("c", .direct (.int 7))]], .mapAt 0, []⟩
          "c" ∧
      getFromMapRef ⟨[.table [("a", .mapAt 1), ("c", .direct (.int 7))],
          .table [("b", .direct (.int 1))]], .mapAt 0, []⟩ "a.c" = none :=
  ⟨rfl,
    ((SetRef_frame ⟨[.table [("a", .direct (.int 5)), ("c", .direct (.int 7))]], .mapAt 0, []⟩
      "a.b" "c" (.direct (.int 1))
      (unsharedStore_flat _ 0 [] _ rfl (by
        intro e he b
        simp only [List.mem_cons, List.mem_singleton, List.not_mem_nil, or_false] at he
        rcases he with rfl | rfl <;> exact fun e => by cases e))
      (by decide)).1 _ rfl).1,
    rfl⟩

/-- C37 (Sets of unrelated keys commute), the claim fails on a store that holds
one map under two keys.  On the store left by `Reset()`, `Set("a.x", 1)` and
`Set("b", GetStringMap("a"))` the keys `a.x` and `b.x` are unrelated and name
the same entry: `Set("a.x", 10); Set("b.x", 20)` leaves 20 there, `Set("b.x",
20); Set("a.x", 10)` leaves 10, and the two stores are not deep-equal. -/
theorem SetRef_shared_not_commute :
    runSetsRef (ResetRef ⟨[], .nilMap, []⟩) [("a.x", .direct (.int 1)), ("b", .mapAt 1)] =
        some ⟨[.table [("a", .mapAt 1), ("b", .mapAt 1)], .table [("x", .direct (.int 1))]],
          .mapAt 0, []⟩ ∧
      unrelatedKeys "a.x" "b.x" ∧
      runSetsRef
          ⟨[.table [("a", .mapAt 1), ("b", .mapAt 1)], .table [("x", .direct (.int 1))]],
            .mapAt 0, []⟩ [("a.x", .direct (.int 10)), ("b.x", .direct (.int 20))] =
        some ⟨[.table [("a", .mapAt 1), ("b", .mapAt 1)], .table [("x", .direct (.int 20))]],
          .mapAt 0, []⟩ ∧
      runSetsRef
          ⟨[.table [("a", .mapAt 1), ("b", .mapAt 1)], .table [("x", .direct (.int 1))]],
            .mapAt 0, []⟩ [("b.x", .direct (.int 20)), ("a.x", .direct (.int 10))] =
        some ⟨[.table [("a", .mapAt 1), ("b", .mapAt 1)], .table [("x", .direct (.int 10))]],
          .mapAt 0, []⟩ ∧
      ¬ sameStore
        ⟨[.table [("a", .mapAt 1), ("b", .mapAt 1)], .table [("x", .direct (.int 20))]],
          .mapAt 0, []⟩
        ⟨[.table [("a", .mapAt 1), ("b", .mapAt 1)], .table [("x", .direct (.int 10))]],
          .mapAt 0, []⟩ := by
  refine ⟨rfl, by decide, rfl, rfl, ?_⟩
  intro hs
  have := hs ["a", "x"]
  simp [getLoopRef, loadEntry, rangeEntries, List.lookup, RVal.shape] at this

theorem SetRef_commute_witness :
    runSetsRef ⟨[.table [], .table [("x", .direct (.int 1))]], .mapAt 0, []⟩
        [("a.b", .mapAt 1), ("c", .direct (.int 2))] =
        some ⟨[.table [("a", .mapAt 2), ("c", .direct (.int 2))],
          .table [("x", .direct (.int 1))], .table [("b", .mapAt 1)]], .mapAt 0, []⟩ ∧
      runSetsRef ⟨[.table [], .table [("x", .direct (.int 1))]], .mapAt 0, []⟩
        [("c", .direct (.int 2)), ("a.b", .mapAt 1)] =
        some ⟨[.table [("c", .direct (.int 2)), ("a", .mapAt 2)],
          .table [("x", .direct (.int 1))], .table [("b", .mapAt 1)]], .mapAt 0, []⟩ ∧
      sameStore
        ⟨[.table [("a", .mapAt 2), ("c", .direct (.int 2))],
          .table [("x", .direct (.int 1))], .table [("b", .mapAt 1)]], .mapAt 0, []⟩
        ⟨[.table [("c", .direct (.int 2)), ("a", .mapAt 2)],
          .table [("x", .direct (.int 1))], .table [("b", .mapAt 1)]], .mapAt 0, []⟩ :=
  ⟨rfl, rfl,
    ((SetRef_commute ⟨[.table [], .table [("x", .direct (.int 1))]], .mapAt 0, []⟩ "a.b" "c"
      (.mapAt 1) (.direct (.int 2))
      (unsharedStore_flat _ 0 [] _ rfl (fun e he => absurd he (List.not_mem_nil e)))
      (detached_flat _ 0 1 [] _ _ rfl (fun e he => absurd he (List.not_mem_nil e)) rfl
        (by
          intro e he b
          simp only [List.mem_singleton] at he
          subst he
          exact fun e => by cases e)
        (by decide))
      (detached_of_not_map _ _ (fun c e => by cases e)) (by decide)).2.1 _ _ rfl rfl).1⟩

end Config
